import Mathlib

/-!
Shallow embedding of the thriftrw core (Thrift binary protocol codec,
read/write buffers, and the spec tree's value bridge), together with
proofs about the properties stated in its specification.

Machine integers of the Cython source (int8_t .. int64_t) are modelled as
`Int` with explicit two's-complement reduction; byte strings are
`List Nat` with every element below 256.
-/

namespace Thriftrw

/-! ### Bytes and big-endian integers (thriftrw/protocol/_endian, C casts) -/

/-- The low byte of an integer, as written by a C `char` cast. -/
def u8 (i : Int) : Nat := (i.emod 256).toNat

/-- Big-endian byte string of `n`, `w` bytes wide (most significant first). -/
def beNat : (w : Nat) → (n : Nat) → List Nat
  | 0, _ => []
  | w + 1, n => beNat w (n / 256) ++ [n % 256]

/-- Big-endian two's-complement byte string of `i`, `w` bytes wide. -/
def beI (w : Nat) (i : Int) : List Nat := beNat w ((i.emod ((2 : Int) ^ (8 * w))).toNat)

/-- Fold a big-endian byte string back into a natural number. -/
def beToNat (bs : List Nat) : Nat := bs.foldl (fun a b => a * 256 + b) 0

/-- Reinterpret an unsigned `bits`-wide value as a signed one
(two's complement), as the C `intN_t` reads of the source do. -/
def toSigned (bits : Nat) (n : Nat) : Int :=
  if n < 2 ^ (bits - 1) then (n : Int) else (n : Int) - 2 ^ bits

/-! ### TType codes (thriftrw/wire/ttype.pyx) -/

namespace ttype

def BOOL : Int := 2
def BYTE : Int := 3
def DOUBLE : Int := 4
def I16 : Int := 6
def I32 : Int := 8
def I64 : Int := 10
def BINARY : Int := 11
def STRUCT : Int := 12
def MAP : Int := 13
def SET : Int := 14
def LIST : Int := 15

end ttype

/-! ### Wire values (thriftrw/wire/value.pyx)

A struct field value is the triple `(id, ttype, value)` of `FieldValue`. -/

inductive WVal : Type where
  | wbool (value : Bool)
  | wbyte (value : Int)
  | wdouble (bits : Nat)
  | wi16 (value : Int)
  | wi32 (value : Int)
  | wi64 (value : Int)
  | wbinary (value : List Nat)
  | wstruct (fields : List (Int × Int × WVal))
  | wmap (keyTtype valueTtype : Int) (pairs : List (WVal × WVal))
  | wset (valueTtype : Int) (values : List WVal)
  | wlist (valueTtype : Int) (values : List WVal)

/-- The `ttype_code` attribute of every `Value` subclass. -/
def WVal.ttypeCode : WVal → Int
  | .wbool _ => ttype.BOOL
  | .wbyte _ => ttype.BYTE
  | .wdouble _ => ttype.DOUBLE
  | .wi16 _ => ttype.I16
  | .wi32 _ => ttype.I32
  | .wi64 _ => ttype.I64
  | .wbinary _ => ttype.BINARY
  | .wstruct _ => ttype.STRUCT
  | .wmap _ _ _ => ttype.MAP
  | .wset _ _ => ttype.SET
  | .wlist _ _ => ttype.LIST

/-- `StructValue.get(field_id, field_ttype)`: the `(id, ttype)` index built in
`StructValue.__init__` keeps the last field for a repeated key; `get` returns
it or `None`. -/
def structGet (fields : List (Int × Int × WVal)) (fieldId fieldTtype : Int) :
    Option (Int × Int × WVal) :=
  (fields.filter (fun f => f.1 == fieldId && f.2.1 == fieldTtype)).getLast?

/-! ### Errors (thriftrw/errors.py is not part of the sources; the
constructors are modelled from the spec's error-kind list §7 and from their
raise sites in the sources).

`unknownException` is modelled from the spec: "UnknownExceptionError —
deserialized function result contained an unrecognized exception id; carries
the wire struct"; its payload is optional because `FunctionResultSpec.read_from`
raises it with a message only while `FunctionResultSpec.from_wire` passes the
offending wire struct as a second argument.

`fuelOut` is an artifact of the embedding only: the source recursion is
unbounded, and every theorem below supplies enough fuel for `fuelOut` to be
unreachable. -/

inductive PyErr : Type where
  | endOfInput
  | thriftProtocolError
  | typeError
  | valueError
  | attributeError
  | unknownException (thriftResponse : Option WVal)
  | fuelOut

/-! ### ReadBuffer (thriftrw/_buffer.pyx) -/

structure ReadBuffer : Type where
  data : List Nat
  offset : Nat
  deriving Repr, DecidableEq

namespace ReadBuffer

/-- The `available` property: `length - offset`. -/
def available (rb : ReadBuffer) : Nat := rb.data.length - rb.offset

/-- The bytes not consumed yet (a convenience view, not a source method). -/
def rest (rb : ReadBuffer) : List Nat := rb.data.drop rb.offset

/-- `ReadBuffer.take(count)`: errors with `EndOfInputError` when
`count > length - offset`, otherwise returns `data[offset:offset+count]` and
advances the offset. -/
def take (rb : ReadBuffer) (count : Nat) : Except PyErr (List Nat × ReadBuffer) :=
  if count > rb.data.length - rb.offset then .error .endOfInput
  else .ok ((rb.data.drop rb.offset).take count, ⟨rb.data, rb.offset + count⟩)

/-- `ReadBuffer.read(dest, count)`: same bound check as `take`; the bytes
copied into `dest` are returned. -/
def read (rb : ReadBuffer) (count : Nat) : Except PyErr (List Nat × ReadBuffer) :=
  if count > rb.data.length - rb.offset then .error .endOfInput
  else .ok ((rb.data.drop rb.offset).take count, ⟨rb.data, rb.offset + count⟩)

/-- `ReadBuffer.skip(count)`: same bound check, no copying. -/
def skip (rb : ReadBuffer) (count : Nat) : Except PyErr ReadBuffer :=
  if count > rb.data.length - rb.offset then .error .endOfInput
  else .ok ⟨rb.data, rb.offset + count⟩

end ReadBuffer

/-! ### WriteBuffer (thriftrw/_buffer.pyx)

Only the capacity bookkeeping matters to the claims; the byte contents of
serialization are modelled separately as pure byte strings. -/

structure WriteBuffer : Type where
  length : Nat
  capacity : Nat
  deriving Repr, DecidableEq

namespace WriteBuffer

/-- `WriteBuffer.ensure_capacity(min_bytes)`: returns the buffer after the
reallocation (the total allocated size is `length + capacity`). -/
def ensure_capacity (wb : WriteBuffer) (minBytes : Nat) : WriteBuffer :=
  if minBytes ≤ wb.capacity then wb
  else
    let newTotalLength0 := wb.length * 2
    let newTotalLength :=
      if newTotalLength0 - wb.length < minBytes then newTotalLength0 + minBytes
      else newTotalLength0
    ⟨wb.length, newTotalLength - wb.length⟩

/-- Total allocated size of the buffer. -/
def total (wb : WriteBuffer) : Nat := wb.length + wb.capacity

end WriteBuffer

/-! ### Binary protocol headers (thriftrw/protocol/core.pyx) -/

structure FieldHeader : Type where
  type : Int
  id : Int

structure MapHeader : Type where
  ktype : Int
  vtype : Int
  size : Int

structure SetHeader : Type where
  type : Int
  size : Int

structure ListHeader : Type where
  type : Int
  size : Int

structure MessageHeader : Type where
  name : List Nat
  type : Int
  seqid : Int

/-- `thriftrw.wire.message.Message` (only the parts the codec touches). -/
structure Message : Type where
  name : List Nat
  seqid : Int
  body : WVal
  messageType : Int

/-- The signed-count variant of `take` used where the protocol layer passes
an `int32` length straight through. The bound check `count > available` is
the source's; for a negative count CPython slices an empty byte string (as
here) but would also move the offset backwards, a path no claim exercises
and which the embedding leaves at the current offset. -/
def ReadBuffer.takeSigned (rb : ReadBuffer) (count : Int) :
    Except PyErr (List Nat × ReadBuffer) :=
  if count > (rb.available : Int) then .error .endOfInput
  else .ok ((rb.data.drop rb.offset).take count.toNat, ⟨rb.data, rb.offset + count.toNat⟩)

/-- Signed-count variant of `skip` (see `takeSigned`). -/
def ReadBuffer.skipSigned (rb : ReadBuffer) (count : Int) : Except PyErr ReadBuffer :=
  if count > (rb.available : Int) then .error .endOfInput
  else .ok ⟨rb.data, rb.offset + count.toNat⟩

/-! ### BinaryProtocolReader primitives (thriftrw/protocol/binary.pyx) -/

namespace BinaryProtocolReader

/-- `_byte`: one byte read as `int8_t`. -/
def i8 (rb : ReadBuffer) : Except PyErr (Int × ReadBuffer) := do
  let (bs, rb') ← rb.read 1
  .ok (toSigned 8 (beToNat bs), rb')

/-- `_i16`: two bytes, big-endian, as `int16_t`. -/
def i16 (rb : ReadBuffer) : Except PyErr (Int × ReadBuffer) := do
  let (bs, rb') ← rb.read 2
  .ok (toSigned 16 (beToNat bs), rb')

/-- `_i32`: four bytes, big-endian, as `int32_t`. -/
def i32 (rb : ReadBuffer) : Except PyErr (Int × ReadBuffer) := do
  let (bs, rb') ← rb.read 4
  .ok (toSigned 32 (beToNat bs), rb')

/-- `_i64`: eight bytes, big-endian, as `int64_t`. -/
def i64 (rb : ReadBuffer) : Except PyErr (Int × ReadBuffer) := do
  let (bs, rb') ← rb.read 8
  .ok (toSigned 64 (beToNat bs), rb')

/-- `_double`: the eight big-endian bytes are kept as the raw IEEE-754 bit
pattern (the source reinterprets the `int64_t` in memory). -/
def double (rb : ReadBuffer) : Except PyErr (Nat × ReadBuffer) := do
  let (bs, rb') ← rb.read 8
  .ok (beToNat bs, rb')

/-- `read_bool`: `self._byte() == 1`. -/
def read_bool (rb : ReadBuffer) : Except PyErr (Bool × ReadBuffer) := do
  let (b, rb') ← i8 rb
  .ok (b == 1, rb')

/-- `read_binary`: `len:i32` then `take(len)`. -/
def read_binary (rb : ReadBuffer) : Except PyErr (List Nat × ReadBuffer) := do
  let (length, rb') ← i32 rb
  rb'.takeSigned length

/-- `skip_binary`: `len:i32` then `skip(len)`. -/
def skip_binary (rb : ReadBuffer) : Except PyErr ReadBuffer := do
  let (length, rb') ← i32 rb
  rb'.skipSigned length

/-- `read_field_begin`: a `0` type byte is the struct-end sentinel
`FieldHeader(-1, -1)`; otherwise the type byte is followed by the id. -/
def read_field_begin (rb : ReadBuffer) : Except PyErr (FieldHeader × ReadBuffer) := do
  let (fieldType, rb') ← i8 rb
  if fieldType = 0 then .ok (⟨-1, -1⟩, rb')
  else do
    let (fieldId, rb'') ← i16 rb'
    .ok (⟨fieldType, fieldId⟩, rb'')

/-- `read_map_begin`: `ktype:i8 vtype:i8 size:i32`. -/
def read_map_begin (rb : ReadBuffer) : Except PyErr (MapHeader × ReadBuffer) := do
  let (k, rb1) ← i8 rb
  let (v, rb2) ← i8 rb1
  let (size, rb3) ← i32 rb2
  .ok (⟨k, v, size⟩, rb3)

/-- `read_set_begin`: `type:i8 size:i32`. -/
def read_set_begin (rb : ReadBuffer) : Except PyErr (SetHeader × ReadBuffer) := do
  let (v, rb1) ← i8 rb
  let (size, rb2) ← i32 rb1
  .ok (⟨v, size⟩, rb2)

/-- `read_list_begin`: `type:i8 size:i32`. -/
def read_list_begin (rb : ReadBuffer) : Except PyErr (ListHeader × ReadBuffer) := do
  let (v, rb1) ← i8 rb
  let (size, rb2) ← i32 rb1
  .ok (⟨v, size⟩, rb2)

/-- Strict-envelope version mask `0x7fff0000`. -/
def VERSION_MASK : Int := 0x7fff0000

/-- Type mask `0x000000ff`. -/
def TYPE_MASK : Int := 0x000000ff

/-- `read_message_begin`: a negative leading i32 selects the strict envelope
(version must be 1, else `ThriftProtocolError`), a non-negative one is the
name length of a non-strict envelope. The strict-branch type is stored into
a `cdef int8_t`, so `size & TYPE_MASK` wraps to the signed byte range. -/
def read_message_begin (rb : ReadBuffer) : Except PyErr (MessageHeader × ReadBuffer) := do
  let (size, rb1) ← i32 rb
  if size < 0 then do
    let version := (Int.land size VERSION_MASK) >>> 16
    if version ≠ 1 then .error .thriftProtocolError
    else do
      let typ := toSigned 8 (Int.land size TYPE_MASK).toNat
      let (size2, rb2) ← i32 rb1
      let (name, rb3) ← rb2.takeSigned size2
      let (seqid, rb4) ← i32 rb3
      .ok (⟨name, typ, seqid⟩, rb4)
  else do
    let (name, rb2) ← rb1.takeSigned size
    let (typ, rb3) ← i8 rb2
    let (seqid, rb4) ← i32 rb3
    .ok (⟨name, typ, seqid⟩, rb4)

mutual

/-- `skip` and its helpers, with explicit fuel standing in for the source's
unbounded recursion. A type code without a branch in the source's dispatch
skips nothing, exactly as the `if/elif` chain of `skip` does. -/
def skipVal : Nat → Int → ReadBuffer → Except PyErr ReadBuffer
  | 0, _, _ => .error .fuelOut
  | fuel + 1, typ, rb =>
    if typ = ttype.BOOL then rb.skip 1
    else if typ = ttype.BYTE then rb.skip 1
    else if typ = ttype.DOUBLE then rb.skip 8
    else if typ = ttype.I16 then rb.skip 2
    else if typ = ttype.I32 then rb.skip 4
    else if typ = ttype.I64 then rb.skip 8
    else if typ = ttype.BINARY then skip_binary rb
    else if typ = ttype.STRUCT then skipStruct fuel rb
    else if typ = ttype.MAP then skipMap fuel rb
    else if typ = ttype.SET then skipSet fuel rb
    else if typ = ttype.LIST then skipList fuel rb
    else .ok rb
termination_by fuel typ rb => (fuel, 0)

def skipStruct : Nat → ReadBuffer → Except PyErr ReadBuffer
  | 0, _ => .error .fuelOut
  | fuel + 1, rb => do
    let (header, rb1) ← read_field_begin rb
    if header.type = -1 then .ok rb1
    else do
      let rb2 ← skipVal fuel header.type rb1
      skipStruct fuel rb2
termination_by fuel rb => (fuel, 0)

def skipMap : Nat → ReadBuffer → Except PyErr ReadBuffer
  | 0, _ => .error .fuelOut
  | fuel + 1, rb => do
    let (header, rb1) ← read_map_begin rb
    skipPairs fuel header.ktype header.vtype header.size.toNat rb1
termination_by fuel rb => (fuel, 0)

def skipPairs : Nat → Int → Int → Nat → ReadBuffer → Except PyErr ReadBuffer
  | _, _, _, 0, rb => .ok rb
  | fuel, kt, vt, n + 1, rb => do
    let rb1 ← skipVal fuel kt rb
    let rb2 ← skipVal fuel vt rb1
    skipPairs fuel kt vt n rb2
termination_by fuel kt vt n rb => (fuel, n + 1)

def skipSet : Nat → ReadBuffer → Except PyErr ReadBuffer
  | 0, _ => .error .fuelOut
  | fuel + 1, rb => do
    let (header, rb1) ← read_set_begin rb
    skipElems fuel header.type header.size.toNat rb1
termination_by fuel rb => (fuel, 0)

def skipList : Nat → ReadBuffer → Except PyErr ReadBuffer
  | 0, _ => .error .fuelOut
  | fuel + 1, rb => do
    let (header, rb1) ← read_list_begin rb
    skipElems fuel header.type header.size.toNat rb1
termination_by fuel rb => (fuel, 0)

def skipElems : Nat → Int → Nat → ReadBuffer → Except PyErr ReadBuffer
  | _, _, 0, rb => .ok rb
  | fuel, t, n + 1, rb => do
    let rb1 ← skipVal fuel t rb
    skipElems fuel t n rb1
termination_by fuel t n rb => (fuel, n + 1)

end

end BinaryProtocolReader

/-- Whether a type code has a branch in `_OldBinaryProtocolReader._reader`
(the codes the old value reader can dispatch on). -/
def knownTtype (typ : Int) : Bool :=
  typ == ttype.BOOL || typ == ttype.BYTE || typ == ttype.DOUBLE || typ == ttype.I16 ||
  typ == ttype.I32 || typ == ttype.I64 || typ == ttype.BINARY || typ == ttype.STRUCT ||
  typ == ttype.MAP || typ == ttype.SET || typ == ttype.LIST

/-! ### The old wire-value reader (`_OldBinaryProtocolReader`) -/

namespace OldReader

open BinaryProtocolReader

mutual

/-- `read(typ)` and the `read_*` methods producing `Value` objects. The
container readers look their element readers up before looping, so an
unknown element type fails even for empty containers. -/
def readVal : Nat → Int → ReadBuffer → Except PyErr (WVal × ReadBuffer)
  | 0, _, _ => .error .fuelOut
  | fuel + 1, typ, rb =>
    if typ = ttype.BOOL then do
      let (b, rb') ← read_bool rb
      .ok (.wbool b, rb')
    else if typ = ttype.BYTE then do
      let (b, rb') ← i8 rb
      .ok (.wbyte b, rb')
    else if typ = ttype.DOUBLE then do
      let (bits, rb') ← double rb
      .ok (.wdouble bits, rb')
    else if typ = ttype.I16 then do
      let (v, rb') ← i16 rb
      .ok (.wi16 v, rb')
    else if typ = ttype.I32 then do
      let (v, rb') ← i32 rb
      .ok (.wi32 v, rb')
    else if typ = ttype.I64 then do
      let (v, rb') ← i64 rb
      .ok (.wi64 v, rb')
    else if typ = ttype.BINARY then do
      let (bs, rb') ← read_binary rb
      .ok (.wbinary bs, rb')
    else if typ = ttype.STRUCT then do
      let (fields, rb') ← readFields fuel rb
      .ok (.wstruct fields, rb')
    else if typ = ttype.MAP then do
      let (header, rb1) ← read_map_begin rb
      if knownTtype header.ktype && knownTtype header.vtype then do
        let (pairs, rb2) ← readPairs fuel header.ktype header.vtype header.size.toNat rb1
        .ok (.wmap header.ktype header.vtype pairs, rb2)
      else .error .thriftProtocolError
    else if typ = ttype.SET then do
      let (header, rb1) ← read_set_begin rb
      if knownTtype header.type then do
        let (vals, rb2) ← readElems fuel header.type header.size.toNat rb1
        .ok (.wset header.type vals, rb2)
      else .error .thriftProtocolError
    else if typ = ttype.LIST then do
      let (header, rb1) ← read_list_begin rb
      if knownTtype header.type then do
        let (vals, rb2) ← readElems fuel header.type header.size.toNat rb1
        .ok (.wlist header.type vals, rb2)
      else .error .thriftProtocolError
    else .error .thriftProtocolError
termination_by fuel typ rb => (fuel, 0)

def readFields : Nat → ReadBuffer → Except PyErr (List (Int × Int × WVal) × ReadBuffer)
  | 0, _ => .error .fuelOut
  | fuel + 1, rb => do
    let (fieldType, rb1) ← i8 rb
    if fieldType = 0 then .ok ([], rb1)
    else do
      let (fieldId, rb2) ← i16 rb1
      let (value, rb3) ← readVal fuel fieldType rb2
      let (restFields, rb4) ← readFields fuel rb3
      .ok ((fieldId, fieldType, value) :: restFields, rb4)
termination_by fuel rb => (fuel, 0)

def readPairs :
    Nat → Int → Int → Nat → ReadBuffer → Except PyErr (List (WVal × WVal) × ReadBuffer)
  | _, _, _, 0, rb => .ok ([], rb)
  | fuel, kt, vt, n + 1, rb => do
    let (k, rb1) ← readVal fuel kt rb
    let (v, rb2) ← readVal fuel vt rb1
    let (restPairs, rb3) ← readPairs fuel kt vt n rb2
    .ok ((k, v) :: restPairs, rb3)
termination_by fuel kt vt n rb => (fuel, n + 1)

def readElems : Nat → Int → Nat → ReadBuffer → Except PyErr (List WVal × ReadBuffer)
  | _, _, 0, rb => .ok ([], rb)
  | fuel, t, n + 1, rb => do
    let (v, rb1) ← readVal fuel t rb
    let (restVals, rb2) ← readElems fuel t n rb1
    .ok (v :: restVals, rb2)
termination_by fuel t n rb => (fuel, n + 1)

end

end OldReader

/-! ### The wire-value writer (old `BinaryProtocolWriter` visitor), as pure
byte strings -/

mutual

/-- Bytes emitted for a wire value by the `visit_*` methods. -/
def wvalBytes : WVal → List Nat
  | .wbool b => [if b then 1 else 0]
  | .wbyte i => [u8 i]
  | .wdouble bits => beNat 8 bits
  | .wi16 i => beI 2 i
  | .wi32 i => beI 4 i
  | .wi64 i => beI 8 i
  | .wbinary bs => beI 4 bs.length ++ bs
  | .wstruct fields => wfieldsBytes fields ++ [0]
  | .wmap kt vt pairs => [u8 kt, u8 vt] ++ beI 4 pairs.length ++ wpairsBytes pairs
  | .wset vt vals => [u8 vt] ++ beI 4 vals.length ++ wvalsBytes vals
  | .wlist vt vals => [u8 vt] ++ beI 4 vals.length ++ wvalsBytes vals

/-- `visit_struct`: `type:1 id:2 value` per field (the closing `0` byte is
appended by `wvalBytes`). -/
def wfieldsBytes : List (Int × Int × WVal) → List Nat
  | [] => []
  | (fieldId, fieldTtype, v) :: fs =>
    u8 fieldTtype :: (beI 2 fieldId ++ wvalBytes v ++ wfieldsBytes fs)

def wpairsBytes : List (WVal × WVal) → List Nat
  | [] => []
  | (k, v) :: ps => wvalBytes k ++ wvalBytes v ++ wpairsBytes ps

def wvalsBytes : List WVal → List Nat
  | [] => []
  | v :: vs => wvalBytes v ++ wvalsBytes vs

end

/-! ### Message envelopes (thriftrw/protocol/binary.pyx and core.pyx) -/

/-- `BinaryProtocolWriter.write_message_begin`: `write_binary(name)`,
`write_byte(type)`, `write_i32(seqid)`. -/
def write_message_begin (header : MessageHeader) : List Nat :=
  (beI 4 header.name.length ++ header.name) ++ [u8 header.type] ++ beI 4 header.seqid

/-- `Protocol.serialize_message`: the envelope from `write_message_begin`
followed by the body value's bytes (`write_message_end` writes nothing). -/
def serialize_message (m : Message) : List Nat :=
  write_message_begin ⟨m.name, m.messageType, m.seqid⟩ ++ wvalBytes m.body

/-- Modelled from the spec: the **strict** message envelope
`(0x80010000 | type):i32 | len(name):i32 | name | seqid:i32` that the spec
asserts `write_message_begin` always emits. Defined only to compare the
writer against the spec's words. -/
def strictEnvelopeSpec (header : MessageHeader) : List Nat :=
  beI 4 (Int.lor 0x80010000 header.type) ++ beI 4 header.name.length ++
    header.name ++ beI 4 header.seqid

/-! ### Host values

The Python objects the spec tree's bridge operates on. Floats are carried
as their IEEE-754 binary64 bit patterns (the codec only ever reinterprets
them); text is carried as a list of Unicode code points; `hSet` is an
insertion-ordered list of (pairwise unequal) elements, `hDict` an
insertion-ordered association list with distinct keys — the views CPython's
`set` and `dict` present to iteration. -/

inductive HVal : Type where
  | hBool (b : Bool)
  | hInt (i : Int)
  | hFloat (bits : Nat)
  | hStr (cps : List Nat)
  | hBytes (bs : List Nat)
  | hList (xs : List HVal)
  | hSet (xs : List HVal)
  | hDict (ps : List (HVal × HVal))
  | hStruct (name : String) (attrs : List (String × Option HVal))

/-! ### IEEE-754 binary64, as far as Python `float` equality and `float()`
casts need it -/

/-- Exponent field of a binary64 bit pattern. -/
def f64Exp (bits : Nat) : Nat := (bits >>> 52) % 2 ^ 11

/-- Fraction field of a binary64 bit pattern. -/
def f64Frac (bits : Nat) : Nat := bits % 2 ^ 52

def f64IsNaN (bits : Nat) : Bool := f64Exp bits == 2047 && f64Frac bits != 0

def f64IsZero (bits : Nat) : Bool := bits % 2 ^ 63 == 0

/-- Equality of two Python floats given as bit patterns: `nan` is unequal
to everything, `0.0 == -0.0`, and otherwise binary64 values are equal only
when their patterns are. -/
def floatEqBits (a b : Nat) : Bool :=
  !f64IsNaN a && !f64IsNaN b && (a == b || (f64IsZero a && f64IsZero b))

/-- The rational value of a finite binary64 pattern (`none` for nan/inf). -/
def f64ToRat (bits : Nat) : Option ℚ :=
  let s := bits >>> 63
  let e := f64Exp bits
  let m := f64Frac bits
  if e = 2047 then none
  else
    let mag : ℚ :=
      if e = 0 then (m : ℚ) / 2 ^ 1074
      else ((2 ^ 52 + m : Nat) : ℚ) * (2 : ℚ) ^ ((e : Int) - 1075)
    some (if s % 2 = 1 then -mag else mag)

/-- Bit pattern of the binary64 nearest (ties to even) to the natural
number `n` — the magnitude part of CPython's `float(int)` conversion. -/
def natToFloatBits (n : Nat) : Nat :=
  if n = 0 then 0
  else
    let k := Nat.log2 n
    if k ≤ 52 then (k + 1023) * 2 ^ 52 + (n * 2 ^ (52 - k) - 2 ^ 52)
    else
      let sh := k - 52
      let q := n >>> sh
      let r := n % 2 ^ sh
      let half := 2 ^ (sh - 1)
      let q2 := if r > half || (r == half && q % 2 == 1) then q + 1 else q
      if q2 = 2 ^ 53 then
        if 2046 ≤ k + 1024 then 0x7ff0000000000000
        else (k + 1024) * 2 ^ 52
      else (k + 1023) * 2 ^ 52 + (q2 - 2 ^ 52)

/-- CPython `float(int)` (rounds to nearest, overflows to infinity). -/
def intToFloatBits (i : Int) : Nat :=
  if 0 ≤ i then natToFloatBits i.toNat
  else natToFloatBits (-i).toNat + 2 ^ 63

/-- Value-equality of a Python number against a float pattern
(`int == float` compares exact mathematical values). -/
def intFloatEqB (i : Int) (bits : Nat) : Bool :=
  match f64ToRat bits with
  | none => false
  | some q => (i : ℚ) == q

/-! ### Python `==` on host values -/

mutual

/-- Python `==` restricted to the host values the bridge produces:
numeric kinds compare by value (`True == 1`, `1 == 1.0`), text and bytes
never compare equal cross-kind, lists compare pointwise, sets by mutual
membership, dicts by mutual key-value containment (equality, for the
distinct-key dicts CPython produces), and generated struct surfaces by
class name and attribute values (`common.fields_eq`). -/
def pyEqB : HVal → HVal → Bool
  | .hBool a, .hBool b => a == b
  | .hBool a, .hInt b => (if a then (1 : Int) else 0) == b
  | .hInt a, .hBool b => a == (if b then (1 : Int) else 0)
  | .hInt a, .hInt b => a == b
  | .hBool a, .hFloat b => intFloatEqB (if a then 1 else 0) b
  | .hFloat a, .hBool b => intFloatEqB (if b then 1 else 0) a
  | .hInt a, .hFloat b => intFloatEqB a b
  | .hFloat a, .hInt b => intFloatEqB b a
  | .hFloat a, .hFloat b => floatEqBits a b
  | .hStr a, .hStr b => a == b
  | .hBytes a, .hBytes b => a == b
  | .hList a, .hList b => pyEqListB a b
  | .hSet a, .hSet b => pySubsetB a b && pySubsetB b a
  | .hDict a, .hDict b => pyDictLeB a b && pyDictLeB b a
  | .hStruct n1 a1, .hStruct n2 a2 => n1 == n2 && pyAttrsEqB a1 a2
  | _, _ => false
termination_by a b => sizeOf a + sizeOf b

def pyEqListB : List HVal → List HVal → Bool
  | [], [] => true
  | x :: xs, y :: ys => pyEqB x y && pyEqListB xs ys
  | _, _ => false
termination_by a b => sizeOf a + sizeOf b

def pySubsetB : List HVal → List HVal → Bool
  | [], _ => true
  | x :: xs, ys => pyMemB x ys && pySubsetB xs ys
termination_by a b => sizeOf a + sizeOf b

/-- Membership by Python equality (the test `set.add` performs). -/
def pyMemB : HVal → List HVal → Bool
  | _, [] => false
  | x, y :: ys => pyEqB x y || pyMemB x ys
termination_by a b => sizeOf a + sizeOf b

def pyDictLeB : List (HVal × HVal) → List (HVal × HVal) → Bool
  | [], _ => true
  | (k, v) :: ps, qs => pyPairMemB k v qs && pyDictLeB ps qs
termination_by a b => sizeOf a + sizeOf b

def pyPairMemB : HVal → HVal → List (HVal × HVal) → Bool
  | _, _, [] => false
  | k, v, (k2, v2) :: qs => (pyEqB k k2 && pyEqB v v2) || pyPairMemB k v qs
termination_by k v qs => sizeOf k + sizeOf v + sizeOf qs

def pyAttrsEqB : List (String × Option HVal) → List (String × Option HVal) → Bool
  | [], [] => true
  | (n1, v1) :: xs, (n2, v2) :: ys => n1 == n2 && pyOptEqB v1 v2 && pyAttrsEqB xs ys
  | _, _ => false
termination_by a b => sizeOf a + sizeOf b

def pyOptEqB : Option HVal → Option HVal → Bool
  | none, none => true
  | some a, some b => pyEqB a b
  | _, _ => false
termination_by a b => sizeOf a + sizeOf b

end

/-! ### UTF-8 (CPython `str.encode` / `bytes.decode`) -/

/-- UTF-8 bytes of one Unicode scalar value. -/
def utf8EncodeChar (c : Nat) : List Nat :=
  if c < 0x80 then [c]
  else if c < 0x800 then [0xC0 + c / 64, 0x80 + c % 64]
  else if c < 0x10000 then [0xE0 + c / 4096, 0x80 + c / 64 % 64, 0x80 + c % 64]
  else [0xF0 + c / 262144, 0x80 + c / 4096 % 64, 0x80 + c / 64 % 64, 0x80 + c % 64]

/-- `str.encode('utf-8')`: errors (UnicodeEncodeError, a ValueError) on
surrogate code points, otherwise concatenates the per-character bytes. -/
def pyEncodeUtf8 : List Nat → Except PyErr (List Nat)
  | [] => .ok []
  | c :: cs =>
    if 0xD800 ≤ c ∧ c < 0xE000 then .error .valueError
    else do
      let rest2 ← pyEncodeUtf8 cs
      .ok (utf8EncodeChar c ++ rest2)

/-- `bytes.decode('utf-8')`: strict decoding, rejecting truncated
sequences, bad continuation bytes, overlong forms, surrogates, and code
points beyond U+10FFFF (UnicodeDecodeError, a ValueError). -/
def pyDecodeUtf8 : List Nat → Except PyErr (List Nat)
  | [] => .ok []
  | b :: bs =>
    if b < 0x80 then do
      let cs ← pyDecodeUtf8 bs
      .ok (b :: cs)
    else if b < 0xC2 then .error .valueError
    else if b < 0xE0 then
      match bs with
      | b2 :: bs2 =>
        if 0x80 ≤ b2 ∧ b2 < 0xC0 then do
          let cs ← pyDecodeUtf8 bs2
          .ok (((b - 0xC0) * 64 + (b2 - 0x80)) :: cs)
        else .error .valueError
      | [] => .error .valueError
    else if b < 0xF0 then
      match bs with
      | b2 :: bs2 =>
        match bs2 with
        | b3 :: bs3 =>
          if 0x80 ≤ b2 ∧ b2 < 0xC0 ∧ 0x80 ≤ b3 ∧ b3 < 0xC0 then
            let c := (b - 0xE0) * 4096 + (b2 - 0x80) * 64 + (b3 - 0x80)
            if 0x800 ≤ c ∧ ¬ (0xD800 ≤ c ∧ c < 0xE000) then do
              let cs ← pyDecodeUtf8 bs3
              .ok (c :: cs)
            else .error .valueError
          else .error .valueError
        | [] => .error .valueError
      | [] => .error .valueError
    else if b < 0xF5 then
      match bs with
      | b2 :: bs2 =>
        match bs2 with
        | b3 :: bs3 =>
          match bs3 with
          | b4 :: bs4 =>
            if 0x80 ≤ b2 ∧ b2 < 0xC0 ∧ 0x80 ≤ b3 ∧ b3 < 0xC0 ∧
                0x80 ≤ b4 ∧ b4 < 0xC0 then
              let c := (b - 0xF0) * 262144 + (b2 - 0x80) * 4096 +
                (b3 - 0x80) * 64 + (b4 - 0x80)
              if 0x10000 ≤ c ∧ c < 0x110000 then do
                let cs ← pyDecodeUtf8 bs4
                .ok (c :: cs)
              else .error .valueError
            else .error .valueError
          | [] => .error .valueError
        | [] => .error .valueError
      | [] => .error .valueError
    else .error .valueError

/-! ### Small pieces of Python semantics used by the bridge -/

/-- Python truthiness of the host values (`bool(value)`). -/
def pyTruthy : HVal → Bool
  | .hBool b => b
  | .hInt i => i != 0
  | .hFloat bits => !f64IsZero bits
  | .hStr cps => !cps.isEmpty
  | .hBytes bs => !bs.isEmpty
  | .hList xs => !xs.isEmpty
  | .hSet xs => !xs.isEmpty
  | .hDict ps => !ps.isEmpty
  | .hStruct _ _ => true

/-- Iteration (`for v in value`) over host values that have `__iter__`:
lists and sets yield elements, text yields one-character strings, bytes
yields integers, dicts yield keys. -/
def pyIter : HVal → Option (List HVal)
  | .hList xs => some xs
  | .hSet xs => some xs
  | .hStr cps => some (cps.map (fun c => .hStr [c]))
  | .hBytes bs => some (bs.map (fun b => .hInt b))
  | .hDict ps => some (ps.map (fun p => p.1))
  | _ => none

/-- CPython `int(value)` for the kinds the bridge can meet: ints pass
through, bools become 0/1, floats truncate toward zero (nan/inf raise).
Other kinds are unreachable behind `validate`; the embedding reports them
as type errors. -/
def pyIntCast : HVal → Except PyErr Int
  | .hInt i => .ok i
  | .hBool b => .ok (if b then 1 else 0)
  | .hFloat bits =>
    match f64ToRat bits with
    | some q => .ok (if q < 0 then -(⌊|q|⌋) else ⌊|q|⌋)
    | none => .error .valueError
  | _ => .error .typeError

/-- CPython `float(value)` for the kinds the bridge can meet (see
`pyIntCast`). -/
def pyFloatCast : HVal → Except PyErr Nat
  | .hFloat bits => .ok bits
  | .hInt i => .ok (intToFloatBits i)
  | .hBool b => .ok (intToFloatBits (if b then 1 else 0))
  | _ => .error .typeError

/-- Association-list lookup (Python `dict.get` keyed by strings). -/
def alookup {α : Type} : List (String × α) → String → Option α
  | [], _ => none
  | (k2, v) :: ps, k => if k2 == k then some v else alookup ps k

/-- Python `d[k] = v` on a string-keyed dict. -/
def aupdate : List (String × HVal) → String → HVal → List (String × HVal)
  | [], k, v => [(k, v)]
  | (k2, v2) :: ps, k, v =>
    if k2 == k then (k2, v) :: ps else (k2, v2) :: aupdate ps k v

/-- `set.add`: appends unless an equal element is present. -/
def pySetAdd (xs : List HVal) (x : HVal) : List HVal :=
  if pyMemB x xs then xs else xs ++ [x]

/-- Key membership by Python equality. -/
def pyKeyMemB (k : HVal) : List (HVal × HVal) → Bool
  | [] => false
  | (k2, _) :: qs => pyEqB k k2 || pyKeyMemB k qs

/-- `d[k] = v` on a host dict: an existing equal key keeps its identity
and position but takes the new value; a new key is appended. -/
def pyDictIns : List (HVal × HVal) → HVal → HVal → List (HVal × HVal)
  | [], k, v => [(k, v)]
  | (k2, v2) :: qs, k, v =>
    if pyEqB k k2 then (k2, v) :: qs else (k2, v2) :: pyDictIns qs k v

/-! ### The spec tree (thriftrw/spec/...)

`TS` covers every linked TypeSpec of the sources that can appear as a
value type: the primitive singletons, text/binary, enums, the three
containers, and struct/union specs with their `FieldSpec` lists. A
`FieldS` carries the linked default surface value, if any.
`deepcopy` of a default is the identity here because host values are
immutable Lean data. -/

mutual

inductive TS : Type where
  | tbool
  | tbyte
  | ti16
  | ti32
  | ti64
  | tdouble
  | tbinary
  | tstring
  | tenum (name : String) (items : List (String × Int))
  | tlist (vspec : TS)
  | tset (vspec : TS)
  | tmap (kspec : TS) (vspec : TS)
  | tstruct (name : String) (fields : List FieldS)
  | tunion (name : String) (fields : List FieldS) (allowEmpty : Bool)

inductive FieldS : Type where
  | mk (fid : Int) (fname : String) (fspec : TS) (frequired : Bool) (fdefault : Option HVal)

end

def FieldS.fid : FieldS → Int
  | .mk i _ _ _ _ => i

def FieldS.fname : FieldS → String
  | .mk _ n _ _ _ => n

def FieldS.fspec : FieldS → TS
  | .mk _ _ s _ _ => s

def FieldS.frequired : FieldS → Bool
  | .mk _ _ _ r _ => r

def FieldS.fdefault : FieldS → Option HVal
  | .mk _ _ _ _ d => d

/-- `ttype_code` of every TypeSpec variant. -/
def TS.ttypeCode : TS → Int
  | .tbool => ttype.BOOL
  | .tbyte => ttype.BYTE
  | .ti16 => ttype.I16
  | .ti32 => ttype.I32
  | .ti64 => ttype.I64
  | .tdouble => ttype.DOUBLE
  | .tbinary => ttype.BINARY
  | .tstring => ttype.BINARY
  | .tenum _ _ => ttype.I32
  | .tlist _ => ttype.LIST
  | .tset _ => ttype.SET
  | .tmap _ _ => ttype.MAP
  | .tstruct _ _ => ttype.STRUCT
  | .tunion _ _ _ => ttype.STRUCT

/-- `check.instanceof_surface` for the generated struct/union classes
(class identity is modelled by the generated class name). Only the
`ttype_code == STRUCT` shortcut paths and struct/union `validate` use it. -/
def instanceofSurfaceB : TS → HVal → Bool
  | .tstruct n _, .hStruct n2 _ => n == n2
  | .tunion n _ _, .hStruct n2 _ => n == n2
  | _, _ => false

/-- `validate_signed_int(bits)`: raises `ValueError` outside
`[-2^(bits-1), 2^(bits-1)-1]`. -/
def validate_signed_int (bits : Nat) (x : Int) : Except PyErr Unit :=
  if x < -(2 ^ (bits - 1)) ∨ x > 2 ^ (bits - 1) - 1 then .error .valueError
  else .ok ()

/-- The numeric value an integral host value carries (`True` counts as 1). -/
def pyIntValue : HVal → Int
  | .hInt i => i
  | .hBool b => if b then 1 else 0
  | _ => 0

/-- Whether the host value is integral (`isinstance(v, (int, long))`;
Python `bool` is a subclass of `int`). -/
def isIntegral : HVal → Bool
  | .hInt _ => true
  | .hBool _ => true
  | _ => false

/-- `getattr(obj, name)` on a generated surface instance. -/
def getattrO (attrs : List (String × Option HVal)) (name : String) :
    Except PyErr (Option HVal) :=
  match alookup attrs name with
  | some v => .ok v
  | none => .error .attributeError

/-- Constructor-order field list of `struct_cls`: required fields without
defaults first, then the rest. -/
def ctorFields (fields : List FieldS) : List FieldS :=
  fields.filter (fun f => f.frequired && f.fdefault.isNone) ++
    fields.filter (fun f => !(f.frequired && f.fdefault.isNone))

mutual

/-- `TypeSpec.validate` of every variant, translated case by case:
primitives check the surface tuple and the signed range, containers check
iterability/mapping shape and recurse, structs check the surface class,
requiredness and each present field (with the child-struct identity
shortcut), unions additionally enforce the cardinality rule. -/
def TS.validate : TS → HVal → Except PyErr Unit
  | .tbool, v => if isIntegral v then .ok () else .error .typeError
  | .tbyte, v =>
    if isIntegral v then validate_signed_int 8 (pyIntValue v) else .error .typeError
  | .ti16, v =>
    if isIntegral v then validate_signed_int 16 (pyIntValue v) else .error .typeError
  | .ti32, v =>
    if isIntegral v then validate_signed_int 32 (pyIntValue v) else .error .typeError
  | .ti64, v =>
    if isIntegral v then validate_signed_int 64 (pyIntValue v) else .error .typeError
  | .tdouble, v =>
    match v with
    | .hFloat _ => .ok ()
    | .hInt _ => .ok ()
    | .hBool _ => .ok ()
    | _ => .error .typeError
  | .tbinary, v =>
    match v with
    | .hBytes _ => .ok ()
    | .hStr _ => .ok ()
    | _ => .error .typeError
  | .tstring, v =>
    match v with
    | .hBytes _ => .ok ()
    | .hStr _ => .ok ()
    | _ => .error .typeError
  | .tenum _ _, v =>
    if isIntegral v then
      if pyIntValue v < -(2 ^ 31) ∨ pyIntValue v > 2 ^ 31 - 1 then .error .valueError
      else .ok ()
    else .error .typeError
  | .tlist vspec, v =>
    match pyIter v with
    | some xs => validateElems vspec xs
    | none => .error .typeError
  | .tset vspec, v =>
    match pyIter v with
    | some xs => validateElems vspec xs
    | none => .error .typeError
  | .tmap kspec vspec, v =>
    match v with
    | .hDict ps => validatePairs kspec vspec ps
    | _ => .error .typeError
  | .tstruct name fields, v =>
    match v with
    | .hStruct name2 attrs =>
      if name == name2 then validateFields name fields attrs
      else .error .typeError
    | _ => .error .typeError
  | .tunion name fields allowEmpty, v =>
    match v with
    | .hStruct name2 attrs =>
      if name == name2 then do
        let found ← validateUnionFields fields attrs
        if !fields.isEmpty ∧ found = 0 ∧ !allowEmpty then .error .typeError
        else if found > 1 then .error .typeError
        else .ok ()
      else .error .typeError
    | _ => .error .typeError
termination_by t v => (sizeOf t, 0)

def validateElems : TS → List HVal → Except PyErr Unit
  | _, [] => .ok ()
  | vspec, x :: xs => do
    TS.validate vspec x
    validateElems vspec xs
termination_by vspec xs => (sizeOf vspec, sizeOf xs)

def validatePairs : TS → TS → List (HVal × HVal) → Except PyErr Unit
  | _, _, [] => .ok ()
  | kspec, vspec, (k, v) :: ps => do
    TS.validate kspec k
    TS.validate vspec v
    validatePairs kspec vspec ps
termination_by kspec vspec ps => (sizeOf kspec + sizeOf vspec, sizeOf ps)
decreasing_by
  all_goals simp_wf
  · refine Prod.Lex.left _ _ ?_
    have h1 : 1 ≤ sizeOf vspec := by cases vspec <;> simp_arith
    omega
  · refine Prod.Lex.left _ _ ?_
    have h1 : 1 ≤ sizeOf kspec := by cases kspec <;> simp_arith
    omega
  · exact Prod.Lex.right _ (by simp_arith)

def validateFields : String → List FieldS → List (String × Option HVal) → Except PyErr Unit
  | _, [], _ => .ok ()
  | structName, .mk _ fname fspec freq _ :: fs, attrs => do
    let fieldValue ← getattrO attrs fname
    match fieldValue with
    | none =>
      if freq then .error .typeError
      else validateFields structName fs attrs
    | some v =>
      if fspec.ttypeCode = ttype.STRUCT then
        if instanceofSurfaceB fspec v then validateFields structName fs attrs
        else .error .typeError
      else do
        TS.validate fspec v
        validateFields structName fs attrs
termination_by n fs attrs => (sizeOf fs, 0)

/-- The union validation loop; returns the number of non-None fields. -/
def validateUnionFields : List FieldS → List (String × Option HVal) → Except PyErr Nat
  | [], _ => .ok 0
  | .mk _ fname fspec _ _ :: fs, attrs => do
    let fieldValue ← getattrO attrs fname
    match fieldValue with
    | none => validateUnionFields fs attrs
    | some v =>
      if fspec.ttypeCode = ttype.STRUCT then
        if instanceofSurfaceB fspec v then do
          let found ← validateUnionFields fs attrs
          .ok (found + 1)
        else .error .typeError
      else do
        TS.validate fspec v
        let found ← validateUnionFields fs attrs
        .ok (found + 1)
termination_by fs attrs => (sizeOf fs, 0)

end

/-! ### Host → wire (`to_wire`) -/

mutual

/-- `TypeSpec.to_wire` of every variant: primitives cast and wrap,
text encodes to UTF-8 first, containers map over their children with the
child spec's `ttype_code` in the header, structs and unions collect
`FieldSpec.to_wire` triples for the non-None fields (the union writer also
collects every non-None field — the cardinality rule is enforced at
construction, not here). -/
def TS.to_wire : TS → HVal → Except PyErr WVal
  | .tbool, v => .ok (.wbool (pyTruthy v))
  | .tbyte, v => do
    let i ← pyIntCast v
    .ok (.wbyte i)
  | .ti16, v => do
    let i ← pyIntCast v
    .ok (.wi16 i)
  | .ti32, v => do
    let i ← pyIntCast v
    .ok (.wi32 i)
  | .ti64, v => do
    let i ← pyIntCast v
    .ok (.wi64 i)
  | .tdouble, v => do
    let bits ← pyFloatCast v
    .ok (.wdouble bits)
  | .tbinary, v =>
    match v with
    | .hStr cps => do
      let bs ← pyEncodeUtf8 cps
      .ok (.wbinary bs)
    | .hBytes bs => .ok (.wbinary bs)
    | _ => .error .typeError
  | .tstring, v =>
    match v with
    | .hStr cps => do
      let bs ← pyEncodeUtf8 cps
      .ok (.wbinary bs)
    | .hBytes bs => .ok (.wbinary bs)
    | _ => .error .typeError
  | .tenum _ _, v =>
    if isIntegral v then .ok (.wi32 (pyIntValue v)) else .error .typeError
  | .tlist vspec, v =>
    match pyIter v with
    | some xs => do
      let ws ← toWireElems vspec xs
      .ok (.wlist vspec.ttypeCode ws)
    | none => .error .typeError
  | .tset vspec, v =>
    match pyIter v with
    | some xs => do
      let ws ← toWireElems vspec xs
      .ok (.wset vspec.ttypeCode ws)
    | none => .error .typeError
  | .tmap kspec vspec, v =>
    match v with
    | .hDict ps => do
      let wps ← toWirePairs kspec vspec ps
      .ok (.wmap kspec.ttypeCode vspec.ttypeCode wps)
    | _ => .error .attributeError
  | .tstruct _ fields, v =>
    match v with
    | .hStruct _ attrs => do
      let wfs ← toWireFields fields attrs
      .ok (.wstruct wfs)
    | _ => .error .attributeError
  | .tunion _ fields _, v =>
    match v with
    | .hStruct _ attrs => do
      let wfs ← toWireFields fields attrs
      .ok (.wstruct wfs)
    | _ => .error .attributeError
termination_by t v => (sizeOf t, 0)

def toWireElems : TS → List HVal → Except PyErr (List WVal)
  | _, [] => .ok []
  | vspec, x :: xs => do
    let w ← TS.to_wire vspec x
    let ws ← toWireElems vspec xs
    .ok (w :: ws)
termination_by vspec xs => (sizeOf vspec, sizeOf xs)

def toWirePairs : TS → TS → List (HVal × HVal) → Except PyErr (List (WVal × WVal))
  | _, _, [] => .ok []
  | kspec, vspec, (k, v) :: ps => do
    let wk ← TS.to_wire kspec k
    let wv ← TS.to_wire vspec v
    let wps ← toWirePairs kspec vspec ps
    .ok ((wk, wv) :: wps)
termination_by kspec vspec ps => (sizeOf kspec + sizeOf vspec, sizeOf ps)
decreasing_by
  all_goals simp_wf
  · refine Prod.Lex.left _ _ ?_
    have h1 : 1 ≤ sizeOf vspec := by cases vspec <;> simp_arith
    omega
  · refine Prod.Lex.left _ _ ?_
    have h1 : 1 ≤ sizeOf kspec := by cases kspec <;> simp_arith
    omega
  · exact Prod.Lex.right _ (by simp_arith)

/-- `FieldSpec.to_wire`: `FieldValue(id, spec.ttype_code, spec.to_wire(v))`
for every field whose attribute is non-None, in declaration order. -/
def toWireFields : List FieldS → List (String × Option HVal) → Except PyErr (List (Int × Int × WVal))
  | [], _ => .ok []
  | .mk fid fname fspec _ _ :: fs, attrs => do
    let v? ← getattrO attrs fname
    match v? with
    | none => toWireFields fs attrs
    | some x => do
      let w ← TS.to_wire fspec x
      let wfs ← toWireFields fs attrs
      .ok ((fid, fspec.ttypeCode, w) :: wfs)
termination_by fs attrs => (sizeOf fs, 0)

end

/-! ### The generated surface constructors (struct.pyx `struct_init`,
union.pyx `union_init`)

Only keyword arguments are modelled: `from_wire`, `from_primitive` and
the deserializers construct surfaces with keyword arguments exclusively. -/

/-- The per-field body of `struct_init`: absent arguments take the
(deep-copied) default or fail when required, present child structs are
checked by surface identity only, and every other present value is
validated by its field spec. Attributes come out in constructor order. -/
def structInitFields : List FieldS → List (String × HVal) →
    Except PyErr (List (String × Option HVal))
  | [], _ => .ok []
  | .mk _ fname fspec freq fdef :: fs, kwargs =>
    match alookup kwargs fname with
    | none =>
      match fdef with
      | some d => do
        let attrs ← structInitFields fs kwargs
        .ok ((fname, some d) :: attrs)
      | none =>
        if freq then .error .typeError
        else do
          let attrs ← structInitFields fs kwargs
          .ok ((fname, none) :: attrs)
    | some v =>
      if fspec.ttypeCode = ttype.STRUCT then
        if instanceofSurfaceB fspec v then do
          let attrs ← structInitFields fs kwargs
          .ok ((fname, some v) :: attrs)
        else .error .typeError
      else do
        TS.validate fspec v
        let attrs ← structInitFields fs kwargs
        .ok ((fname, some v) :: attrs)

/-- `struct_init` driven by keyword arguments only: too few or too many
arguments and unexpected keywords raise `TypeError`. -/
def structInit (clsName : String) (fields : List FieldS)
    (kwargs : List (String × HVal)) : Except PyErr HVal :=
  let numRequired := (fields.filter (fun f => f.frequired && f.fdefault.isNone)).length
  if kwargs.length < numRequired then .error .typeError
  else if kwargs.length > fields.length then .error .typeError
  else do
    let attrs ← structInitFields (ctorFields fields) kwargs
    if kwargs.all (fun kv => fields.any (fun f => f.fname == kv.1)) then
      .ok (.hStruct clsName attrs)
    else .error .typeError

/-- The assignment loop of `union_init`: a second non-None argument
raises `TypeError` immediately. -/
def unionInitFields : List FieldS → List (String × HVal) → Bool →
    Except PyErr (List (String × Option HVal))
  | [], _, _ => .ok []
  | .mk _ fname _ _ _ :: fs, kwargs, assigned =>
    match alookup kwargs fname with
    | some v =>
      if assigned then .error .typeError
      else do
        let attrs ← unionInitFields fs kwargs true
        .ok ((fname, some v) :: attrs)
    | none => do
      let attrs ← unionInitFields fs kwargs assigned
      .ok ((fname, none) :: attrs)

/-- `union_init` with keyword arguments: assigns each field, rejects a
second non-None value, rejects unexpected keywords, rejects the empty
union unless `allow_empty`, then runs the spec's `validate` on the new
instance. -/
def unionInit (clsName : String) (fields : List FieldS) (allowEmpty : Bool)
    (kwargs : List (String × HVal)) : Except PyErr HVal := do
  let attrs ← unionInitFields fields kwargs false
  if !kwargs.all (fun kv => fields.any (fun f => f.fname == kv.1)) then .error .typeError
  else
    let assignedCount := (attrs.filter (fun a => a.2.isSome)).length
    if assignedCount = 0 ∧ !fields.isEmpty ∧ !allowEmpty then .error .typeError
    else do
      TS.validate (.tunion clsName fields allowEmpty) (.hStruct clsName attrs)
      .ok (.hStruct clsName attrs)

/-! ### Wire → host (`from_wire`) -/

/-- `check.type_code_matches`: `ValueError` on a ttype mismatch. -/
def typeCodeMatches (t : TS) (w : WVal) : Except PyErr Unit :=
  if t.ttypeCode = w.ttypeCode then .ok () else .error .valueError

mutual

/-- `TypeSpec.from_wire` of every variant: after `type_code_matches`,
primitives unwrap (text decodes UTF-8), lists map, sets re-`add` each
element, maps rebuild a dict pair by pair, structs look every declared
field up in the wire struct's `(id, ttype)` index and construct the
surface, unions stop at the first declared field present. -/
def TS.from_wire : TS → WVal → Except PyErr HVal
  | .tbool, w => do
    typeCodeMatches .tbool w
    match w with
    | .wbool b => .ok (.hBool b)
    | _ => .error .valueError
  | .tbyte, w => do
    typeCodeMatches .tbyte w
    match w with
    | .wbyte i => .ok (.hInt i)
    | _ => .error .valueError
  | .ti16, w => do
    typeCodeMatches .ti16 w
    match w with
    | .wi16 i => .ok (.hInt i)
    | _ => .error .valueError
  | .ti32, w => do
    typeCodeMatches .ti32 w
    match w with
    | .wi32 i => .ok (.hInt i)
    | _ => .error .valueError
  | .ti64, w => do
    typeCodeMatches .ti64 w
    match w with
    | .wi64 i => .ok (.hInt i)
    | _ => .error .valueError
  | .tdouble, w => do
    typeCodeMatches .tdouble w
    match w with
    | .wdouble bits => .ok (.hFloat bits)
    | _ => .error .valueError
  | .tbinary, w => do
    typeCodeMatches .tbinary w
    match w with
    | .wbinary bs => .ok (.hBytes bs)
    | _ => .error .valueError
  | .tstring, w => do
    typeCodeMatches .tstring w
    match w with
    | .wbinary bs => do
      let cps ← pyDecodeUtf8 bs
      .ok (.hStr cps)
    | _ => .error .valueError
  | .tenum n items, w => do
    typeCodeMatches (.tenum n items) w
    match w with
    | .wi32 i => .ok (.hInt i)
    | _ => .error .valueError
  | .tlist vspec, w => do
    typeCodeMatches (.tlist vspec) w
    match w with
    | .wlist _ ws => do
      let xs ← fromWireElems vspec ws
      .ok (.hList xs)
    | _ => .error .valueError
  | .tset vspec, w => do
    typeCodeMatches (.tset vspec) w
    match w with
    | .wset _ ws => do
      let xs ← fromWireSetElems vspec ws []
      .ok (.hSet xs)
    | _ => .error .valueError
  | .tmap kspec vspec, w => do
    typeCodeMatches (.tmap kspec vspec) w
    match w with
    | .wmap _ _ wps => do
      let ps ← fromWirePairs kspec vspec wps []
      .ok (.hDict ps)
    | _ => .error .valueError
  | .tstruct name fields, w => do
    typeCodeMatches (.tstruct name fields) w
    match w with
    | .wstruct wfs => do
      let kwargs ← fromWireStructKwargs fields wfs []
      structInit name fields kwargs
    | _ => .error .valueError
  | .tunion name fields allowEmpty, w => do
    typeCodeMatches (.tunion name fields allowEmpty) w
    match w with
    | .wstruct wfs => do
      let kwargs ← fromWireUnionKwargs fields wfs
      unionInit name fields allowEmpty kwargs
    | _ => .error .valueError
termination_by t w => (sizeOf t, 0)

def fromWireElems : TS → List WVal → Except PyErr (List HVal)
  | _, [] => .ok []
  | vspec, w :: ws => do
    let x ← TS.from_wire vspec w
    let xs ← fromWireElems vspec ws
    .ok (x :: xs)
termination_by vspec ws => (sizeOf vspec, sizeOf ws)

def fromWireSetElems : TS → List WVal → List HVal → Except PyErr (List HVal)
  | _, [], acc => .ok acc
  | vspec, w :: ws, acc => do
    let x ← TS.from_wire vspec w
    fromWireSetElems vspec ws (pySetAdd acc x)
termination_by vspec ws acc => (sizeOf vspec, sizeOf ws)

def fromWirePairs : TS → TS → List (WVal × WVal) → List (HVal × HVal) →
    Except PyErr (List (HVal × HVal))
  | _, _, [], acc => .ok acc
  | kspec, vspec, (wk, wv) :: wps, acc => do
    let k ← TS.from_wire kspec wk
    let v ← TS.from_wire vspec wv
    fromWirePairs kspec vspec wps (pyDictIns acc k v)
termination_by kspec vspec wps acc => (sizeOf kspec + sizeOf vspec, sizeOf wps)
decreasing_by
  all_goals simp_wf
  · refine Prod.Lex.left _ _ ?_
    have h1 : 1 ≤ sizeOf vspec := by cases vspec <;> simp_arith
    omega
  · refine Prod.Lex.left _ _ ?_
    have h1 : 1 ≤ sizeOf kspec := by cases kspec <;> simp_arith
    omega
  · exact Prod.Lex.right _ (by simp_arith)

/-- The struct `from_wire` loop: `wire_value.get(field.id, field.ttype_code)`
per declared field, building `kwargs`. -/
def fromWireStructKwargs : List FieldS → List (Int × Int × WVal) → List (String × HVal) →
    Except PyErr (List (String × HVal))
  | [], _, kwargs => .ok kwargs
  | .mk fid fname fspec _ _ :: fs, wfs, kwargs =>
    match structGet wfs fid fspec.ttypeCode with
    | none => fromWireStructKwargs fs wfs kwargs
    | some fv => do
      let x ← TS.from_wire fspec fv.2.2
      fromWireStructKwargs fs wfs (aupdate kwargs fname x)
termination_by fs wfs kwargs => (sizeOf fs, 0)

/-- The union `from_wire` loop: like the struct one, but stops at the
first declared field found. -/
def fromWireUnionKwargs : List FieldS → List (Int × Int × WVal) →
    Except PyErr (List (String × HVal))
  | [], _ => .ok []
  | .mk fid fname fspec _ _ :: fs, wfs =>
    match structGet wfs fid fspec.ttypeCode with
    | none => fromWireUnionKwargs fs wfs
    | some fv => do
      let x ← TS.from_wire fspec fv.2.2
      .ok [(fname, x)]
termination_by fs wfs => (sizeOf fs, 0)

end

/-! ### FunctionResultSpec (thriftrw/spec/service.pyx) -/

structure FunctionResultSpec : Type where
  name : String
  returnSpec : Option TS
  exceptionSpecs : List FieldS

namespace FunctionResultSpec

/-- The union fields of the result: field 0 `success` when the function
returns a value, then the declared exceptions. -/
def resultSpecs (r : FunctionResultSpec) : List FieldS :=
  (match r.returnSpec with
   | some t => [FieldS.mk 0 "success" t false none]
   | none => []) ++ r.exceptionSpecs

def allowEmpty (r : FunctionResultSpec) : Bool := r.returnSpec.isNone

/-- `exception_ids`: the declared exception field ids. -/
def exceptionIds (r : FunctionResultSpec) : List Int :=
  r.exceptionSpecs.map FieldS.fid

/-- The scan `from_wire` runs before delegating to the union `from_wire`:
any wire field whose id is neither 0 nor a declared exception id raises
`UnknownExceptionError` carrying the whole wire struct. -/
def checkUnknownFields (r : FunctionResultSpec) (w : WVal) :
    List (Int × Int × WVal) → Except PyErr Unit
  | [] => .ok ()
  | f :: fs =>
    if f.1 ≠ 0 ∧ ¬ r.exceptionIds.contains f.1 then
      .error (.unknownException (some w))
    else checkUnknownFields r w fs

/-- `FunctionResultSpec.from_wire`. -/
def from_wire (r : FunctionResultSpec) (w : WVal) : Except PyErr HVal := do
  typeCodeMatches (.tunion r.name r.resultSpecs r.allowEmpty) w
  match w with
  | .wstruct wfs => do
    checkUnknownFields r w wfs
    let kwargs ← fromWireUnionKwargs r.resultSpecs wfs
    unionInit r.name r.resultSpecs r.allowEmpty kwargs
  | _ => .error .valueError

end FunctionResultSpec

/-! ### Streaming deserialization (`read_from`) -/

open BinaryProtocolReader

mutual

/-- `TypeSpec.read_from` of every variant, including the struct loop of
`StructTypeSpec.read_from` (index by id, skip on unknown id or ttype
mismatch) and the union loop of `UnionTypeSpec.read_from` (index by
`(id, ttype)`). Container element types in the headers are not checked,
exactly as in the sources. -/
def readFromTS : Nat → TS → ReadBuffer → Except PyErr (HVal × ReadBuffer)
  | 0, _, _ => .error .fuelOut
  | fuel + 1, t, rb =>
    match t with
    | .tbool => do
      let (b, rb') ← read_bool rb
      .ok (.hBool b, rb')
    | .tbyte => do
      let (i, rb') ← i8 rb
      .ok (.hInt i, rb')
    | .ti16 => do
      let (i, rb') ← i16 rb
      .ok (.hInt i, rb')
    | .ti32 => do
      let (i, rb') ← i32 rb
      .ok (.hInt i, rb')
    | .ti64 => do
      let (i, rb') ← i64 rb
      .ok (.hInt i, rb')
    | .tdouble => do
      let (bits, rb') ← double rb
      .ok (.hFloat bits, rb')
    | .tbinary => do
      let (bs, rb') ← read_binary rb
      .ok (.hBytes bs, rb')
    | .tstring => do
      let (bs, rb') ← read_binary rb
      let cps ← pyDecodeUtf8 bs
      .ok (.hStr cps, rb')
    | .tenum _ _ => do
      let (i, rb') ← i32 rb
      .ok (.hInt i, rb')
    | .tlist vspec => do
      let (header, rb1) ← read_list_begin rb
      let (xs, rb2) ← readElemsHost fuel vspec header.size.toNat rb1
      .ok (.hList xs, rb2)
    | .tset vspec => do
      let (header, rb1) ← read_set_begin rb
      let (xs, rb2) ← readSetHost fuel vspec header.size.toNat [] rb1
      .ok (.hSet xs, rb2)
    | .tmap kspec vspec => do
      let (header, rb1) ← read_map_begin rb
      let (ps, rb2) ← readMapHost fuel kspec vspec header.size.toNat [] rb1
      .ok (.hDict ps, rb2)
    | .tstruct name fields => do
      let (kwargs, rb1) ← readStructLoop fuel fields [] rb
      let v ← structInit name fields kwargs
      .ok (v, rb1)
    | .tunion name fields allowEmpty => do
      let (kwargs, rb1) ← readUnionLoop fuel fields [] rb
      let v ← unionInit name fields allowEmpty kwargs
      .ok (v, rb1)
termination_by fuel t rb => (fuel, 0)

def readElemsHost : Nat → TS → Nat → ReadBuffer → Except PyErr (List HVal × ReadBuffer)
  | _, _, 0, rb => .ok ([], rb)
  | fuel, vspec, n + 1, rb => do
    let (x, rb1) ← readFromTS fuel vspec rb
    let (xs, rb2) ← readElemsHost fuel vspec n rb1
    .ok (x :: xs, rb2)
termination_by fuel vspec n rb => (fuel, n + 1)

def readSetHost : Nat → TS → Nat → List HVal → ReadBuffer →
    Except PyErr (List HVal × ReadBuffer)
  | _, _, 0, acc, rb => .ok (acc, rb)
  | fuel, vspec, n + 1, acc, rb => do
    let (x, rb1) ← readFromTS fuel vspec rb
    readSetHost fuel vspec n (pySetAdd acc x) rb1
termination_by fuel vspec n acc rb => (fuel, n + 1)

def readMapHost : Nat → TS → TS → Nat → List (HVal × HVal) → ReadBuffer →
    Except PyErr (List (HVal × HVal) × ReadBuffer)
  | _, _, _, 0, acc, rb => .ok (acc, rb)
  | fuel, kspec, vspec, n + 1, acc, rb => do
    let (k, rb1) ← readFromTS fuel kspec rb
    let (v, rb2) ← readFromTS fuel vspec rb1
    readMapHost fuel kspec vspec n (pyDictIns acc k v) rb2
termination_by fuel kspec vspec n acc rb => (fuel, n + 1)

def readStructLoop : Nat → List FieldS → List (String × HVal) → ReadBuffer →
    Except PyErr (List (String × HVal) × ReadBuffer)
  | 0, _, _, _ => .error .fuelOut
  | fuel + 1, fields, kwargs, rb => do
    let (header, rb1) ← read_field_begin rb
    if header.type = -1 then .ok (kwargs, rb1)
    else
      match fields.find? (fun f => f.fid == header.id) with
      | some f =>
        if f.fspec.ttypeCode = header.type then do
          let (x, rb2) ← readFromTS fuel f.fspec rb1
          readStructLoop fuel fields (aupdate kwargs f.fname x) rb2
        else do
          let rb2 ← skipVal fuel header.type rb1
          readStructLoop fuel fields kwargs rb2
      | none => do
        let rb2 ← skipVal fuel header.type rb1
        readStructLoop fuel fields kwargs rb2
termination_by fuel fields kwargs rb => (fuel, 0)

def readUnionLoop : Nat → List FieldS → List (String × HVal) → ReadBuffer →
    Except PyErr (List (String × HVal) × ReadBuffer)
  | 0, _, _, _ => .error .fuelOut
  | fuel + 1, fields, kwargs, rb => do
    let (header, rb1) ← read_field_begin rb
    if header.type = -1 then .ok (kwargs, rb1)
    else
      match fields.find? (fun f => f.fid == header.id && f.fspec.ttypeCode == header.type) with
      | some f => do
        let (x, rb2) ← readFromTS fuel f.fspec rb1
        readUnionLoop fuel fields (aupdate kwargs f.fname x) rb2
      | none => do
        let rb2 ← skipVal fuel header.type rb1
        readUnionLoop fuel fields kwargs rb2
termination_by fuel fields kwargs rb => (fuel, 0)

/-- The loop of `FunctionResultSpec.read_from`: an unrecognized field
raises `UnknownExceptionError` (without a wire struct — none exists in
the streaming path) unless its id is 0, in which case it is skipped. -/
def readResultLoop : Nat → List FieldS → List (String × HVal) → ReadBuffer →
    Except PyErr (List (String × HVal) × ReadBuffer)
  | 0, _, _, _ => .error .fuelOut
  | fuel + 1, fields, kwargs, rb => do
    let (header, rb1) ← read_field_begin rb
    if header.type = -1 then .ok (kwargs, rb1)
    else
      match fields.find? (fun f => f.fid == header.id && f.fspec.ttypeCode == header.type) with
      | some f => do
        let (x, rb2) ← readFromTS fuel f.fspec rb1
        readResultLoop fuel fields (aupdate kwargs f.fname x) rb2
      | none =>
        if header.id ≠ 0 then .error (.unknownException none)
        else do
          let rb2 ← skipVal fuel header.type rb1
          readResultLoop fuel fields kwargs rb2
termination_by fuel fields kwargs rb => (fuel, 0)

end

/-- `FunctionResultSpec.read_from`. -/
def FunctionResultSpec.read_from (fuel : Nat) (r : FunctionResultSpec)
    (rb : ReadBuffer) : Except PyErr (HVal × ReadBuffer) := do
  let (kwargs, rb1) ← readResultLoop fuel r.resultSpecs [] rb
  let v ← unionInit r.name r.resultSpecs r.allowEmpty kwargs
  .ok (v, rb1)

/-! ### The public codec entry points of the old path
(`BinaryProtocol.serialize_value` / `deserialize_value`) -/

/-- `BinaryProtocol.serialize_value`: write the wire value into a fresh
buffer and return its bytes. -/
def serialize_value (w : WVal) : List Nat := wvalBytes w

/-- `BinaryProtocol.deserialize_value`: parse one value of the given type
code from the byte string (trailing bytes are ignored, as in the source). -/
def deserialize_value (fuel : Nat) (typ : Int) (s : List Nat) : Except PyErr WVal :=
  match OldReader.readVal fuel typ ⟨s, 0⟩ with
  | .ok (w, _) => .ok w
  | .error e => .error e

/-- `TS.validate` as a Boolean (used to state canonical-form side
conditions). -/
def validateB (t : TS) (v : HVal) : Bool :=
  match TS.validate t v with
  | .ok _ => true
  | .error _ => false

/-! ### Wire-value well-formedness

`wfW` says a wire value is one the binary codec can reproduce exactly:
integers within their declared widths, bytes below 256, container sizes
within i32, field ids within i16, and every recorded element/field ttype
equal to the ttype of the value it tags. `to_wire` output on validated
canonical hosts satisfies it. -/

mutual

def wfW : WVal → Bool
  | .wbool _ => true
  | .wbyte i => decide (-(2 ^ 7) ≤ i ∧ i < 2 ^ 7)
  | .wdouble bits => decide (bits < 2 ^ 64)
  | .wi16 i => decide (-(2 ^ 15) ≤ i ∧ i < 2 ^ 15)
  | .wi32 i => decide (-(2 ^ 31) ≤ i ∧ i < 2 ^ 31)
  | .wi64 i => decide (-(2 ^ 63) ≤ i ∧ i < 2 ^ 63)
  | .wbinary bs => decide (bs.length < 2 ^ 31) && bs.all (fun b => decide (b < 256))
  | .wstruct fields => wfFields fields
  | .wmap kt vt pairs =>
    decide (pairs.length < 2 ^ 31) && knownTtype kt && knownTtype vt && wfPairs kt vt pairs
  | .wset vt vals =>
    decide (vals.length < 2 ^ 31) && knownTtype vt && wfElems vt vals
  | .wlist vt vals =>
    decide (vals.length < 2 ^ 31) && knownTtype vt && wfElems vt vals

def wfFields : List (Int × Int × WVal) → Bool
  | [] => true
  | (fid, ft, w) :: fs =>
    decide (-(2 ^ 15) ≤ fid ∧ fid < 2 ^ 15) && (ft == w.ttypeCode) && wfW w && wfFields fs

def wfPairs : Int → Int → List (WVal × WVal) → Bool
  | _, _, [] => true
  | kt, vt, (k, v) :: ps =>
    (k.ttypeCode == kt) && (v.ttypeCode == vt) && wfW k && wfW v && wfPairs kt vt ps

def wfElems : Int → List WVal → Bool
  | _, [] => true
  | vt, w :: ws => (w.ttypeCode == vt) && wfW w && wfElems vt ws

end

/-! ### Fuel bounds

`wcost w` bounds the fuel the readers and skippers need on the encoding
of `w`; it is a proof-side measure, not part of the source. -/

mutual

def wcost : WVal → Nat
  | .wbool _ => 1
  | .wbyte _ => 1
  | .wdouble _ => 1
  | .wi16 _ => 1
  | .wi32 _ => 1
  | .wi64 _ => 1
  | .wbinary _ => 1
  | .wstruct fields => 1 + wcostFields fields
  | .wmap _ _ pairs => 2 + wcostPairs pairs
  | .wset _ vals => 2 + wcostElems vals
  | .wlist _ vals => 2 + wcostElems vals

def wcostFields : List (Int × Int × WVal) → Nat
  | [] => 1
  | (_, _, w) :: fs => 1 + wcost w + wcostFields fs

def wcostPairs : List (WVal × WVal) → Nat
  | [] => 0
  | (k, v) :: ps => wcost k + wcost v + wcostPairs ps

def wcostElems : List WVal → Nat
  | [] => 0
  | w :: ws => wcost w + wcostElems ws

end

/-! ### Spec well-formedness and canonical host form -/

/-- Field-list sanity a linked struct/union spec has: ids unique and
within i16, names unique (the compiler enforces uniqueness; the id range
carries the i16 wire width). -/
def fieldsHeadWf (fields : List FieldS) : Bool :=
  decide (fields.map FieldS.fid).Nodup &&
  decide (fields.map FieldS.fname).Nodup &&
  fields.all (fun f => decide (-(2 ^ 15) ≤ f.fid ∧ f.fid < 2 ^ 15))

mutual

/-- Well-formedness of a spec tree (recursing through containers and
field specs). -/
def TS.wf : TS → Bool
  | .tbool => true
  | .tbyte => true
  | .ti16 => true
  | .ti32 => true
  | .ti64 => true
  | .tdouble => true
  | .tbinary => true
  | .tstring => true
  | .tenum _ _ => true
  | .tlist vspec => vspec.wf
  | .tset vspec => vspec.wf
  | .tmap kspec vspec => kspec.wf && vspec.wf
  | .tstruct _ fields => fieldsHeadWf fields && fieldsWfAll fields
  | .tunion _ fields _ => fieldsHeadWf fields && fieldsWfAll fields
termination_by t => (sizeOf t, 0)

def fieldsWfAll : List FieldS → Bool
  | [] => true
  | .mk _ _ fspec _ _ :: fs => fspec.wf && fieldsWfAll fs
termination_by fs => (sizeOf fs, 0)

end

/-- Whether a Unicode code point is a scalar value (encodable in UTF-8). -/
def scalarCp (c : Nat) : Bool :=
  decide (c < 0x110000) && !decide (0xD800 ≤ c ∧ c < 0xE000)

/-- Pairwise Python-inequality, walked the way `set.add` and dict
insertion test it: each element is unequal to every element before it
(the accumulator carries the prefix). -/
def pyDistinctFromB : List HVal → List HVal → Bool
  | _, [] => true
  | acc, x :: xs => !pyMemB x acc && pyDistinctFromB (acc ++ [x]) xs

/-- Pairwise Python-inequality (what keeps `set.add` and dict insertion
from deduplicating). -/
def pyDistinctB (xs : List HVal) : Bool := pyDistinctFromB [] xs

mutual

/-- The canonical host form of a value for a spec: the exact
representation the bridge itself produces. `validate` accepts more
(coercible ints for bool, text for binary, bytes for text, ints for
double, `None` in a defaulted field), and those looser values do not
round-trip unchanged. Sizes are bounded by i32 where the codec writes a
length. -/
def canonB : TS → HVal → Bool
  | .tbool, v =>
    match v with
    | .hBool _ => true
    | _ => false
  | .tbyte, v =>
    match v with
    | .hInt _ => true
    | _ => false
  | .ti16, v =>
    match v with
    | .hInt _ => true
    | _ => false
  | .ti32, v =>
    match v with
    | .hInt _ => true
    | _ => false
  | .ti64, v =>
    match v with
    | .hInt _ => true
    | _ => false
  | .tdouble, v =>
    match v with
    | .hFloat bits => decide (bits < 2 ^ 64)
    | _ => false
  | .tbinary, v =>
    match v with
    | .hBytes bs => decide (bs.length < 2 ^ 31) && bs.all (fun b => decide (b < 256))
    | _ => false
  | .tstring, v =>
    match v with
    | .hStr cps => decide (cps.length < 2 ^ 29) && cps.all scalarCp
    | _ => false
  | .tenum _ _, v =>
    match v with
    | .hInt _ => true
    | _ => false
  | .tlist vspec, v =>
    match v with
    | .hList xs => decide (xs.length < 2 ^ 31) && canonElems vspec xs
    | _ => false
  | .tset vspec, v =>
    match v with
    | .hSet xs =>
      decide (xs.length < 2 ^ 31) && canonElems vspec xs && pyDistinctB xs
    | _ => false
  | .tmap kspec vspec, v =>
    match v with
    | .hDict ps =>
      decide (ps.length < 2 ^ 31) && canonPairsB kspec vspec ps &&
        pyDistinctB (ps.map (fun p => p.1))
    | _ => false
  | .tstruct name fields, v =>
    match v with
    | .hStruct name2 attrs =>
      (name == name2) &&
      (attrs.map Prod.fst == (ctorFields fields).map FieldS.fname) &&
      canonFieldsB fields attrs
    | _ => false
  | .tunion name fields _, v =>
    match v with
    | .hStruct name2 attrs =>
      (name == name2) &&
      (attrs.map Prod.fst == fields.map FieldS.fname) &&
      canonFieldsB fields attrs
    | _ => false
termination_by t v => (sizeOf t, 0)

def canonElems : TS → List HVal → Bool
  | _, [] => true
  | vspec, x :: xs => canonB vspec x && validateB vspec x && canonElems vspec xs
termination_by vspec xs => (sizeOf vspec, sizeOf xs)

def canonPairsB : TS → TS → List (HVal × HVal) → Bool
  | _, _, [] => true
  | kspec, vspec, (k, v) :: ps =>
    canonB kspec k && validateB kspec k && canonB vspec v && validateB vspec v &&
      canonPairsB kspec vspec ps
termination_by kspec vspec ps => (sizeOf kspec + sizeOf vspec, sizeOf ps)
decreasing_by
  all_goals simp_wf
  · refine Prod.Lex.left _ _ ?_
    have h1 : 1 ≤ sizeOf vspec := by cases vspec <;> simp_arith
    omega
  · refine Prod.Lex.left _ _ ?_
    have h1 : 1 ≤ sizeOf kspec := by cases kspec <;> simp_arith
    omega
  · exact Prod.Lex.right _ (by simp_arith)

/-- Per-field canonical-form check of a struct/union instance: every
declared field's attribute exists; present values are canonical and
deeply valid (with the surface-identity requirement for child struct
fields); a `None` attribute is allowed only for an optional field with no
default (`from_wire` refills defaulted fields, so a canonical instance
never holds `None` there). The attribute ordering itself is checked by
the caller against the constructor order. -/
def canonFieldsB : List FieldS → List (String × Option HVal) → Bool
  | [], _ => true
  | .mk _ fname fspec freq fdef :: fs, attrs =>
    (match alookup attrs fname with
     | none => false
     | some none => !freq && fdef.isNone
     | some (some x) =>
       canonB fspec x &&
       (if fspec.ttypeCode = ttype.STRUCT then instanceofSurfaceB fspec x
        else true) &&
       validateB fspec x) &&
    canonFieldsB fs attrs
termination_by fs attrs => (sizeOf fs, 0)

end

/-! ### Helper lemmas about buffer consumption -/

/-- The buffer moved forward by `n` bytes (a proof-side convenience). -/
def ReadBuffer.advance (rb : ReadBuffer) (n : Nat) : ReadBuffer := ⟨rb.data, rb.offset + n⟩

/-- Whether a wire field entry `(id, ttype, value)` is matched by the
struct's index: some declared field has its id, and that field's spec has
the entry's ttype (the dispatch test of `StructTypeSpec.read_from`). -/
def entryKnownB (fields : List FieldS) (e : Int × Int × WVal) : Bool :=
  match fields.find? (fun f => f.fid == e.1) with
  | some f => f.fspec.ttypeCode == e.2.1
  | none => false

/-- The keyword-argument update one loop iteration performs: a matched
entry stores the read value under the field's name, every other entry
leaves the arguments unchanged (it is skipped). -/
def knownUpd (fields : List FieldS) (X : Int × Int × WVal → HVal)
    (kw : List (String × HVal)) (e : Int × Int × WVal) : List (String × HVal) :=
  match fields.find? (fun f => f.fid == e.1) with
  | some f => if f.fspec.ttypeCode == e.2.1 then aupdate kw f.fname (X e) else kw
  | none => kw

/-! ### C2, bridge level: helper functions naming the images `to_wire` and
`from_wire` build for struct/union instances -/

/-- The wire value `to_wire` produces (total helper; the round-trip
theorems only apply it where `to_wire` succeeds). -/
def toWireOr (t : TS) (x : HVal) : WVal :=
  match TS.to_wire t x with
  | .ok w => w
  | .error _ => .wbool false

/-- The attribute value stored under a name (`None` when absent). -/
def attrVal (attrs : List (String × Option HVal)) (n : String) : Option HVal :=
  match alookup attrs n with
  | some v => v
  | none => none

/-- The field-value list `to_wire` emits for a struct/union instance:
one `(id, ttype, value)` triple per non-`None` declared field, in
declaration order. -/
def wireImage (attrs : List (String × Option HVal)) : List FieldS → List (Int × Int × WVal)
  | [] => []
  | f :: fs =>
    match attrVal attrs f.fname with
    | some x => (f.fid, f.fspec.ttypeCode, toWireOr f.fspec x) :: wireImage attrs fs
    | none => wireImage attrs fs

/-- The keyword arguments the struct `from_wire` loop accumulates. -/
def kwargsImage (attrs : List (String × Option HVal)) : List FieldS → List (String × HVal)
  | [] => []
  | f :: fs =>
    match attrVal attrs f.fname with
    | some x => (f.fname, x) :: kwargsImage attrs fs
    | none => kwargsImage attrs fs

theorem beNat_length (w n : Nat) : (beNat w n).length = w := by
  induction w generalizing n with
  | zero => rfl
  | succ w ih => simp [beNat, ih]

theorem beNat_lt (w n : Nat) : ∀ b ∈ beNat w n, b < 256 := by
  induction w generalizing n with
  | zero => simp [beNat]
  | succ w ih =>
    intro b hb
    simp only [beNat, List.mem_append, List.mem_singleton] at hb
    rcases hb with hb | hb
    · exact ih _ _ hb
    · subst hb; exact Nat.mod_lt _ (by norm_num)

theorem beToNat_foldl_acc (bs : List Nat) (a : Nat) :
    List.foldl (fun a b => a * 256 + b) a bs = a * 256 ^ bs.length + beToNat bs := by
  induction bs generalizing a with
  | nil => simp [beToNat]
  | cons b bs ih =>
    simp only [List.foldl_cons, List.length_cons, beToNat, Nat.zero_mul, Nat.zero_add]
    rw [ih, ih b]
    ring

theorem beToNat_append (bs cs : List Nat) :
    beToNat (bs ++ cs) = beToNat bs * 256 ^ cs.length + beToNat cs := by
  rw [beToNat, List.foldl_append, beToNat_foldl_acc]
  rfl

theorem beToNat_beNat (w n : Nat) : beToNat (beNat w n) = n % 256 ^ w := by
  induction w generalizing n with
  | zero => simp [beNat, beToNat, Nat.mod_one]
  | succ w ih =>
    rw [beNat, beToNat_append, ih]
    have h1 : beToNat [n % 256] = n % 256 := by simp [beToNat]
    rw [h1]
    simp only [List.length_singleton, pow_one]
    have h2 : (256 : Nat) ^ (w + 1) = 256 * 256 ^ w := by ring
    rw [h2, Nat.mod_mul]
    ring

theorem pow_256_eq (w : Nat) : (256 : Nat) ^ w = 2 ^ (8 * w) := by
  rw [show (256 : Nat) = 2 ^ 8 by norm_num, ← pow_mul]

/-- Writing a signed value in range and reading it back as signed is the
identity. -/
theorem toSigned_beToNat_beI (w : Nat) (hw : 0 < w) (i : Int)
    (hlo : -(2 ^ (8 * w - 1)) ≤ i) (hhi : i < 2 ^ (8 * w - 1)) :
    toSigned (8 * w) (beToNat (beI w i)) = i := by
  rw [beI, beToNat_beNat, pow_256_eq]
  have h2 : (0 : Int) < 2 ^ (8 * w) := by positivity
  have hcast : ((2 ^ (8 * w) : Nat) : Int) = 2 ^ (8 * w) := by push_cast; ring
  have hcast1 : ((2 ^ (8 * w - 1) : Nat) : Int) = 2 ^ (8 * w - 1) := by push_cast; ring
  have hhalf : (2 : Int) ^ (8 * w) = 2 ^ (8 * w - 1) * 2 := by
    rw [← pow_succ]
    congr 1
    omega
  have hm0 : 0 ≤ i.emod (2 ^ (8 * w)) := Int.emod_nonneg i (ne_of_gt h2)
  have hmlt : i.emod (2 ^ (8 * w)) < 2 ^ (8 * w) := Int.emod_lt_of_pos i h2
  have hidx : (i.emod ((2 : Int) ^ (8 * w))).toNat % 2 ^ (8 * w)
      = (i.emod ((2 : Int) ^ (8 * w))).toNat := by
    apply Nat.mod_eq_of_lt
    omega
  rw [hidx, toSigned]
  rcases le_or_lt 0 i with hpos | hneg
  · have hmeq : i.emod (2 ^ (8 * w)) = i := Int.emod_eq_of_lt hpos (by omega)
    have htn : ((i.emod ((2 : Int) ^ (8 * w))).toNat : Int) = i := by
      rw [hmeq]; exact Int.toNat_of_nonneg hpos
    have hlt : (i.emod ((2 : Int) ^ (8 * w))).toNat < 2 ^ (8 * w - 1) := by omega
    rw [if_pos hlt]
    exact htn
  · have hmeq : i.emod (2 ^ (8 * w)) = i + 2 ^ (8 * w) := by
      have h3 : (i + 2 ^ (8 * w)).emod (2 ^ (8 * w)) = i.emod (2 ^ (8 * w)) := by
        have h5 := Int.add_mul_emod_self_left (a := i) (b := (2 : Int) ^ (8 * w)) (c := 1)
        rw [mul_one] at h5
        exact h5
      have h4 : (i + 2 ^ (8 * w)).emod (2 ^ (8 * w)) = i + 2 ^ (8 * w) :=
        Int.emod_eq_of_lt (by omega) (by omega)
      omega
    have htn : ((i.emod ((2 : Int) ^ (8 * w))).toNat : Int) = i + 2 ^ (8 * w) := by
      rw [hmeq]
      exact Int.toNat_of_nonneg (by omega)
    have hge : ¬ (i.emod ((2 : Int) ^ (8 * w))).toNat < 2 ^ (8 * w - 1) := by omega
    rw [if_neg hge]
    omega

@[simp] theorem ok_bind {ε : Type u} {α β : Type v} (a : α) (f : α → Except ε β) :
    (Except.ok a : Except ε α) >>= f = f a := rfl

@[simp] theorem error_bind {ε : Type u} {α β : Type v} (e : ε) (f : α → Except ε β) :
    (Except.error e : Except ε α) >>= f = Except.error e := rfl

theorem ReadBuffer.rest_length (rb : ReadBuffer) : rb.rest.length = rb.available := by
  simp [ReadBuffer.rest, ReadBuffer.available, List.length_drop]

theorem ReadBuffer.advance_rest (rb : ReadBuffer) (n : Nat) :
    (rb.advance n).rest = rb.rest.drop n := by
  simp [ReadBuffer.rest, ReadBuffer.advance, List.drop_drop, Nat.add_comm]

theorem ReadBuffer.read_ok (rb : ReadBuffer) (n : Nat) (bs tl : List Nat)
    (h : rb.rest = bs ++ tl) (hn : bs.length = n) :
    rb.read n = .ok (bs, rb.advance n) ∧ (rb.advance n).rest = tl := by
  have hav : n ≤ rb.available := by
    have := rb.rest_length
    rw [h] at this
    simp [List.length_append] at this
    omega
  constructor
  · rw [ReadBuffer.read, if_neg (by simp [ReadBuffer.available] at hav ⊢; omega)]
    have htake : (rb.data.drop rb.offset).take n = bs := by
      rw [show rb.data.drop rb.offset = rb.rest from rfl, h, ← hn, List.take_left]
    rw [htake]
    rfl
  · rw [rb.advance_rest, h, ← hn, List.drop_left]

theorem ReadBuffer.take_ok (rb : ReadBuffer) (n : Nat) (bs tl : List Nat)
    (h : rb.rest = bs ++ tl) (hn : bs.length = n) :
    rb.take n = .ok (bs, rb.advance n) ∧ (rb.advance n).rest = tl :=
  rb.read_ok n bs tl h hn

theorem ReadBuffer.skip_ok (rb : ReadBuffer) (n : Nat) (bs tl : List Nat)
    (h : rb.rest = bs ++ tl) (hn : bs.length = n) :
    rb.skip n = .ok (rb.advance n) ∧ (rb.advance n).rest = tl := by
  have h1 := rb.read_ok n bs tl h hn
  constructor
  · rw [ReadBuffer.skip]
    rw [ReadBuffer.read] at h1
    split at h1
    · exact absurd h1.1 (by simp)
    · rw [if_neg (by omega)]
      rfl
  · exact h1.2

theorem ReadBuffer.takeSigned_ok (rb : ReadBuffer) (c : Int) (bs tl : List Nat)
    (h : rb.rest = bs ++ tl) (hc : (bs.length : Int) = c) :
    rb.takeSigned c = .ok (bs, rb.advance bs.length) ∧ (rb.advance bs.length).rest = tl := by
  have h1 := rb.read_ok bs.length bs tl h rfl
  refine ⟨?_, h1.2⟩
  rw [ReadBuffer.takeSigned]
  rw [ReadBuffer.read] at h1
  split at h1
  · exact absurd h1.1 (by simp)
  · rename_i hcond
    rw [if_neg (by rw [← hc]; simp [ReadBuffer.available]; omega)]
    have hcn : c.toNat = bs.length := by omega
    rw [hcn]
    have htake : (rb.data.drop rb.offset).take bs.length = bs := by
      rw [show rb.data.drop rb.offset = rb.rest from rfl, h, List.take_left]
    rw [htake]
    rfl

theorem ReadBuffer.skipSigned_ok (rb : ReadBuffer) (c : Int) (bs tl : List Nat)
    (h : rb.rest = bs ++ tl) (hc : (bs.length : Int) = c) :
    rb.skipSigned c = .ok (rb.advance bs.length) ∧ (rb.advance bs.length).rest = tl := by
  have h1 := rb.takeSigned_ok c bs tl h hc
  refine ⟨?_, h1.2⟩
  rw [ReadBuffer.skipSigned]
  rw [ReadBuffer.takeSigned] at h1
  split at h1
  · exact absurd h1.1 (by simp)
  · rename_i hcond
    rw [if_neg hcond]
    have hcn : c.toNat = bs.length := by omega
    rw [hcn]
    rfl

namespace BinaryProtocolReader

theorem i8_ok (rb : ReadBuffer) (b : Nat) (tl : List Nat) (h : rb.rest = b :: tl) :
    i8 rb = .ok (toSigned 8 b, rb.advance 1) ∧ (rb.advance 1).rest = tl := by
  have h1 := rb.read_ok 1 [b] tl (by simpa using h) rfl
  rw [i8, h1.1]
  exact ⟨by simp [beToNat], h1.2⟩

theorem beToNat_one (b : Nat) : beToNat [b] = b := by simp [beToNat]

theorem i16_ok (rb : ReadBuffer) (v : Int) (tl : List Nat)
    (h : rb.rest = beI 2 v ++ tl) (hlo : -(2 ^ 15) ≤ v) (hhi : v < 2 ^ 15) :
    i16 rb = .ok (v, rb.advance 2) ∧ (rb.advance 2).rest = tl := by
  have h1 := rb.read_ok 2 (beI 2 v) tl h (by simp [beI, beNat_length])
  rw [i16, h1.1]
  refine ⟨?_, h1.2⟩
  have := toSigned_beToNat_beI 2 (by norm_num) v (by norm_num at hlo ⊢; omega)
    (by norm_num at hhi ⊢; omega)
  norm_num at this
  simp [this]

theorem i32_ok (rb : ReadBuffer) (v : Int) (tl : List Nat)
    (h : rb.rest = beI 4 v ++ tl) (hlo : -(2 ^ 31) ≤ v) (hhi : v < 2 ^ 31) :
    i32 rb = .ok (v, rb.advance 4) ∧ (rb.advance 4).rest = tl := by
  have h1 := rb.read_ok 4 (beI 4 v) tl h (by simp [beI, beNat_length])
  rw [i32, h1.1]
  refine ⟨?_, h1.2⟩
  have := toSigned_beToNat_beI 4 (by norm_num) v (by norm_num at hlo ⊢; omega)
    (by norm_num at hhi ⊢; omega)
  norm_num at this
  simp [this]

theorem i64_ok (rb : ReadBuffer) (v : Int) (tl : List Nat)
    (h : rb.rest = beI 8 v ++ tl) (hlo : -(2 ^ 63) ≤ v) (hhi : v < 2 ^ 63) :
    i64 rb = .ok (v, rb.advance 8) ∧ (rb.advance 8).rest = tl := by
  have h1 := rb.read_ok 8 (beI 8 v) tl h (by simp [beI, beNat_length])
  rw [i64, h1.1]
  refine ⟨?_, h1.2⟩
  have := toSigned_beToNat_beI 8 (by norm_num) v (by norm_num at hlo ⊢; omega)
    (by norm_num at hhi ⊢; omega)
  norm_num at this
  simp [this]

theorem i32_ok_raw (rb : ReadBuffer) (n : Nat) (tl : List Nat)
    (h : rb.rest = beNat 4 n ++ tl) (hn : n < 2 ^ 32) :
    i32 rb = .ok (toSigned 32 n, rb.advance 4) ∧ (rb.advance 4).rest = tl := by
  have h1 := rb.read_ok 4 (beNat 4 n) tl h (beNat_length 4 n)
  rw [i32, h1.1]
  refine ⟨?_, h1.2⟩
  simp only [ok_bind]
  rw [beToNat_beNat]
  have : n % 256 ^ 4 = n := Nat.mod_eq_of_lt (by rw [pow_256_eq]; norm_num at hn ⊢; omega)
  rw [this]

theorem double_ok (rb : ReadBuffer) (bits : Nat) (tl : List Nat)
    (h : rb.rest = beNat 8 bits ++ tl) (hb : bits < 2 ^ 64) :
    double rb = .ok (bits, rb.advance 8) ∧ (rb.advance 8).rest = tl := by
  have h1 := rb.read_ok 8 (beNat 8 bits) tl h (beNat_length 8 bits)
  rw [double, h1.1]
  refine ⟨?_, h1.2⟩
  simp only [ok_bind]
  rw [beToNat_beNat]
  have : bits % 256 ^ 8 = bits := Nat.mod_eq_of_lt (by rw [pow_256_eq]; norm_num at hb ⊢; omega)
  rw [this]

end BinaryProtocolReader

/-! ### Claim C7: ReadBuffer consumption -/

/-- C7: every consuming ReadBuffer operation (`read`, `take`, `skip`)
fails with `EndOfInput` exactly when the requested count exceeds
`available`, and otherwise succeeds, advancing the offset by exactly the
count, so that `available` decreases by it; under the precondition
`n ≤ available` the error branch is unreachable. -/
theorem readBuffer_consume_exact (rb : ReadBuffer) (n : Nat) :
    (rb.read n = .error .endOfInput ↔ n > rb.available) ∧
    (rb.take n = .error .endOfInput ↔ n > rb.available) ∧
    (rb.skip n = .error .endOfInput ↔ n > rb.available) ∧
    (n ≤ rb.available →
      rb.read n = .ok ((rb.data.drop rb.offset).take n, ⟨rb.data, rb.offset + n⟩) ∧
      rb.take n = .ok ((rb.data.drop rb.offset).take n, ⟨rb.data, rb.offset + n⟩) ∧
      rb.skip n = .ok ⟨rb.data, rb.offset + n⟩ ∧
      ReadBuffer.available ⟨rb.data, rb.offset + n⟩ = rb.available - n ∧
      ((rb.data.drop rb.offset).take n).length = n) := by
  have havail : rb.available = rb.data.length - rb.offset := rfl
  by_cases h : n > rb.data.length - rb.offset
  · rw [ReadBuffer.read, ReadBuffer.take, ReadBuffer.skip, if_pos h, if_pos h]
    refine ⟨by simp [havail, h], by simp [havail, h], by simp [havail, h], ?_⟩
    intro hle
    omega
  · rw [ReadBuffer.read, ReadBuffer.take, ReadBuffer.skip, if_neg h, if_neg h]
    refine ⟨by simp [havail]; omega, by simp [havail]; omega, by simp [havail]; omega, ?_⟩
    intro hle
    refine ⟨rfl, rfl, rfl, by simp [ReadBuffer.available]; omega, ?_⟩
    rw [List.length_take, List.length_drop]
    omega

/-- C7 witness: `take` and `skip` of 2 bytes at offset 1 of a 3-byte
buffer succeed, consume exactly 2 bytes, and leave 0 available. -/
theorem readBuffer_consume_exact_witness :
    2 ≤ ReadBuffer.available ⟨[7, 8, 9], 1⟩ ∧
    ReadBuffer.take ⟨[7, 8, 9], 1⟩ 2 = .ok ([8, 9], ⟨[7, 8, 9], 3⟩) ∧
    ReadBuffer.skip ⟨[7, 8, 9], 1⟩ 2 = .ok ⟨[7, 8, 9], 3⟩ ∧
    ReadBuffer.available ⟨[7, 8, 9], 3⟩ = ReadBuffer.available ⟨[7, 8, 9], 1⟩ - 2 :=
  have h := (readBuffer_consume_exact ⟨[7, 8, 9], 1⟩ 2).2.2.2 (by decide)
  ⟨by decide, h.2.1, h.2.2.1, h.2.2.2.1⟩

/-! ### Claim C9: WriteBuffer growth policy -/

/-- C9 counterexample: with 2 bytes used and no free capacity, a request
for 3 bytes doubles the used length (total 4, providing 2 free bytes,
a shortfall of 1 byte) and the policy claimed by the spec would grow to
4 + 1 = 5 total bytes; `ensure_capacity` actually reallocates to
2·2 + 3 = 7 total bytes — the full request on top of the doubled size,
not just the shortfall. -/
theorem ensure_capacity_not_shortfall :
    (WriteBuffer.ensure_capacity ⟨2, 0⟩ 3).total = 7 ∧
    2 * 2 + (3 - 2) = 5 ∧ (7 : Nat) ≠ 5 := by decide

/-- C9 (amended): when a write needs more room than the current capacity,
the buffer reallocates to double the used length; if that doubling is
insufficient (used length < requested bytes), it reallocates to the
doubled length plus the **full** requested byte count. -/
theorem ensure_capacity_policy (wb : WriteBuffer) (m : Nat) :
    (m ≤ wb.capacity → wb.ensure_capacity m = wb) ∧
    (wb.capacity < m → wb.length < m →
      wb.ensure_capacity m = ⟨wb.length, wb.length + m⟩ ∧
      (wb.ensure_capacity m).total = 2 * wb.length + m) ∧
    (wb.capacity < m → m ≤ wb.length →
      wb.ensure_capacity m = ⟨wb.length, wb.length⟩ ∧
      (wb.ensure_capacity m).total = 2 * wb.length) := by
  refine ⟨fun h1 => ?_, fun h1 h2 => ?_, fun h1 h2 => ?_⟩
  · simp only [WriteBuffer.ensure_capacity, if_pos h1]
  · simp only [WriteBuffer.ensure_capacity, WriteBuffer.total]
    rw [if_neg (by omega), if_pos (by omega)]
    constructor
    · congr 1
      omega
    · simp only
      omega
  · simp only [WriteBuffer.ensure_capacity, WriteBuffer.total]
    rw [if_neg (by omega), if_neg (by omega)]
    constructor
    · congr 1
      omega
    · simp only
      omega

/-- C9 witness: the amended policy evaluated at both branches —
(length 2, capacity 0, request 3) reallocates to 7 total, and
(length 4, capacity 0, request 3) doubles to 8 total. -/
theorem ensure_capacity_policy_witness :
    WriteBuffer.capacity ⟨2, 0⟩ < 3 ∧ WriteBuffer.length ⟨2, 0⟩ < 3 ∧
    WriteBuffer.ensure_capacity ⟨2, 0⟩ 3 = ⟨2, 5⟩ ∧
    (WriteBuffer.ensure_capacity ⟨2, 0⟩ 3).total = 2 * 2 + 3 ∧
    WriteBuffer.ensure_capacity ⟨4, 0⟩ 3 = ⟨4, 4⟩ ∧
    (WriteBuffer.ensure_capacity ⟨4, 0⟩ 3).total = 2 * 4 :=
  have h1 := (ensure_capacity_policy ⟨2, 0⟩ 3).2.1 (by decide) (by decide)
  have h2 := (ensure_capacity_policy ⟨4, 0⟩ 3).2.2 (by decide) (by decide)
  ⟨by decide, by decide, h1.1, h1.2, h2.1, h2.2⟩

/-! ### Claim C10: read_bool -/

/-- C10: `BinaryProtocolReader.read_bool` returns `True` exactly when the
decoded byte equals 1; every other byte value (2, 0xff = the two's
complement of -1, ...) decodes to `False`. -/
theorem read_bool_eq_one (rb : ReadBuffer) (b : Nat) (tl : List Nat)
    (h : rb.rest = b :: tl) (hb : b < 256) :
    BinaryProtocolReader.read_bool rb = .ok (decide (b = 1), rb.advance 1) := by
  have h1 := BinaryProtocolReader.i8_ok rb b tl h
  rw [BinaryProtocolReader.read_bool, h1.1]
  simp only [ok_bind]
  have hbool : (toSigned 8 b == 1) = decide (b = 1) := by
    rw [toSigned]
    by_cases h128 : b < 2 ^ (8 - 1)
    · rw [if_pos h128]
      rcases eq_or_ne b 1 with hb1 | hb1
      · subst hb1; decide
      · have : ((b : Int) == 1) = false := by
          simp only [beq_eq_false_iff_ne]
          omega
        rw [this]
        simp [hb1]
    · rw [if_neg h128]
      have hlhs : (((b : Int) - 2 ^ 8) == 1) = false := by
        simp only [beq_eq_false_iff_ne]
        omega
      have hrhs : decide (b = 1) = false := by
        simp only [decide_eq_false_iff_not]
        omega
      rw [hlhs, hrhs]
  rw [hbool]

/-- C10 witness: byte 1 decodes to `True`; bytes 2 and 0xff (= -1 as a
signed byte) decode to `False`. -/
theorem read_bool_eq_one_witness :
    BinaryProtocolReader.read_bool ⟨[1], 0⟩ = .ok (true, ⟨[1], 1⟩) ∧
    BinaryProtocolReader.read_bool ⟨[2], 0⟩ = .ok (false, ⟨[2], 1⟩) ∧
    BinaryProtocolReader.read_bool ⟨[255], 0⟩ = .ok (false, ⟨[255], 1⟩) :=
  ⟨read_bool_eq_one ⟨[1], 0⟩ 1 [] rfl (by decide),
   read_bool_eq_one ⟨[2], 0⟩ 2 [] rfl (by decide),
   read_bool_eq_one ⟨[255], 0⟩ 255 [] rfl (by decide)⟩

/-! ### Claim C8: signed integer ranges -/

/-- C8: for each integer primitive spec of width n ∈ {8, 16, 32, 64},
`validate` accepts an integral value exactly when it lies in
[-2^(n-1), 2^(n-1)-1], and rejects any integral value outside that range
with a `ValueError` (from `validate_signed_int`). -/
theorem integer_validate_signed_range (v : Int) :
    (TS.validate .tbyte (.hInt v) = .ok () ↔ -(2 ^ 7) ≤ v ∧ v ≤ 2 ^ 7 - 1) ∧
    (TS.validate .tbyte (.hInt v) = .error .valueError ↔ v < -(2 ^ 7) ∨ v > 2 ^ 7 - 1) ∧
    (TS.validate .ti16 (.hInt v) = .ok () ↔ -(2 ^ 15) ≤ v ∧ v ≤ 2 ^ 15 - 1) ∧
    (TS.validate .ti16 (.hInt v) = .error .valueError ↔ v < -(2 ^ 15) ∨ v > 2 ^ 15 - 1) ∧
    (TS.validate .ti32 (.hInt v) = .ok () ↔ -(2 ^ 31) ≤ v ∧ v ≤ 2 ^ 31 - 1) ∧
    (TS.validate .ti32 (.hInt v) = .error .valueError ↔ v < -(2 ^ 31) ∨ v > 2 ^ 31 - 1) ∧
    (TS.validate .ti64 (.hInt v) = .ok () ↔ -(2 ^ 63) ≤ v ∧ v ≤ 2 ^ 63 - 1) ∧
    (TS.validate .ti64 (.hInt v) = .error .valueError ↔ v < -(2 ^ 63) ∨ v > 2 ^ 63 - 1) := by
  simp only [TS.validate, isIntegral, pyIntValue, validate_signed_int, if_true]
  norm_num
  refine ⟨⟨?_, ?_⟩, ⟨?_, ?_⟩, ⟨?_, ?_⟩, ⟨?_, ?_⟩, ⟨?_, ?_⟩, ⟨?_, ?_⟩, ⟨?_, ?_⟩, ⟨?_, ?_⟩⟩ <;>
    · intro hcond
      first
      | (intro h1 h2; exact absurd hcond (by omega))
      | (intro hc; exact absurd hcond (by omega))
      | (by_contra hno; exact absurd (hcond (by omega) (by omega)) (by simp))
      | (by_contra hno; exact absurd (hcond (by omega)) (by simp))

/-! ### Claim C1: message envelopes -/

theorem beNat_four (n : Nat) :
    beNat 4 n = [n / 256 / 256 / 256 % 256, n / 256 / 256 % 256, n / 256 % 256, n % 256] := by
  simp [beNat]

theorem beI_ofNat (v : Nat) (h : v < 2 ^ 32) : beI 4 (v : Int) = beNat 4 v := by
  rw [beI]
  congr 1
  have h1 : ((v : Int)).emod (2 ^ (8 * 4)) = (v : Int) := by
    apply Int.emod_eq_of_lt (by positivity)
    norm_num
    exact_mod_cast h
  rw [h1]
  exact Int.toNat_natCast v

theorem int_lor_small (t : Int) (h0 : 0 ≤ t) (h1 : t < 128) :
    Int.lor 0x80010000 t = ((0x80010000 + t.toNat : Nat) : Int) := by
  obtain ⟨tn, rfl⟩ := Int.eq_ofNat_of_zero_le h0
  have htn : tn < 128 := by exact_mod_cast h1
  have hred : Int.lor (Int.ofNat 0x80010000) (Int.ofNat tn) = Int.ofNat (0x80010000 ||| tn) := by
    simp [Int.lor]
  have hor : (0x80010000 : Nat) ||| tn = 0x80010000 + tn := by
    have h2 : tn < 2 ^ 8 := by omega
    have h3 := Nat.mul_add_lt_is_or h2 0x800100
    norm_num at h3 ⊢
    omega
  show Int.lor (Int.ofNat 0x80010000) (Int.ofNat tn) =
    ((0x80010000 + (Int.ofNat tn).toNat : Nat) : Int)
  rw [hred, hor]
  simp

/-- C1 counterexample: serializing the message named `"a"` (0x61) with
type 1 (CALL) and seqid 0 emits the non-strict envelope
`len(name):i32 | name | type:i8 | seqid:i32`, not the strict
`(0x80010000|type):i32 | len | name | seqid` form the spec asserts. -/
theorem write_message_begin_not_strict :
    write_message_begin ⟨[0x61], 1, 0⟩ = [0, 0, 0, 1, 0x61, 1, 0, 0, 0, 0] ∧
    strictEnvelopeSpec ⟨[0x61], 1, 0⟩ =
      [0x80, 1, 0, 1, 0, 0, 0, 1, 0x61, 0, 0, 0, 0] ∧
    write_message_begin ⟨[0x61], 1, 0⟩ ≠ strictEnvelopeSpec ⟨[0x61], 1, 0⟩ := by
  refine ⟨by decide, ?_, ?_⟩
  · show beI 4 (Int.lor 0x80010000 1) ++ beI 4 1 ++ [0x61] ++ beI 4 0 = _
    rw [int_lor_small 1 (by decide) (by decide)]
    decide
  · intro hcontra
    have h1 : write_message_begin ⟨[0x61], 1, 0⟩ = [0, 0, 0, 1, 0x61, 1, 0, 0, 0, 0] := by decide
    have h2 : strictEnvelopeSpec ⟨[0x61], 1, 0⟩ =
        [0x80, 1, 0, 1, 0, 0, 0, 1, 0x61, 0, 0, 0, 0] := by
      show beI 4 (Int.lor 0x80010000 1) ++ beI 4 1 ++ [0x61] ++ beI 4 0 = _
      rw [int_lor_small 1 (by decide) (by decide)]
      decide
    rw [h1, h2] at hcontra
    exact absurd hcontra (by decide)

/-- C1 (amended): `write_message_begin`, and hence
`Protocol.serialize_message`, always emits the **non-strict** envelope
`len(name):i32 | name | type:i8 | seqid:i32` (followed by the body), and
this never coincides with the strict form: the non-strict envelope's
first byte is below 0x80, the strict one's is exactly 0x80. The strict
form is accepted on read only. -/
theorem serialize_message_nonstrict (m : Message)
    (hlen : m.name.length < 2 ^ 31) (ht0 : 0 ≤ m.messageType) (ht1 : m.messageType < 128) :
    serialize_message m =
      beI 4 m.name.length ++ m.name ++ [u8 m.messageType] ++ beI 4 m.seqid ++ wvalBytes m.body ∧
    (serialize_message m).head? = some (m.name.length / 2 ^ 24) ∧
    m.name.length / 2 ^ 24 < 128 ∧
    (strictEnvelopeSpec ⟨m.name, m.messageType, m.seqid⟩).head? = some 128 ∧
    (∀ tail2 : List Nat,
      serialize_message m ≠ strictEnvelopeSpec ⟨m.name, m.messageType, m.seqid⟩ ++ tail2) := by
  have hL32 : m.name.length < 2 ^ 32 := by omega
  have hbe : beI 4 (m.name.length : Int) = beNat 4 m.name.length := beI_ofNat _ hL32
  have hdiv : m.name.length / 256 / 256 / 256 = m.name.length / 2 ^ 24 := by
    rw [Nat.div_div_eq_div_mul, Nat.div_div_eq_div_mul]
    norm_num
  have hsmall : m.name.length / 2 ^ 24 < 128 := by omega
  have hheadn : (serialize_message m).head? = some (m.name.length / 2 ^ 24) := by
    rw [serialize_message, write_message_begin]
    simp only [List.append_assoc]
    rw [hbe, beNat_four]
    simp only [List.cons_append, List.head?_cons]
    rw [hdiv]
    congr 1
    omega
  have hheads : (strictEnvelopeSpec ⟨m.name, m.messageType, m.seqid⟩).head? = some 128 := by
    rw [strictEnvelopeSpec]
    simp only
    rw [int_lor_small m.messageType ht0 ht1]
    have hlt : 0x80010000 + m.messageType.toNat < 2 ^ 32 := by omega
    rw [beI_ofNat _ hlt, beNat_four]
    simp only [List.append_assoc, List.cons_append, List.head?_cons]
    congr 1
    omega
  refine ⟨?_, hheadn, hsmall, hheads, ?_⟩
  · simp [serialize_message, write_message_begin, List.append_assoc]
  · intro tail2 hcontra
    have : (serialize_message m).head? =
        (strictEnvelopeSpec ⟨m.name, m.messageType, m.seqid⟩ ++ tail2).head? := by
      rw [hcontra]
    rw [hheadn, List.head?_append_of_ne_nil] at this
    · rw [hheads] at this
      have := Option.some.inj this
      omega
    · intro hnil
      have := congrArg List.head? hnil
      rw [hheads] at this
      simp at this

/-- C1 witness: the amended statement applied to the message `"a"`,
CALL (1), seqid 0, with an empty-struct body. -/
theorem serialize_message_nonstrict_witness :
    serialize_message ⟨[0x61], 0, .wstruct [], 1⟩ =
      beI 4 (1 : Int) ++ [0x61] ++ [u8 1] ++ beI 4 0 ++ wvalBytes (.wstruct []) ∧
    (serialize_message ⟨[0x61], 0, .wstruct [], 1⟩).head? = some 0 :=
  have h := serialize_message_nonstrict ⟨[0x61], 0, .wstruct [], 1⟩
    (by decide) (by decide) (by decide)
  ⟨h.1, h.2.1⟩

/-! ### Claim C4: read_message_begin framing -/

/-- Masking a 32-bit two's-complement value with a non-negative mask below
2^31 acts on the raw 32 bits. -/
theorem int_land_toSigned32 (n k : Nat) (hn : n < 2 ^ 32) (hk : k < 2 ^ 31) :
    Int.land (toSigned 32 n) (k : Int) = ((Nat.land n k : Nat) : Int) := by
  by_cases hlt : n < 2 ^ 31
  · rw [toSigned, if_pos (by norm_num; omega)]
    show Int.land (Int.ofNat n) (Int.ofNat k) = Int.ofNat (Nat.land n k)
    simp [Int.land]
    rfl
  · rw [toSigned, if_neg (by norm_num; omega)]
    have hns : (n : Int) - 2 ^ 32 = Int.negSucc (2 ^ 32 - 1 - n) := by
      rw [Int.negSucc_eq]
      omega
    rw [hns]
    show Int.land (Int.negSucc (2 ^ 32 - 1 - n)) (Int.ofNat k) = Int.ofNat (Nat.land n k)
    have hred : Int.land (Int.negSucc (2 ^ 32 - 1 - n)) (Int.ofNat k) =
        Int.ofNat (Nat.ldiff k (2 ^ 32 - 1 - n)) := by
      simp [Int.land]
    rw [hred]
    congr 1
    apply Nat.eq_of_testBit_eq
    intro i
    rw [Nat.testBit_ldiff, show Nat.land n k = n &&& k from rfl, Nat.testBit_land]
    have hm : 2 ^ 32 - 1 - n = 2 ^ 32 - (n + 1) := by omega
    rw [hm, Nat.testBit_two_pow_sub_succ hn]
    by_cases hi : i < 32
    · simp [hi, Bool.and_comm]
    · have hki : Nat.testBit k i = false :=
        Nat.testBit_lt_two_pow (by calc k < 2 ^ 31 := hk
          _ ≤ 2 ^ i := Nat.pow_le_pow_right (by norm_num) (by omega))
      simp [hi, hki]

/-- The strict-envelope success parse of `read_message_begin`: any
32-bit leading word with the sign bit set and version bits equal to 1,
followed by `name_len:i32 | name | seqid:i32`. -/
theorem read_message_begin_strict_parse (rb : ReadBuffer) (n : Nat)
    (more : List Nat) (h : rb.rest = beNat 4 n ++ more) (hn : n < 2 ^ 32)
    (hneg : 2 ^ 31 ≤ n) (heq : (Nat.land n 0x7fff0000) >>> 16 = 1) :
    ∀ (name rest2 : List Nat) (q : Nat),
      more = beNat 4 name.length ++ name ++ beNat 4 q ++ rest2 →
      name.length < 2 ^ 31 → q < 2 ^ 32 →
      BinaryProtocolReader.read_message_begin rb =
        .ok (⟨name, toSigned 8 (Nat.land n 0xff), toSigned 32 q⟩,
             rb.advance (12 + name.length)) := by
  have h0 := BinaryProtocolReader.i32_ok_raw rb n more h hn
  have hsize : toSigned 32 n < 0 := by
    rw [toSigned, if_neg (by norm_num; omega)]
    norm_num
    omega
  have hmask : BinaryProtocolReader.VERSION_MASK = ((0x7fff0000 : Nat) : Int) := by
    norm_num [BinaryProtocolReader.VERSION_MASK]
  have hvers : (Int.land (toSigned 32 n) BinaryProtocolReader.VERSION_MASK) >>> 16 =
      ((Nat.land n 0x7fff0000 >>> 16 : Nat) : Int) := by
    rw [hmask, int_land_toSigned32 n 0x7fff0000 hn (by norm_num)]
    rfl
  intro name rest2 q hmore hname hq
  rw [BinaryProtocolReader.read_message_begin, h0.1]
  simp only [ok_bind]
  rw [if_pos hsize, hvers]
  rw [if_neg (by simp [heq])]
  have h1 := BinaryProtocolReader.i32_ok_raw (rb.advance 4) name.length
    (name ++ beNat 4 q ++ rest2) (by rw [h0.2, hmore]; simp) (by omega)
  rw [h1.1]
  simp only [ok_bind]
  have hts : toSigned 32 name.length = (name.length : Int) := by
    rw [toSigned, if_pos (by norm_num; omega)]
  rw [hts]
  have h2 := ReadBuffer.takeSigned_ok ((rb.advance 4).advance 4) (name.length : Int)
    name (beNat 4 q ++ rest2) (by rw [h1.2]; simp) rfl
  rw [h2.1]
  simp only [ok_bind]
  have h3 := BinaryProtocolReader.i32_ok_raw (((rb.advance 4).advance 4).advance name.length)
    q rest2 (by rw [h2.2]) hq
  rw [h3.1]
  simp only [ok_bind]
  have htyp : Int.land (toSigned 32 n) BinaryProtocolReader.TYPE_MASK =
      ((Nat.land n 0xff : Nat) : Int) := by
    have : BinaryProtocolReader.TYPE_MASK = ((0xff : Nat) : Int) := by
      norm_num [BinaryProtocolReader.TYPE_MASK]
    rw [this, int_land_toSigned32 n 0xff hn (by norm_num)]
  rw [htyp]
  rw [show ((Nat.land n 0xff : Nat) : Int).toNat = Nat.land n 0xff from rfl]
  simp [ReadBuffer.advance]
  omega

/-- C4 counterexample: in the strict branch the parsed type is not
`size & 0xff`. For the version-1 strict envelope whose type byte is 0x80
(word 0x80010080, empty name, seqid 0), `size & 0xff` is 128, but the
parser stores the type into an `int8_t` and returns -128. -/
theorem read_message_begin_type_wraps :
    BinaryProtocolReader.read_message_begin
      ⟨[0x80, 0x01, 0x00, 0x80, 0, 0, 0, 0, 0, 0, 0, 0], 0⟩ =
      .ok (⟨[], -128, 0⟩,
           ⟨[0x80, 0x01, 0x00, 0x80, 0, 0, 0, 0, 0, 0, 0, 0], 12⟩) ∧
    Int.land (toSigned 32 0x80010080) BinaryProtocolReader.TYPE_MASK = 128 ∧
    (-128 : Int) ≠ 128 := by
  refine ⟨?_, ?_, by decide⟩
  · have h := read_message_begin_strict_parse
      ⟨[0x80, 0x01, 0x00, 0x80, 0, 0, 0, 0, 0, 0, 0, 0], 0⟩ 0x80010080
      [0, 0, 0, 0, 0, 0, 0, 0] (by decide) (by decide) (by decide) (by decide)
      [] [] 0 (by decide) (by decide) (by decide)
    have h2 : toSigned 8 (Nat.land 0x80010080 0xff) = -128 := by decide
    have h3 : toSigned 32 0 = (0 : Int) := by decide
    rw [h2, h3] at h
    exact h
  · rw [show BinaryProtocolReader.TYPE_MASK = ((0xff : Nat) : Int) from by
      norm_num [BinaryProtocolReader.TYPE_MASK]]
    rw [int_land_toSigned32 0x80010080 0xff (by norm_num) (by norm_num)]
    decide

/-- C4 (as amended): `read_message_begin` accepts both framings. A
negative leading i32 (raw word n ≥ 2^31) selects the strict envelope: it
raises `ThriftProtocolError` exactly when the version bits
`(size & 0x7fff0000) >> 16` differ from 1, and otherwise parses
`name_len:i32 | name | seqid:i32` with the type being `size & 0xff`
reinterpreted as a signed byte (the source stores it into an `int8_t`,
so type bytes 0x80..0xff come out as -128..-1). A non-negative leading
i32 is the name length of a non-strict envelope, followed by
`type:i8 | seqid:i32` (the type byte equally wrapped). -/
theorem read_message_begin_framings (rb : ReadBuffer) (n : Nat) (more : List Nat)
    (h : rb.rest = beNat 4 n ++ more) (hn : n < 2 ^ 32) :
    (2 ^ 31 ≤ n →
      ((Nat.land n 0x7fff0000) >>> 16 ≠ 1 →
        BinaryProtocolReader.read_message_begin rb = .error .thriftProtocolError) ∧
      ((Nat.land n 0x7fff0000) >>> 16 = 1 →
        ∀ (name rest2 : List Nat) (q : Nat),
          more = beNat 4 name.length ++ name ++ beNat 4 q ++ rest2 →
          name.length < 2 ^ 31 → q < 2 ^ 32 →
          BinaryProtocolReader.read_message_begin rb =
            .ok (⟨name, toSigned 8 (Nat.land n 0xff), toSigned 32 q⟩,
                 rb.advance (12 + name.length)))) ∧
    (n < 2 ^ 31 →
      ∀ (name rest2 : List Nat) (t : Nat) (q : Nat),
        more = name ++ [t] ++ beNat 4 q ++ rest2 →
        name.length = n → q < 2 ^ 32 →
        BinaryProtocolReader.read_message_begin rb =
          .ok (⟨name, toSigned 8 t, toSigned 32 q⟩, rb.advance (9 + n))) := by
  have h0 := BinaryProtocolReader.i32_ok_raw rb n more h hn
  constructor
  · intro hneg
    have hsize : toSigned 32 n < 0 := by
      rw [toSigned, if_neg (by norm_num; omega)]
      norm_num
      omega
    have hmask : BinaryProtocolReader.VERSION_MASK = ((0x7fff0000 : Nat) : Int) := by
      norm_num [BinaryProtocolReader.VERSION_MASK]
    have hvers : (Int.land (toSigned 32 n) BinaryProtocolReader.VERSION_MASK) >>> 16 =
        ((Nat.land n 0x7fff0000 >>> 16 : Nat) : Int) := by
      rw [hmask, int_land_toSigned32 n 0x7fff0000 hn (by norm_num)]
      rfl
    constructor
    · intro hne
      rw [BinaryProtocolReader.read_message_begin, h0.1]
      simp only [ok_bind]
      rw [if_pos hsize, hvers]
      rw [if_pos (by exact_mod_cast hne)]
    · intro heq
      exact read_message_begin_strict_parse rb n more h hn hneg heq
  · intro hpos name rest2 t q hmore hname hq
    rw [BinaryProtocolReader.read_message_begin, h0.1]
    simp only [ok_bind]
    have hsize : ¬ toSigned 32 n < 0 := by
      rw [toSigned, if_pos (by norm_num; omega)]
      norm_num
    rw [if_neg hsize]
    have hts : toSigned 32 n = (n : Int) := by
      rw [toSigned, if_pos (by norm_num; omega)]
    rw [hts]
    have h2 := ReadBuffer.takeSigned_ok (rb.advance 4) (n : Int) name
      ([t] ++ beNat 4 q ++ rest2) (by rw [h0.2, hmore]; simp) (by rw [hname])
    rw [h2.1]
    simp only [ok_bind]
    have h3 := BinaryProtocolReader.i8_ok ((rb.advance 4).advance name.length) t
      (beNat 4 q ++ rest2) (by rw [h2.2]; simp)
    rw [h3.1]
    simp only [ok_bind]
    have h4 := BinaryProtocolReader.i32_ok_raw (((rb.advance 4).advance name.length).advance 1)
      q rest2 (by rw [h3.2]) hq
    rw [h4.1]
    simp only [ok_bind]
    simp [ReadBuffer.advance]
    omega

/-- C4 witness: the strict envelope with a bad version errors; a good
strict envelope and a non-strict envelope parse to the expected headers. -/
theorem read_message_begin_framings_witness :
    BinaryProtocolReader.read_message_begin
      ⟨[0x80, 2, 0, 1, 0, 0, 0, 1, 0x61, 0, 0, 0, 5], 0⟩ = .error .thriftProtocolError ∧
    BinaryProtocolReader.read_message_begin
      ⟨[0x80, 1, 0, 1, 0, 0, 0, 1, 0x61, 0, 0, 0, 5], 0⟩ =
      .ok (⟨[0x61], 1, 5⟩, ⟨[0x80, 1, 0, 1, 0, 0, 0, 1, 0x61, 0, 0, 0, 5], 13⟩) ∧
    BinaryProtocolReader.read_message_begin
      ⟨[0, 0, 0, 1, 0x61, 1, 0, 0, 0, 5], 0⟩ =
      .ok (⟨[0x61], 1, 5⟩, ⟨[0, 0, 0, 1, 0x61, 1, 0, 0, 0, 5], 10⟩) := by
  have hbad := (read_message_begin_framings
      ⟨[0x80, 2, 0, 1, 0, 0, 0, 1, 0x61, 0, 0, 0, 5], 0⟩ 0x80020001
      [0, 0, 0, 1, 0x61, 0, 0, 0, 5] (by decide) (by decide)).1
      (by decide) |>.1 (by decide)
  have hgood := (read_message_begin_framings
      ⟨[0x80, 1, 0, 1, 0, 0, 0, 1, 0x61, 0, 0, 0, 5], 0⟩ 0x80010001
      [0, 0, 0, 1, 0x61, 0, 0, 0, 5] (by decide) (by decide)).1
      (by decide) |>.2 (by decide) [0x61] [] 5 (by decide) (by decide) (by decide)
  have hns := (read_message_begin_framings
      ⟨[0, 0, 0, 1, 0x61, 1, 0, 0, 0, 5], 0⟩ 1
      [0x61, 1, 0, 0, 0, 5] (by decide) (by decide)).2
      (by decide) [0x61] [] 1 5 (by decide) (by decide) (by decide)
  exact ⟨hbad, hgood, hns⟩

/-! ### C5: union construction cardinality -/

/-- With no keyword argument matching any field, the `union_init` loop
leaves every attribute `None`. -/
theorem unionInitFields_none (fs : List FieldS) (kwargs : List (String × HVal))
    (flag : Bool) (h : ∀ g ∈ fs, alookup kwargs g.fname = none) :
    unionInitFields fs kwargs flag =
      .ok (fs.map (fun g => (g.fname, (none : Option HVal)))) := by
  induction fs with
  | nil => rfl
  | cons g gs ih =>
    obtain ⟨i, nm, sp, rq, df⟩ := g
    have hh : alookup kwargs nm = none := h _ (List.mem_cons_self _ _)
    have hr := ih (fun g2 hg2 => h g2 (List.mem_cons_of_mem _ hg2))
    simp [unionInitFields, hh, hr, FieldS.fname]

/-- Once one field has been assigned, any later keyword argument that
matches a remaining field makes the loop raise `TypeError`. -/
theorem unionInitFields_assigned_error (fs : List FieldS)
    (kwargs : List (String × HVal)) (f : FieldS) (hf : f ∈ fs)
    (hlk : (alookup kwargs f.fname).isSome = true) :
    unionInitFields fs kwargs true = .error .typeError := by
  induction fs with
  | nil => cases hf
  | cons g gs ih =>
    obtain ⟨i, nm, sp, rq, df⟩ := g
    cases hlkg : alookup kwargs nm with
    | some v => simp [unionInitFields, hlkg]
    | none =>
      have hfg : f ∈ gs := by
        rcases List.mem_cons.mp hf with h | h
        · subst h
          simp [FieldS.fname, hlkg] at hlk
        · exact h
      simp [unionInitFields, hlkg, ih hfg]

/-- Two keyword arguments matching two differently named fields make the
loop raise `TypeError`, whatever the incoming flag. -/
theorem unionInitFields_two_error (fs : List FieldS)
    (kwargs : List (String × HVal)) (f1 f2 : FieldS)
    (h1 : f1 ∈ fs) (h2 : f2 ∈ fs) (hne : f1.fname ≠ f2.fname)
    (hlk1 : (alookup kwargs f1.fname).isSome = true)
    (hlk2 : (alookup kwargs f2.fname).isSome = true) (flag : Bool) :
    unionInitFields fs kwargs flag = .error .typeError := by
  induction fs with
  | nil => cases h1
  | cons g gs ih =>
    obtain ⟨i, nm, sp, rq, df⟩ := g
    cases hlkg : alookup kwargs nm with
    | some v =>
      cases flag with
      | true => simp [unionInitFields, hlkg]
      | false =>
        have hnext : ∃ f ∈ gs, (alookup kwargs f.fname).isSome = true := by
          rcases List.mem_cons.mp h1 with ha | ha
          · rcases List.mem_cons.mp h2 with hb | hb
            · exact absurd (by rw [ha, hb]) hne
            · exact ⟨f2, hb, hlk2⟩
          · exact ⟨f1, ha, hlk1⟩
        obtain ⟨f, hfg, hfl⟩ := hnext
        simp [unionInitFields, hlkg,
          unionInitFields_assigned_error gs kwargs f hfg hfl]
    | none =>
      have hg1 : f1 ∈ gs := by
        rcases List.mem_cons.mp h1 with hx | hx
        · subst hx; simp [FieldS.fname, hlkg] at hlk1
        · exact hx
      have hg2 : f2 ∈ gs := by
        rcases List.mem_cons.mp h2 with hx | hx
        · subst hx; simp [FieldS.fname, hlkg] at hlk2
        · exact hx
      simp [unionInitFields, hlkg, ih hg1 hg2]

/-- With a single keyword argument naming the (unique) field `f`, the
loop assigns exactly `f` and leaves every other attribute `None`. -/
theorem unionInitFields_single (fs : List FieldS) (f : FieldS) (v : HVal)
    (hnd : (fs.map FieldS.fname).Nodup) (hf : f ∈ fs) :
    unionInitFields fs [(f.fname, v)] false =
      .ok (fs.map (fun g =>
        (g.fname, if g.fname == f.fname then some v else none))) := by
  obtain ⟨fi, fnm, fsp, frq, fdf⟩ := f
  show unionInitFields fs [(fnm, v)] false =
    .ok (fs.map (fun g => (g.fname, if g.fname == fnm then some v else none)))
  induction fs with
  | nil => cases hf
  | cons g gs ih =>
    obtain ⟨i, nm, sp, rq, df⟩ := g
    have hfn : FieldS.fname (.mk i nm sp rq df) = nm := rfl
    have hnd2 : nm ∉ gs.map FieldS.fname ∧ (gs.map FieldS.fname).Nodup :=
      List.nodup_cons.mp hnd
    by_cases hnmf : nm = fnm
    · have hlkg : alookup [(fnm, v)] nm = some v := by
        simp [alookup, hnmf]
      have hrest : ∀ g2 ∈ gs, alookup [(fnm, v)] g2.fname = none := by
        intro g2 hg2
        have hne2 : fnm ≠ g2.fname := by
          intro he
          exact hnd2.1 (by rw [hnmf, he]; exact List.mem_map_of_mem _ hg2)
        simp [alookup, hne2]
      have hr := unionInitFields_none gs [(fnm, v)] true hrest
      have hmap : gs.map (fun g2 => (g2.fname, (none : Option HVal))) =
          gs.map (fun g2 =>
            (g2.fname, if g2.fname == fnm then some v else none)) := by
        refine List.map_congr_left ?_
        intro g2 hg2
        have hne2 : g2.fname ≠ fnm := by
          intro he
          exact hnd2.1 (by rw [hnmf, ← he]; exact List.mem_map_of_mem _ hg2)
        simp [hne2]
      have hbt : (nm == fnm) = true := by simp [hnmf]
      simp [unionInitFields, hlkg, hr, hmap, hfn, hbt]
      exact hnmf
    · have hlkg : alookup [(fnm, v)] nm = none := by
        have hne3 : fnm ≠ nm := fun he => hnmf he.symm
        simp [alookup, hne3]
      have hfg : FieldS.mk fi fnm fsp frq fdf ∈ gs := by
        rcases List.mem_cons.mp hf with hx | hx
        · injection hx with h1 h2 h3 h4 h5
          exact absurd h2.symm hnmf
        · exact hx
      have hbf : (nm == fnm) = false := by simp [hnmf]
      simp [unionInitFields, hlkg, ih hnd2.2 hfg, hfn, hbf]
      exact (if_neg hnmf).symm

/-- Looking an attribute up in the map built over the declared fields
(with distinct names) retrieves that field's own entry. -/
theorem alookup_map_fname (fs : List FieldS) (F : FieldS → Option HVal)
    (g : FieldS) (hg : g ∈ fs) (hnd : (fs.map FieldS.fname).Nodup) :
    alookup (fs.map (fun g2 => (g2.fname, F g2))) g.fname = some (F g) := by
  induction fs with
  | nil => cases hg
  | cons h hs ih =>
    have hnd2 : h.fname ∉ hs.map FieldS.fname ∧ (hs.map FieldS.fname).Nodup :=
      List.nodup_cons.mp (by simpa using hnd)
    by_cases he : h.fname = g.fname
    · have hgh : h = g := by
        rcases List.mem_cons.mp hg with hx | hx
        · exact hx.symm
        · exact absurd (he ▸ List.mem_map_of_mem FieldS.fname hx) hnd2.1
      simp [alookup, he, hgh]
    · have hgm : g ∈ hs := by
        rcases List.mem_cons.mp hg with hx | hx
        · exact absurd (hx ▸ rfl) he
        · exact hx
      have hb : (h.fname == g.fname) = false := by simp [he]
      simp [alookup, hb, ih hgm hnd2.2]

/-- Fields of a name-`Nodup` list are determined by their names. -/
theorem fname_inj (fs : List FieldS) (hnd : (fs.map FieldS.fname).Nodup)
    (g f : FieldS) (hg : g ∈ fs) (hf : f ∈ fs) (h : g.fname = f.fname) :
    g = f :=
  List.inj_on_of_nodup_map hnd hg hf h

/-- The union `validate` loop over attributes where exactly the fields
named like `f` carry `some v` counts those fields and succeeds, provided
`v` passes `f`'s own field check. -/
theorem validateUnionFields_count (fs : List FieldS)
    (attrs : List (String × Option HVal)) (f : FieldS) (v : HVal)
    (hlk : ∀ g ∈ fs, alookup attrs g.fname =
      some (if g.fname == f.fname then some v else none))
    (heq : ∀ g ∈ fs, g.fname = f.fname → g = f)
    (hokS : f.fspec.ttypeCode = ttype.STRUCT →
      instanceofSurfaceB f.fspec v = true)
    (hokV : f.fspec.ttypeCode ≠ ttype.STRUCT →
      TS.validate f.fspec v = .ok ()) :
    validateUnionFields fs attrs =
      .ok ((fs.filter (fun g => g.fname == f.fname)).length) := by
  obtain ⟨fi, fnm, fsp, frq, fdf⟩ := f
  have hlk2 : ∀ g ∈ fs, alookup attrs g.fname =
      some (if g.fname == fnm then some v else none) := hlk
  have heq2 : ∀ g ∈ fs, g.fname = fnm → g = FieldS.mk fi fnm fsp frq fdf := heq
  have hokS2 : fsp.ttypeCode = ttype.STRUCT →
      instanceofSurfaceB fsp v = true := hokS
  have hokV2 : fsp.ttypeCode ≠ ttype.STRUCT → TS.validate fsp v = .ok () :=
    hokV
  show validateUnionFields fs attrs =
    .ok ((fs.filter (fun g => g.fname == fnm)).length)
  clear hlk heq hokS hokV
  induction fs with
  | nil => simp [validateUnionFields]
  | cons g gs ih =>
    obtain ⟨i, nm, sp, rq, df⟩ := g
    have hfn : FieldS.fname (.mk i nm sp rq df) = nm := rfl
    have hrec := ih (fun g2 hg2 => hlk2 g2 (List.mem_cons_of_mem _ hg2))
      (fun g2 hg2 he => heq2 g2 (List.mem_cons_of_mem _ hg2) he)
    have h0 : alookup attrs nm =
        some (if nm == fnm then some v else none) :=
      hlk2 _ (List.mem_cons_self _ _)
    by_cases hb : nm = fnm
    · have hgf : FieldS.mk i nm sp rq df = FieldS.mk fi fnm fsp frq fdf :=
        heq2 _ (List.mem_cons_self _ _) hb
      have hsp : sp = fsp := by cases hgf; rfl
      have hbt : (nm == fnm) = true := by simp [hb]
      have hlkg2 : alookup attrs nm = some (some v) := by
        rw [h0, if_pos hbt]
      by_cases hS : sp.ttypeCode = ttype.STRUCT
      · have hio : instanceofSurfaceB sp v = true := hsp ▸ hokS2 (hsp ▸ hS)
        simp [validateUnionFields, getattrO, hlkg2, hS, hio, hrec,
          List.filter_cons, hfn, hbt]
      · have hva : TS.validate sp v = .ok () := hsp ▸ hokV2 (hsp ▸ hS)
        simp [validateUnionFields, getattrO, hlkg2, hS, hva, hrec,
          List.filter_cons, hfn, hbt]
    · have hbf : (nm == fnm) = false := by simp [hb]
      have hlkg2 : alookup attrs nm = some none := by
        rw [h0, if_neg (by simp [hb])]
      simp [validateUnionFields, getattrO, hlkg2, hrec,
        List.filter_cons, hfn, hbf]

/-- In a name-`Nodup` field list containing `f`, exactly one field bears
`f`'s name. -/
theorem filter_fname_count (fs : List FieldS) (f : FieldS)
    (hnd : (fs.map FieldS.fname).Nodup) (hf : f ∈ fs) :
    (fs.filter (fun g => g.fname == f.fname)).length = 1 := by
  induction fs with
  | nil => cases hf
  | cons g gs ih =>
    have hnd2 : g.fname ∉ gs.map FieldS.fname ∧ (gs.map FieldS.fname).Nodup :=
      List.nodup_cons.mp (by simpa using hnd)
    by_cases hb : g.fname = f.fname
    · have hrest : gs.filter (fun g2 => g2.fname == f.fname) = [] := by
        rw [List.filter_eq_nil_iff]
        intro g2 hg2
        intro hc
        have : g2.fname = g.fname := hb ▸ (by simpa using hc)
        exact hnd2.1 (this ▸ List.mem_map_of_mem _ hg2)
      have hbt : (g.fname == f.fname) = true := by simp [hb]
      simp [List.filter_cons, hbt, hrest]
    · have hfm : f ∈ gs := by
        rcases List.mem_cons.mp hf with hx | hx
        · exact absurd (hx ▸ rfl) (fun he => hb he)
        · exact hx
      have hbf : (g.fname == f.fname) = false := by simp [hb]
      simp [List.filter_cons, hbf, ih hnd2.2 hfm]

/-- C5: for a union type with `allow_empty = false` and at least one
field (declared field names being distinct), `union_init` raises
`TypeError` when called with zero keyword arguments, raises `TypeError`
when called with keyword arguments for two differently named fields, and
succeeds when called with exactly one keyword argument whose value
passes the field's check, producing the instance whose only non-`None`
attribute is that field. -/
theorem union_init_cardinality (clsName : String) (fields : List FieldS)
    (hne : fields ≠ []) (hnd : (fields.map FieldS.fname).Nodup) :
    unionInit clsName fields false [] = .error .typeError ∧
    (∀ (f1 f2 : FieldS) (v1 v2 : HVal), f1 ∈ fields → f2 ∈ fields →
      f1.fname ≠ f2.fname →
      unionInit clsName fields false [(f1.fname, v1), (f2.fname, v2)] =
        .error .typeError) ∧
    (∀ (f : FieldS) (v : HVal), f ∈ fields →
      (f.fspec.ttypeCode = ttype.STRUCT →
        instanceofSurfaceB f.fspec v = true) →
      (f.fspec.ttypeCode ≠ ttype.STRUCT → TS.validate f.fspec v = .ok ()) →
      unionInit clsName fields false [(f.fname, v)] =
        .ok (.hStruct clsName (fields.map (fun g =>
          (g.fname, if g.fname == f.fname then some v else none))))) := by
  have hemp : fields.isEmpty = false := by
    cases fields with
    | nil => exact absurd rfl hne
    | cons g gs => rfl
  refine ⟨?_, ?_, ?_⟩
  · have h0 := unionInitFields_none fields [] false (fun g _ => rfl)
    have hcnt : ((fields.map (fun g => (g.fname, (none : Option HVal)))).filter
        (fun a => a.2.isSome)) = [] := by
      rw [List.filter_eq_nil_iff]
      intro a ha
      obtain ⟨g, _, hg⟩ := List.mem_map.mp ha
      simp [← hg]
    simp [unionInit, h0, hcnt, hemp]
  · intro f1 f2 v1 v2 h1 h2 hnefn
    have hlk1 : (alookup [(f1.fname, v1), (f2.fname, v2)] f1.fname).isSome
        = true := by simp [alookup]
    have hlk2 : (alookup [(f1.fname, v1), (f2.fname, v2)] f2.fname).isSome
        = true := by
      have hb : (f1.fname == f2.fname) = false := by simp [hnefn]
      simp [alookup, hb]
    have herr := unionInitFields_two_error fields _ f1 f2 h1 h2 hnefn
      hlk1 hlk2 false
    simp [unionInit, herr]
  · intro f v hf hS hV
    have h1 := unionInitFields_single fields f v hnd hf
    have hall : fields.any (fun g => g.fname == f.fname) = true :=
      List.any_eq_true.mpr ⟨f, hf, by simp⟩
    have hcnt : ((fields.map (fun g =>
        (g.fname, if g.fname == f.fname then some v else none))).filter
        (fun a => a.2.isSome)).length = 1 := by
      rw [List.filter_map, List.length_map]
      have hpred : ∀ g ∈ fields,
          ((fun a => a.2.isSome) ∘ (fun g =>
            (g.fname, if g.fname == f.fname then some v else none))) g =
          (fun g => g.fname == f.fname) g := by
        intro g _
        by_cases hb : g.fname = f.fname
        · simp [hb]
        · simp [hb]
      rw [List.filter_congr hpred]
      exact filter_fname_count fields f hnd hf
    have hval : validateUnionFields fields (fields.map (fun g =>
        (g.fname, if g.fname == f.fname then some v else none))) =
        .ok 1 := by
      have hvc := validateUnionFields_count fields _ f v
        (fun g hg => alookup_map_fname fields _ g hg hnd)
        (fun g hg he => fname_inj fields hnd g f hg hf he) hS hV
      rw [hvc, filter_fname_count fields f hnd hf]
    have hvalTop : TS.validate (.tunion clsName fields false)
        (.hStruct clsName (fields.map (fun g =>
          (g.fname, if g.fname == f.fname then some v else none)))) =
        .ok () := by
      simp only [TS.validate]
      rw [show (clsName == clsName) = true from by simp, if_pos rfl, hval]
      simp only [ok_bind]
      rw [if_neg (by simp), if_neg (by simp)]
    have hallc : ([(f.fname, v)].all
        (fun kv => fields.any (fun g => g.fname == kv.1))) = true := by
      simpa using hall
    simp only [unionInit, h1, ok_bind, hallc, Bool.not_true]
    rw [if_neg (by simp), hcnt, if_neg (by simp), hvalTop]
    simp only [ok_bind]

/-- C5 witness: a two-field union (`a: bool`, `b: i32`): the empty
construction and the doubly assigned construction raise `TypeError`,
while assigning only `b` succeeds. -/
theorem union_init_cardinality_witness :
    unionInit "U" [FieldS.mk 1 "a" .tbool false none,
      FieldS.mk 2 "b" .ti32 false none] false [] = .error .typeError ∧
    unionInit "U" [FieldS.mk 1 "a" .tbool false none,
      FieldS.mk 2 "b" .ti32 false none] false
      [("a", .hBool true), ("b", .hInt 3)] = .error .typeError ∧
    unionInit "U" [FieldS.mk 1 "a" .tbool false none,
      FieldS.mk 2 "b" .ti32 false none] false [("b", .hInt 7)] =
      .ok (.hStruct "U" [("a", none), ("b", some (.hInt 7))]) := by
  have h := union_init_cardinality "U"
    [FieldS.mk 1 "a" .tbool false none, FieldS.mk 2 "b" .ti32 false none]
    (by simp) (by simp [FieldS.fname])
  refine ⟨h.1, ?_, ?_⟩
  · have h2 := h.2.1 (FieldS.mk 1 "a" .tbool false none)
      (FieldS.mk 2 "b" .ti32 false none) (.hBool true) (.hInt 3)
      (List.mem_cons_self _ _) (by simp) (by simp [FieldS.fname])
    simpa [FieldS.fname] using h2
  · have h3 := h.2.2 (FieldS.mk 2 "b" .ti32 false none) (.hInt 7)
      (by simp)
      (fun hc => absurd (by simpa [FieldS.fspec, TS.ttypeCode] using hc)
        (by decide))
      (fun hc => by
        simp [FieldS.fspec, TS.validate, isIntegral, pyIntValue,
          validate_signed_int])
    simpa [FieldS.fname, FieldS.fspec] using h3

/-! ### C6: skipping consumes exactly the value's bytes -/

theorem ReadBuffer.advance_advance (rb : ReadBuffer) (a b : Nat) :
    (rb.advance a).advance b = rb.advance (a + b) := by
  simp [ReadBuffer.advance, Nat.add_assoc]

theorem ReadBuffer.advance_zero (rb : ReadBuffer) : rb.advance 0 = rb := by
  simp [ReadBuffer.advance]

/-- The rest after advancing over a recognized prefix. -/
theorem ReadBuffer.rest_after (rb : ReadBuffer) (bs tail : List Nat)
    (h : rb.rest = bs ++ tail) : (rb.advance bs.length).rest = tail := by
  rw [ReadBuffer.advance_rest, h, List.drop_left]

theorem beI_length (w : Nat) (i : Int) : (beI w i).length = w := by
  simp [beI, beNat_length]

theorem wcost_pos (w : WVal) : 1 ≤ wcost w := by
  cases w <;> simp [wcost]
  all_goals omega

theorem wcostFields_pos (fs : List (Int × Int × WVal)) : 1 ≤ wcostFields fs := by
  cases fs with
  | nil => simp [wcostFields]
  | cons e fs =>
    obtain ⟨a, b, w⟩ := e
    simp [wcostFields]
    omega

/-- Every wire value's type code is one of the eleven positive codes. -/
theorem ttypeCode_bounds (w : WVal) :
    0 ≤ w.ttypeCode ∧ w.ttypeCode < 128 ∧ w.ttypeCode ≠ 0 := by
  cases w <;> simp [WVal.ttypeCode, ttype.BOOL, ttype.BYTE, ttype.DOUBLE,
    ttype.I16, ttype.I32, ttype.I64, ttype.BINARY, ttype.STRUCT, ttype.MAP,
    ttype.SET, ttype.LIST]

/-- A known container element code is one of the eleven positive codes. -/
theorem knownTtype_bounds (t : Int) (h : knownTtype t = true) :
    0 ≤ t ∧ t < 128 ∧ t ≠ 0 := by
  simp only [knownTtype, Bool.or_eq_true, beq_iff_eq, ttype.BOOL, ttype.BYTE,
    ttype.DOUBLE, ttype.I16, ttype.I32, ttype.I64, ttype.BINARY, ttype.STRUCT,
    ttype.MAP, ttype.SET, ttype.LIST] at h
  rcases h with ((((((((((h | h) | h) | h) | h) | h) | h) | h) | h) | h) | h) <;>
    (subst h; norm_num)

namespace BinaryProtocolReader

/-- `i8` on a byte that encodes a small non-negative value. -/
theorem i8_ok_small (rb : ReadBuffer) (t : Int) (tl : List Nat)
    (h : rb.rest = u8 t :: tl) (h0 : 0 ≤ t) (h1 : t < 128) :
    i8 rb = .ok (t, rb.advance 1) ∧ (rb.advance 1).rest = tl := by
  have h2 := i8_ok rb (u8 t) tl h
  have hu : (u8 t : Nat) = t.toNat := by
    show ((t % 256 : Int)).toNat = t.toNat
    rw [Int.emod_eq_of_lt h0 (show t < 256 by omega)]
  have hts : toSigned 8 (u8 t) = t := by
    rw [hu]
    unfold toSigned
    rw [if_pos (by omega)]
    omega
  rw [hts] at h2
  exact h2

/-- `read_field_begin` on the struct-end sentinel byte. -/
theorem read_field_begin_stop (rb : ReadBuffer) (tl : List Nat)
    (h : rb.rest = 0 :: tl) :
    read_field_begin rb = .ok (⟨-1, -1⟩, rb.advance 1) ∧
      (rb.advance 1).rest = tl := by
  have h8 := i8_ok rb 0 tl h
  have hts : toSigned 8 0 = 0 := by decide
  rw [read_field_begin, h8.1, hts]
  exact ⟨by simp, h8.2⟩

/-- `read_field_begin` on a field entry header. -/
theorem read_field_begin_entry (rb : ReadBuffer) (t fid : Int) (tl : List Nat)
    (h : rb.rest = u8 t :: (beI 2 fid ++ tl))
    (ht0 : 0 ≤ t) (ht1 : t < 128) (htne : t ≠ 0)
    (hlo : -(2 ^ 15) ≤ fid) (hhi : fid < 2 ^ 15) :
    read_field_begin rb = .ok (⟨t, fid⟩, rb.advance 3) ∧
      (rb.advance 3).rest = tl := by
  have h8 := i8_ok_small rb t _ h ht0 ht1
  have h16 := i16_ok (rb.advance 1) fid tl h8.2 hlo hhi
  rw [read_field_begin, h8.1]
  simp only [ok_bind]
  rw [if_neg htne, h16.1]
  simp only [ok_bind]
  rw [ReadBuffer.advance_advance]
  refine ⟨rfl, ?_⟩
  have := h16.2
  rw [ReadBuffer.advance_advance] at this
  exact this

/-- The element-skipping loop consumes exactly the elements' bytes. -/
theorem skipElems_bytes (fuel : Nat)
    (hA : ∀ w rb tail, wfW w = true → wcost w + 1 ≤ fuel →
      rb.rest = wvalBytes w ++ tail →
      skipVal fuel w.ttypeCode rb = .ok (rb.advance (wvalBytes w).length))
    (vt : Int) :
    ∀ vs (rb : ReadBuffer) tail, wfElems vt vs = true →
      wcostElems vs + 1 ≤ fuel → rb.rest = wvalsBytes vs ++ tail →
      skipElems fuel vt vs.length rb = .ok (rb.advance (wvalsBytes vs).length) := by
  intro vs
  induction vs with
  | nil =>
    intro rb tail _ _ _
    simp [skipElems, wvalsBytes, ReadBuffer.advance_zero]
  | cons v vs ih =>
    intro rb tail hwf hfc hrest
    have hwf2 : v.ttypeCode = vt ∧ wfW v = true ∧ wfElems vt vs = true := by
      simpa [wfElems, Bool.and_eq_true, and_assoc] using hwf
    have hrest2 : rb.rest = wvalBytes v ++ (wvalsBytes vs ++ tail) := by
      rw [hrest]
      simp [wvalsBytes]
    have hcb : wcostElems (v :: vs) = wcost v + wcostElems vs := by
      simp [wcostElems]
    have hsv := hA v rb (wvalsBytes vs ++ tail) hwf2.2.1 (by omega) hrest2
    rw [hwf2.1] at hsv
    have hrest3 := rb.rest_after _ _ hrest2
    have hrec := ih (rb.advance (wvalBytes v).length) tail hwf2.2.2 (by omega) hrest3
    simp only [List.length_cons, skipElems, hsv, ok_bind, hrec,
      ReadBuffer.advance_advance]
    have : (wvalsBytes (v :: vs)).length =
        (wvalBytes v).length + (wvalsBytes vs).length := by
      simp [wvalsBytes]
    rw [this]

/-- The pair-skipping loop consumes exactly the pairs' bytes. -/
theorem skipPairs_bytes (fuel : Nat)
    (hA : ∀ w rb tail, wfW w = true → wcost w + 1 ≤ fuel →
      rb.rest = wvalBytes w ++ tail →
      skipVal fuel w.ttypeCode rb = .ok (rb.advance (wvalBytes w).length))
    (kt vt : Int) :
    ∀ ps (rb : ReadBuffer) tail, wfPairs kt vt ps = true →
      wcostPairs ps + 1 ≤ fuel → rb.rest = wpairsBytes ps ++ tail →
      skipPairs fuel kt vt ps.length rb = .ok (rb.advance (wpairsBytes ps).length) := by
  intro ps
  induction ps with
  | nil =>
    intro rb tail _ _ _
    simp [skipPairs, wpairsBytes, ReadBuffer.advance_zero]
  | cons p ps ih =>
    obtain ⟨k, v⟩ := p
    intro rb tail hwf hfc hrest
    have hwf2 : (k.ttypeCode = kt ∧ v.ttypeCode = vt ∧ wfW k = true ∧ wfW v = true) ∧
        wfPairs kt vt ps = true := by
      simpa [wfPairs, Bool.and_eq_true, and_assoc] using hwf
    have hrest2 : rb.rest = wvalBytes k ++ (wvalBytes v ++ (wpairsBytes ps ++ tail)) := by
      rw [hrest]
      simp [wpairsBytes]
    have hcb : wcostPairs ((k, v) :: ps) = wcost k + wcost v + wcostPairs ps := by
      simp [wcostPairs]
    have hck := wcost_pos k
    have hcv := wcost_pos v
    have hsk := hA k rb _ hwf2.1.2.2.1 (by omega) hrest2
    rw [hwf2.1.1] at hsk
    have hrestk := rb.rest_after _ _ hrest2
    have hsv := hA v (rb.advance (wvalBytes k).length) _ hwf2.1.2.2.2 (by omega) hrestk
    rw [hwf2.1.2.1] at hsv
    have hrestv := (rb.advance (wvalBytes k).length).rest_after _ _ hrestk
    have hrec := ih ((rb.advance (wvalBytes k).length).advance (wvalBytes v).length)
      tail hwf2.2 (by omega) hrestv
    simp only [ReadBuffer.advance_advance] at hsv hrec
    simp only [List.length_cons, skipPairs, hsk, ok_bind, hsv, hrec]
    have : (wpairsBytes ((k, v) :: ps)).length =
        (wvalBytes k).length + ((wvalBytes v).length + (wpairsBytes ps).length) := by
      simp [wpairsBytes]
    rw [this, Nat.add_assoc]

/-- Destructured form of field-list well-formedness. -/
theorem wfFields_cons (fid ft : Int) (w : WVal) (fs : List (Int × Int × WVal)) :
    wfFields ((fid, ft, w) :: fs) = true ↔
      (-(2 ^ 15) ≤ fid ∧ fid < 2 ^ 15) ∧ ft = w.ttypeCode ∧ wfW w = true ∧
        wfFields fs = true := by
  simp [wfFields, Bool.and_eq_true, decide_eq_true_eq, and_assoc]

/-- `read_map_begin` on well-formed map header bytes. -/
theorem read_map_begin_ok (rb : ReadBuffer) (kt vt : Int) (n : Nat) (tl : List Nat)
    (h : rb.rest = u8 kt :: u8 vt :: (beI 4 (n : Int) ++ tl))
    (hk0 : 0 ≤ kt) (hk1 : kt < 128) (hv0 : 0 ≤ vt) (hv1 : vt < 128)
    (hn : n < 2 ^ 31) :
    read_map_begin rb = .ok (⟨kt, vt, (n : Int)⟩, rb.advance 6) ∧
      (rb.advance 6).rest = tl := by
  have h1 := i8_ok_small rb kt _ h hk0 hk1
  have h2 := i8_ok_small (rb.advance 1) vt _ h1.2 hv0 hv1
  have h3 := i32_ok ((rb.advance 1).advance 1) (n : Int) tl h2.2
    (by omega) (by exact_mod_cast hn)
  constructor
  · rw [read_map_begin, h1.1]
    simp only [ok_bind]
    rw [h2.1]
    simp only [ok_bind]
    rw [h3.1]
    simp [ReadBuffer.advance_advance]
  · simpa [ReadBuffer.advance_advance] using h3.2

/-- `read_set_begin` on well-formed set header bytes. -/
theorem read_set_begin_ok (rb : ReadBuffer) (vt : Int) (n : Nat) (tl : List Nat)
    (h : rb.rest = u8 vt :: (beI 4 (n : Int) ++ tl))
    (hv0 : 0 ≤ vt) (hv1 : vt < 128) (hn : n < 2 ^ 31) :
    read_set_begin rb = .ok (⟨vt, (n : Int)⟩, rb.advance 5) ∧
      (rb.advance 5).rest = tl := by
  have h1 := i8_ok_small rb vt _ h hv0 hv1
  have h2 := i32_ok (rb.advance 1) (n : Int) tl h1.2
    (by omega) (by exact_mod_cast hn)
  constructor
  · rw [read_set_begin, h1.1]
    simp only [ok_bind]
    rw [h2.1]
    simp [ReadBuffer.advance_advance]
  · simpa [ReadBuffer.advance_advance] using h2.2

/-- `read_list_begin` on well-formed list header bytes. -/
theorem read_list_begin_ok (rb : ReadBuffer) (vt : Int) (n : Nat) (tl : List Nat)
    (h : rb.rest = u8 vt :: (beI 4 (n : Int) ++ tl))
    (hv0 : 0 ≤ vt) (hv1 : vt < 128) (hn : n < 2 ^ 31) :
    read_list_begin rb = .ok (⟨vt, (n : Int)⟩, rb.advance 5) ∧
      (rb.advance 5).rest = tl := by
  have h1 := i8_ok_small rb vt _ h hv0 hv1
  have h2 := i32_ok (rb.advance 1) (n : Int) tl h1.2
    (by omega) (by exact_mod_cast hn)
  constructor
  · rw [read_list_begin, h1.1]
    simp only [ok_bind]
    rw [h2.1]
    simp [ReadBuffer.advance_advance]
  · simpa [ReadBuffer.advance_advance] using h2.2

/-- The struct-skipping loop consumes exactly the fields' bytes and the
closing sentinel. -/
theorem skipStruct_bytes (N : Nat)
    (hA : ∀ g, g < N → ∀ (w : WVal) (rb : ReadBuffer) tail, wfW w = true →
      wcost w + 1 ≤ g → rb.rest = wvalBytes w ++ tail →
      skipVal g w.ttypeCode rb = .ok (rb.advance (wvalBytes w).length)) :
    ∀ fs : List (Int × Int × WVal), ∀ fuel, fuel < N → ∀ (rb : ReadBuffer) tail,
      wfFields fs = true → wcostFields fs ≤ fuel →
      rb.rest = wfieldsBytes fs ++ 0 :: tail →
      skipStruct fuel rb = .ok (rb.advance ((wfieldsBytes fs).length + 1)) := by
  intro fs
  induction fs with
  | nil =>
    intro fuel hfN rb tail _ hfc hrest
    have h1 : 1 ≤ fuel := by
      have : wcostFields ([] : List (Int × Int × WVal)) = 1 := by simp [wcostFields]
      omega
    obtain ⟨g, rfl⟩ : ∃ g, fuel = g + 1 := ⟨fuel - 1, by omega⟩
    have hrest2 : rb.rest = 0 :: tail := by simpa [wfieldsBytes] using hrest
    have hfb := read_field_begin_stop rb tail hrest2
    simp only [skipStruct, hfb.1, ok_bind]
    simp [wfieldsBytes]
  | cons e fs ih =>
    obtain ⟨fid, ft, w⟩ := e
    intro fuel hfN rb tail hwf hfc hrest
    have hwf2 := (wfFields_cons fid ft w fs).mp hwf
    obtain ⟨⟨hflo, hfhi⟩, hft, hwfw, hwffs⟩ := hwf2
    have hcb : wcostFields ((fid, ft, w) :: fs) = 1 + wcost w + wcostFields fs := by
      simp [wcostFields]
    have hwp := wcost_pos w
    have hfp := wcostFields_pos fs
    obtain ⟨g, rfl⟩ : ∃ g, fuel = g + 1 := ⟨fuel - 1, by omega⟩
    have htb := ttypeCode_bounds w
    have hrest2 : rb.rest =
        u8 ft :: (beI 2 fid ++ (wvalBytes w ++ (wfieldsBytes fs ++ 0 :: tail))) := by
      rw [hrest]
      simp [wfieldsBytes, List.append_assoc]
    have hfb := read_field_begin_entry rb ft fid _ hrest2
      (hft ▸ htb.1) (hft ▸ htb.2.1) (hft ▸ htb.2.2) hflo hfhi
    have hftne : ft ≠ -1 := by
      have := htb.1
      rw [hft]
      omega
    simp only [skipStruct, hfb.1, ok_bind]
    rw [if_neg hftne]
    have hsv := hA g (by omega) w (rb.advance 3) _ hwfw (by omega) hfb.2
    rw [← hft] at hsv
    rw [hsv]
    simp only [ok_bind]
    have hrestw := (rb.advance 3).rest_after _ _ hfb.2
    have hrec := ih g (by omega) ((rb.advance 3).advance (wvalBytes w).length)
      tail hwffs (by omega) hrestw
    rw [hrec]
    simp only [ReadBuffer.advance_advance]
    have hlen : (wfieldsBytes ((fid, ft, w) :: fs)).length =
        3 + ((wvalBytes w).length + (wfieldsBytes fs).length) := by
      simp [wfieldsBytes, beI_length]
      omega
    rw [hlen]
    congr 1
    simp [ReadBuffer.advance]
    omega

/-- `skip(typ)` on the bytes of a well-formed wire value of that type
consumes exactly the value's byte string. -/
theorem skipVal_bytes : ∀ fuel (w : WVal) (rb : ReadBuffer) tail, wfW w = true →
    wcost w + 1 ≤ fuel → rb.rest = wvalBytes w ++ tail →
    skipVal fuel w.ttypeCode rb = .ok (rb.advance (wvalBytes w).length) := by
  intro fuel
  induction fuel using Nat.strong_induction_on with
  | _ fuel IH =>
    intro w rb tail hwf hfc hrest
    obtain ⟨g, rfl⟩ : ∃ g, fuel = g + 1 :=
      ⟨fuel - 1, by have := wcost_pos w; omega⟩
    cases w with
    | wbool b =>
      have hb := rb.skip_ok 1 [if b then 1 else 0] tail
        (by simpa [wvalBytes] using hrest) rfl
      simp only [WVal.ttypeCode, skipVal]
      rw [if_pos trivial, hb.1]
      simp [wvalBytes]
    | wbyte i =>
      have hb := rb.skip_ok 1 [u8 i] tail (by simpa [wvalBytes] using hrest) rfl
      simp only [WVal.ttypeCode, skipVal]
      norm_num [ttype.BOOL, ttype.BYTE]
      rw [hb.1]
      simp [wvalBytes]
    | wdouble bits =>
      have hb := rb.skip_ok 8 (beNat 8 bits) tail
        (by simpa [wvalBytes] using hrest) (beNat_length 8 bits)
      simp only [WVal.ttypeCode, skipVal]
      norm_num [ttype.BOOL, ttype.BYTE, ttype.DOUBLE]
      rw [hb.1]
      simp [wvalBytes, beNat_length]
    | wi16 i =>
      have hb := rb.skip_ok 2 (beI 2 i) tail
        (by simpa [wvalBytes] using hrest) (beI_length 2 i)
      simp only [WVal.ttypeCode, skipVal]
      norm_num [ttype.BOOL, ttype.BYTE, ttype.DOUBLE, ttype.I16]
      rw [hb.1]
      simp [wvalBytes, beI_length]
    | wi32 i =>
      have hb := rb.skip_ok 4 (beI 4 i) tail
        (by simpa [wvalBytes] using hrest) (beI_length 4 i)
      simp only [WVal.ttypeCode, skipVal]
      norm_num [ttype.BOOL, ttype.BYTE, ttype.DOUBLE, ttype.I16, ttype.I32]
      rw [hb.1]
      simp [wvalBytes, beI_length]
    | wi64 i =>
      have hb := rb.skip_ok 8 (beI 8 i) tail
        (by simpa [wvalBytes] using hrest) (beI_length 8 i)
      simp only [WVal.ttypeCode, skipVal]
      norm_num [ttype.BOOL, ttype.BYTE, ttype.DOUBLE, ttype.I16, ttype.I32,
        ttype.I64]
      rw [hb.1]
      simp [wvalBytes, beI_length]
    | wbinary bs =>
      have hwfb : bs.length < 2 ^ 31 := by
        have := hwf
        simp [wfW, Bool.and_eq_true, decide_eq_true_eq] at this
        exact this.1
      have hrest2 : rb.rest = beI 4 (bs.length : Int) ++ (bs ++ tail) := by
        rw [hrest]
        simp [wvalBytes, List.append_assoc]
      have h32 := i32_ok rb (bs.length : Int) (bs ++ tail) hrest2
        (by omega) (by exact_mod_cast hwfb)
      have hsk := (rb.advance 4).skipSigned_ok (bs.length : Int) bs tail h32.2 rfl
      simp only [WVal.ttypeCode, skipVal]
      norm_num [ttype.BOOL, ttype.BYTE, ttype.DOUBLE, ttype.I16, ttype.I32,
        ttype.I64, ttype.BINARY]
      rw [skip_binary, h32.1]
      simp only [ok_bind]
      rw [hsk.1]
      simp only [ReadBuffer.advance_advance]
      congr 1
      simp [wvalBytes, beI_length]
    | wstruct fields =>
      have hwffs : wfFields fields = true := by simpa [wfW] using hwf
      have hcb : wcost (.wstruct fields) = 1 + wcostFields fields := by
        simp [wcost]
      have hrest2 : rb.rest = wfieldsBytes fields ++ 0 :: tail := by
        rw [hrest]
        simp [wvalBytes, List.append_assoc]
      have hrec := skipStruct_bytes (g + 1)
        (fun g2 hg2 => IH g2 hg2) fields g (by omega) rb tail hwffs
        (by omega) hrest2
      simp only [WVal.ttypeCode, skipVal]
      norm_num [ttype.BOOL, ttype.BYTE, ttype.DOUBLE, ttype.I16, ttype.I32,
        ttype.I64, ttype.BINARY, ttype.STRUCT]
      rw [hrec]
      congr 1
      simp [wvalBytes]
    | wmap kt vt ps =>
      have hwf2 : ps.length < 2 ^ 31 ∧ knownTtype kt = true ∧
          knownTtype vt = true ∧ wfPairs kt vt ps = true := by
        simpa [wfW, Bool.and_eq_true, decide_eq_true_eq, and_assoc] using hwf
      have hcb : wcost (.wmap kt vt ps) = 2 + wcostPairs ps := by simp [wcost]
      obtain ⟨g2, rfl⟩ : ∃ g2, g = g2 + 1 := ⟨g - 1, by omega⟩
      have hkb := knownTtype_bounds kt hwf2.2.1
      have hvb := knownTtype_bounds vt hwf2.2.2.1
      have hrest2 : rb.rest =
          u8 kt :: u8 vt :: (beI 4 (ps.length : Int) ++ (wpairsBytes ps ++ tail)) := by
        rw [hrest]
        simp [wvalBytes, List.append_assoc]
      have hmb := read_map_begin_ok rb kt vt ps.length _ hrest2
        hkb.1 hkb.2.1 hvb.1 hvb.2.1 hwf2.1
      have hsp := skipPairs_bytes g2
        (fun w2 rb2 tl2 hw2 hc2 hr2 => IH g2 (by omega) w2 rb2 tl2 hw2 hc2 hr2)
        kt vt ps (rb.advance 6) tail hwf2.2.2.2 (by omega) hmb.2
      simp only [WVal.ttypeCode, skipVal]
      norm_num [ttype.BOOL, ttype.BYTE, ttype.DOUBLE, ttype.I16, ttype.I32,
        ttype.I64, ttype.BINARY, ttype.STRUCT, ttype.MAP]
      simp only [skipMap, hmb.1, ok_bind]
      rw [show ((ps.length : Int)).toNat = ps.length from rfl, hsp]
      simp only [ReadBuffer.advance_advance]
      congr 1
      simp [ReadBuffer.advance, wvalBytes, beI_length, List.length_append]
      omega
    | wset vt vs =>
      have hwf2 : vs.length < 2 ^ 31 ∧ knownTtype vt = true ∧
          wfElems vt vs = true := by
        simpa [wfW, Bool.and_eq_true, decide_eq_true_eq, and_assoc] using hwf
      have hcb : wcost (.wset vt vs) = 2 + wcostElems vs := by simp [wcost]
      obtain ⟨g2, rfl⟩ : ∃ g2, g = g2 + 1 := ⟨g - 1, by omega⟩
      have hvb := knownTtype_bounds vt hwf2.2.1
      have hrest2 : rb.rest =
          u8 vt :: (beI 4 (vs.length : Int) ++ (wvalsBytes vs ++ tail)) := by
        rw [hrest]
        simp [wvalBytes, List.append_assoc]
      have hsb := read_set_begin_ok rb vt vs.length _ hrest2
        hvb.1 hvb.2.1 hwf2.1
      have hse := skipElems_bytes g2
        (fun w2 rb2 tl2 hw2 hc2 hr2 => IH g2 (by omega) w2 rb2 tl2 hw2 hc2 hr2)
        vt vs (rb.advance 5) tail hwf2.2.2 (by omega) hsb.2
      simp only [WVal.ttypeCode, skipVal]
      norm_num [ttype.BOOL, ttype.BYTE, ttype.DOUBLE, ttype.I16, ttype.I32,
        ttype.I64, ttype.BINARY, ttype.STRUCT, ttype.MAP, ttype.SET]
      simp only [skipSet, hsb.1, ok_bind]
      rw [show ((vs.length : Int)).toNat = vs.length from rfl, hse]
      simp only [ReadBuffer.advance_advance]
      congr 1
      simp [ReadBuffer.advance, wvalBytes, beI_length, List.length_append]
      omega
    | wlist vt vs =>
      have hwf2 : vs.length < 2 ^ 31 ∧ knownTtype vt = true ∧
          wfElems vt vs = true := by
        simpa [wfW, Bool.and_eq_true, decide_eq_true_eq, and_assoc] using hwf
      have hcb : wcost (.wlist vt vs) = 2 + wcostElems vs := by simp [wcost]
      obtain ⟨g2, rfl⟩ : ∃ g2, g = g2 + 1 := ⟨g - 1, by omega⟩
      have hvb := knownTtype_bounds vt hwf2.2.1
      have hrest2 : rb.rest =
          u8 vt :: (beI 4 (vs.length : Int) ++ (wvalsBytes vs ++ tail)) := by
        rw [hrest]
        simp [wvalBytes, List.append_assoc]
      have hsb := read_list_begin_ok rb vt vs.length _ hrest2
        hvb.1 hvb.2.1 hwf2.1
      have hse := skipElems_bytes g2
        (fun w2 rb2 tl2 hw2 hc2 hr2 => IH g2 (by omega) w2 rb2 tl2 hw2 hc2 hr2)
        vt vs (rb.advance 5) tail hwf2.2.2 (by omega) hsb.2
      simp only [WVal.ttypeCode, skipVal]
      norm_num [ttype.BOOL, ttype.BYTE, ttype.DOUBLE, ttype.I16, ttype.I32,
        ttype.I64, ttype.BINARY, ttype.STRUCT, ttype.MAP, ttype.SET, ttype.LIST]
      simp only [skipList, hsb.1, ok_bind]
      rw [show ((vs.length : Int)).toNat = vs.length from rfl, hse]
      simp only [ReadBuffer.advance_advance]
      congr 1
      simp [ReadBuffer.advance, wvalBytes, beI_length, List.length_append]
      omega

end BinaryProtocolReader

theorem knownUpd_not (fields : List FieldS) (X : Int × Int × WVal → HVal)
    (kw : List (String × HVal)) (e : Int × Int × WVal)
    (h : entryKnownB fields e = false) : knownUpd fields X kw e = kw := by
  unfold knownUpd
  unfold entryKnownB at h
  cases hf : fields.find? (fun f => f.fid == e.1) with
  | none => rfl
  | some f =>
    rw [hf] at h
    have h2 : (f.fspec.ttypeCode == e.2.1) = false := by simpa using h
    simp [h2]

/-- Folding the per-entry update over just the matched entries gives the
same arguments as folding it over all entries. -/
theorem foldl_knownUpd_filter (fields : List FieldS)
    (X : Int × Int × WVal → HVal) :
    ∀ (entries : List (Int × Int × WVal)) (kw : List (String × HVal)),
    (entries.filter (entryKnownB fields)).foldl (knownUpd fields X) kw =
      entries.foldl (knownUpd fields X) kw := by
  intro entries
  induction entries with
  | nil => intro kw; rfl
  | cons e es ih =>
    intro kw
    by_cases h : entryKnownB fields e = true
    · simp [List.filter_cons, h, List.foldl_cons, ih]
    · have hf : entryKnownB fields e = false := by
        cases hx : entryKnownB fields e
        · rfl
        · exact absurd hx h
      simp [List.filter_cons, hf, List.foldl_cons, ih,
        knownUpd_not fields X kw e hf]

theorem wcostFields_filter_le (p : (Int × Int × WVal) → Bool)
    (entries : List (Int × Int × WVal)) :
    wcostFields (entries.filter p) ≤ wcostFields entries := by
  induction entries with
  | nil => exact le_refl _
  | cons e es ih =>
    obtain ⟨a, b, w⟩ := e
    by_cases h : p (a, b, w) = true
    · simp [List.filter_cons, h, wcostFields]
      omega
    · have hf : p (a, b, w) = false := by
        cases hx : p (a, b, w)
        · rfl
        · exact absurd hx h
      simp [List.filter_cons, hf, wcostFields]
      omega

theorem wfFields_filter (p : (Int × Int × WVal) → Bool)
    (entries : List (Int × Int × WVal)) (h : wfFields entries = true) :
    wfFields (entries.filter p) = true := by
  induction entries with
  | nil => exact h
  | cons e es ih =>
    obtain ⟨a, b, w⟩ := e
    have h2 := (wfFields_cons a b w es).mp h
    by_cases hp : p (a, b, w) = true
    · rw [List.filter_cons, if_pos hp]
      exact (wfFields_cons a b w _).mpr ⟨h2.1, h2.2.1, h2.2.2.1, ih h2.2.2.2⟩
    · have hf : p (a, b, w) = false := by
        cases hx : p (a, b, w)
        · rfl
        · exact absurd hx hp
      rw [List.filter_cons, hf]
      exact ih h2.2.2.2

open BinaryProtocolReader in
/-- The struct-reading loop over a wire image: every entry matched by the
index (id found, spec ttype equal to the header ttype) is read with that
field's spec and stored, every other entry is skipped, and the loop stops
at the sentinel. -/
theorem readStructLoop_entries (fields : List FieldS)
    (X : Int × Int × WVal → HVal) :
    ∀ (entries : List (Int × Int × WVal)) (fuel : Nat)
      (kwargs : List (String × HVal)) (rb : ReadBuffer) (tail : List Nat),
    wfFields entries = true →
    (∀ e ∈ entries, ∀ f, fields.find? (fun f2 => f2.fid == e.1) = some f →
      f.fspec.ttypeCode = e.2.1 →
      ∀ (g : Nat) (rb2 : ReadBuffer) (tl2 : List Nat), wcost e.2.2 ≤ g →
        rb2.rest = wvalBytes e.2.2 ++ tl2 →
        readFromTS g f.fspec rb2 = .ok (X e, rb2.advance (wvalBytes e.2.2).length)) →
    wcostFields entries ≤ fuel →
    rb.rest = wfieldsBytes entries ++ 0 :: tail →
    readStructLoop fuel fields kwargs rb =
      .ok (entries.foldl (knownUpd fields X) kwargs,
        rb.advance ((wfieldsBytes entries).length + 1)) := by
  intro entries
  induction entries with
  | nil =>
    intro fuel kwargs rb tail _ _ hfc hrest
    have h1 : 1 ≤ fuel := by
      have : wcostFields ([] : List (Int × Int × WVal)) = 1 := by simp [wcostFields]
      omega
    obtain ⟨g, rfl⟩ : ∃ g, fuel = g + 1 := ⟨fuel - 1, by omega⟩
    have hrest2 : rb.rest = 0 :: tail := by simpa [wfieldsBytes] using hrest
    have hfb := read_field_begin_stop rb tail hrest2
    simp only [readStructLoop, hfb.1, ok_bind]
    simp [wfieldsBytes]
  | cons e es ih =>
    obtain ⟨fid, ft, w⟩ := e
    intro fuel kwargs rb tail hwf hread hfc hrest
    have hwf2 := (wfFields_cons fid ft w es).mp hwf
    obtain ⟨⟨hflo, hfhi⟩, hft, hwfw, hwfes⟩ := hwf2
    have hcb : wcostFields ((fid, ft, w) :: es) = 1 + wcost w + wcostFields es := by
      simp [wcostFields]
    have hwp := wcost_pos w
    have hfp := wcostFields_pos es
    obtain ⟨g, rfl⟩ : ∃ g, fuel = g + 1 := ⟨fuel - 1, by omega⟩
    have htb := ttypeCode_bounds w
    have hrest2 : rb.rest =
        u8 ft :: (beI 2 fid ++ (wvalBytes w ++ (wfieldsBytes es ++ 0 :: tail))) := by
      rw [hrest]
      simp [wfieldsBytes, List.append_assoc]
    have hfb := read_field_begin_entry rb ft fid _ hrest2
      (hft ▸ htb.1) (hft ▸ htb.2.1) (hft ▸ htb.2.2) hflo hfhi
    have hftne : ft ≠ -1 := by
      have := htb.1
      rw [hft]
      omega
    have hrestw := (rb.advance 3).rest_after _ _ hfb.2
    have hread2 : ∀ e ∈ es, ∀ f, fields.find? (fun f2 => f2.fid == e.1) = some f →
        f.fspec.ttypeCode = e.2.1 →
        ∀ (g2 : Nat) (rb2 : ReadBuffer) (tl2 : List Nat), wcost e.2.2 ≤ g2 →
          rb2.rest = wvalBytes e.2.2 ++ tl2 →
          readFromTS g2 f.fspec rb2 = .ok (X e, rb2.advance (wvalBytes e.2.2).length) :=
      fun e he => hread e (List.mem_cons_of_mem _ he)
    have hlen : (wfieldsBytes ((fid, ft, w) :: es)).length =
        3 + ((wvalBytes w).length + (wfieldsBytes es).length) := by
      simp [wfieldsBytes, beI_length]
      omega
    cases hfind : fields.find? (fun f => f.fid == fid) with
    | some f =>
      by_cases hty : f.fspec.ttypeCode = ft
      · have hrd : readFromTS g f.fspec (rb.advance 3) =
            .ok (X (fid, ft, w), (rb.advance 3).advance (wvalBytes w).length) :=
          hread _ (List.mem_cons_self _ _) f hfind hty g (rb.advance 3)
            (wfieldsBytes es ++ 0 :: tail) (by show wcost w ≤ g; omega) hfb.2
        have hrec := ih g (aupdate kwargs f.fname (X ((fid, ft, w))))
          ((rb.advance 3).advance (wvalBytes w).length) tail hwfes hread2
          (by omega) hrestw
        simp only [readStructLoop, hfb.1, ok_bind, hfind]
        rw [if_neg hftne, if_pos hty, hrd]
        simp only [ok_bind]
        rw [hrec]
        simp only [ReadBuffer.advance_advance]
        have hfold : ((fid, ft, w) :: es).foldl (knownUpd fields X) kwargs =
            es.foldl (knownUpd fields X) (aupdate kwargs f.fname (X (fid, ft, w))) := by
          rw [List.foldl_cons]
          congr 1
          unfold knownUpd
          rw [hfind]
          simp [hty]
        rw [hfold, hlen]
        congr 2
        simp [ReadBuffer.advance]
        omega
      · have hsv := skipVal_bytes g w (rb.advance 3) _ hwfw (by omega) hfb.2
        rw [← hft] at hsv
        have hrec := ih g kwargs ((rb.advance 3).advance (wvalBytes w).length)
          tail hwfes hread2 (by omega) hrestw
        simp only [readStructLoop, hfb.1, ok_bind, hfind]
        rw [if_neg hftne, if_neg hty, hsv]
        simp only [ok_bind]
        rw [hrec]
        simp only [ReadBuffer.advance_advance]
        have hfold : ((fid, ft, w) :: es).foldl (knownUpd fields X) kwargs =
            es.foldl (knownUpd fields X) kwargs := by
          rw [List.foldl_cons]
          congr 1
          unfold knownUpd
          rw [hfind]
          simp [hty]
        rw [hfold, hlen]
        congr 2
        simp [ReadBuffer.advance]
        omega
    | none =>
      have hsv := skipVal_bytes g w (rb.advance 3) _ hwfw (by omega) hfb.2
      rw [← hft] at hsv
      have hrec := ih g kwargs ((rb.advance 3).advance (wvalBytes w).length)
        tail hwfes hread2 (by omega) hrestw
      simp only [readStructLoop, hfb.1, ok_bind, hfind]
      rw [if_neg hftne, hsv]
      simp only [ok_bind]
      rw [hrec]
      simp only [ReadBuffer.advance_advance]
      have hfold : ((fid, ft, w) :: es).foldl (knownUpd fields X) kwargs =
          es.foldl (knownUpd fields X) kwargs := by
        rw [List.foldl_cons]
        congr 1
        unfold knownUpd
        rw [hfind]
      rw [hfold, hlen]
      congr 2
      simp [ReadBuffer.advance]
      omega

/-- C6: struct deserialization loops over the wire fields until the end
sentinel; an entry whose id is found in the struct's index with the
field spec's ttype equal to the header ttype is read via that field's
spec, and every other entry (unknown id, or ttype mismatch) is skipped
(first conjunct, with `knownUpd` recording exactly the dispatch of one
iteration); consequently a wire image with additional unknown fields of
known ttypes yields the same host value as the minimal image holding
only the matched fields (second conjunct). -/
theorem struct_read_skip_equivalence (sname : String) (fields : List FieldS)
    (X : Int × Int × WVal → HVal) (entries : List (Int × Int × WVal))
    (fuel : Nat) (rb rbMin : ReadBuffer) (tail tailMin : List Nat)
    (hwf : wfFields entries = true)
    (hread : ∀ e ∈ entries, ∀ f,
      fields.find? (fun f2 => f2.fid == e.1) = some f →
      f.fspec.ttypeCode = e.2.1 →
      ∀ (g : Nat) (rb2 : ReadBuffer) (tl2 : List Nat), wcost e.2.2 ≤ g →
        rb2.rest = wvalBytes e.2.2 ++ tl2 →
        readFromTS g f.fspec rb2 = .ok (X e, rb2.advance (wvalBytes e.2.2).length))
    (hfuel : wcostFields entries ≤ fuel)
    (hrb : rb.rest = wfieldsBytes entries ++ 0 :: tail)
    (hrbMin : rbMin.rest =
      wfieldsBytes (entries.filter (entryKnownB fields)) ++ 0 :: tailMin) :
    readStructLoop fuel fields [] rb =
      .ok (entries.foldl (knownUpd fields X) [],
        rb.advance ((wfieldsBytes entries).length + 1)) ∧
    (∀ (hv : HVal) (rbx : ReadBuffer),
      readFromTS (fuel + 1) (.tstruct sname fields) rbMin = .ok (hv, rbx) →
      readFromTS (fuel + 1) (.tstruct sname fields) rb =
        .ok (hv, rb.advance ((wfieldsBytes entries).length + 1))) := by
  have hloop := readStructLoop_entries fields X entries fuel [] rb tail
    hwf hread hfuel hrb
  refine ⟨hloop, ?_⟩
  intro hv rbx hmin
  have hreadF : ∀ e ∈ entries.filter (entryKnownB fields), ∀ f,
      fields.find? (fun f2 => f2.fid == e.1) = some f →
      f.fspec.ttypeCode = e.2.1 →
      ∀ (g : Nat) (rb2 : ReadBuffer) (tl2 : List Nat), wcost e.2.2 ≤ g →
        rb2.rest = wvalBytes e.2.2 ++ tl2 →
        readFromTS g f.fspec rb2 =
          .ok (X e, rb2.advance (wvalBytes e.2.2).length) :=
    fun e he => hread e (List.mem_of_mem_filter he)
  have hwfF := wfFields_filter (entryKnownB fields) entries hwf
  have hfuelF : wcostFields (entries.filter (entryKnownB fields)) ≤ fuel :=
    le_trans (wcostFields_filter_le _ _) hfuel
  have hloopMin := readStructLoop_entries fields X
    (entries.filter (entryKnownB fields)) fuel [] rbMin tailMin
    hwfF hreadF hfuelF hrbMin
  rw [foldl_knownUpd_filter] at hloopMin
  simp only [readFromTS, hloopMin, ok_bind] at hmin
  cases hsi : structInit sname fields (entries.foldl (knownUpd fields X) []) with
  | error e =>
    rw [hsi] at hmin
    simp at hmin
  | ok v =>
    rw [hsi] at hmin
    simp only [ok_bind, Except.ok.injEq, Prod.mk.injEq] at hmin
    simp only [readFromTS, hloop, ok_bind, hsi]
    rw [hmin.1]

open BinaryProtocolReader in
/-- C6 witness: a one-field struct (`1: bool a`) read from an image that
also carries an unknown field (id 9, i32): the loop assigns `a`, skips
the unknown field, and consumes the whole image. -/
theorem struct_read_skip_equivalence_witness :
    readStructLoop 5 [FieldS.mk 1 "a" .tbool false none] []
      ⟨wfieldsBytes [((1 : Int), ttype.BOOL, .wbool true),
        ((9 : Int), ttype.I32, .wi32 5)] ++ 0 :: [], 0⟩ =
      .ok ([((1 : Int), ttype.BOOL, WVal.wbool true),
          ((9 : Int), ttype.I32, WVal.wi32 5)].foldl
          (knownUpd [FieldS.mk 1 "a" .tbool false none]
            (fun _ => .hBool true)) [],
        ReadBuffer.advance
          ⟨wfieldsBytes [((1 : Int), ttype.BOOL, .wbool true),
            ((9 : Int), ttype.I32, .wi32 5)] ++ 0 :: [], 0⟩
          ((wfieldsBytes [((1 : Int), ttype.BOOL, .wbool true),
            ((9 : Int), ttype.I32, .wi32 5)]).length + 1)) := by
  refine (struct_read_skip_equivalence "S" [FieldS.mk 1 "a" .tbool false none]
    (fun _ => .hBool true)
    [((1 : Int), ttype.BOOL, .wbool true), ((9 : Int), ttype.I32, .wi32 5)]
    5
    ⟨wfieldsBytes [((1 : Int), ttype.BOOL, .wbool true),
      ((9 : Int), ttype.I32, .wi32 5)] ++ 0 :: [], 0⟩
    ⟨wfieldsBytes ([((1 : Int), ttype.BOOL, .wbool true),
      ((9 : Int), ttype.I32, .wi32 5)].filter
        (entryKnownB [FieldS.mk 1 "a" .tbool false none])) ++ 0 :: [], 0⟩
    [] [] ?_ ?_ ?_ rfl rfl).1
  · simp [wfFields, wfW, WVal.ttypeCode, ttype.BOOL, ttype.I32]
  · intro e he f hfind hty g rb2 tl2 hg hrest
    rcases List.mem_cons.mp he with rfl | he2
    · have hff : [FieldS.mk 1 "a" .tbool false none].find?
          (fun f2 => f2.fid == ((1 : Int), ttype.BOOL, WVal.wbool true).1) =
          some (FieldS.mk 1 "a" .tbool false none) := rfl
      rw [hff] at hfind
      have hf2 : f = FieldS.mk 1 "a" .tbool false none :=
        (Option.some.inj hfind).symm
      subst hf2
      have hg1 : 1 ≤ g := by simpa [wcost] using hg
      have hb : rb2.rest = 1 :: tl2 := by simpa [wvalBytes] using hrest
      obtain ⟨g2, rfl⟩ : ∃ g2, g = g2 + 1 := ⟨g - 1, by omega⟩
      have hi8 := i8_ok rb2 1 tl2 hb
      rw [show (FieldS.mk 1 "a" TS.tbool false none).fspec = TS.tbool from rfl]
      simp only [readFromTS, read_bool, hi8.1, ok_bind]
      simp [toSigned, wvalBytes]
    · rcases List.mem_cons.mp he2 with rfl | h3
      · have hff : [FieldS.mk 1 "a" .tbool false none].find?
            (fun f2 => f2.fid == ((9 : Int), ttype.I32, WVal.wi32 5).1) =
            none := rfl
        rw [hff] at hfind
        exact Option.noConfusion hfind
      · cases h3
  · simp [wcostFields, wcost]

/-! ### C3: unknown fields in a function result -/

open BinaryProtocolReader in
/-- C3 counterexample: in the streaming path, an unrecognized non-zero
field id makes `FunctionResultSpec.read_from` raise the unknown-exception
error with a message only — `none` where the spec promises the offending
wire struct. -/
theorem read_from_unknown_no_payload :
    FunctionResultSpec.read_from 2 ⟨"f", none, []⟩
      ⟨[8, 0, 5, 0, 0, 0, 7, 0], 0⟩ = .error (.unknownException none) := by
  have hrest : (⟨[8, 0, 5, 0, 0, 0, 7, 0], 0⟩ : ReadBuffer).rest =
      u8 8 :: (beI 2 5 ++ [0, 0, 0, 7, 0]) := rfl
  have hfb := read_field_begin_entry ⟨[8, 0, 5, 0, 0, 0, 7, 0], 0⟩ 8 5 _ hrest
    (by norm_num) (by norm_num) (by norm_num) (by norm_num) (by norm_num)
  rw [FunctionResultSpec.read_from]
  rw [show FunctionResultSpec.resultSpecs ⟨"f", none, []⟩ = [] from rfl]
  rw [show (2 : Nat) = 1 + 1 from rfl]
  simp only [readResultLoop, hfb.1, ok_bind]
  rw [if_neg (by norm_num : ¬((8 : Int) = -1))]
  rw [show ([] : List FieldS).find?
    (fun f => f.fid == (5 : Int) && f.fspec.ttypeCode == (8 : Int)) = none from rfl]
  simp

/-- The `from_wire` scan raises the unknown-exception error, carrying the
whole wire struct, as soon as the field list contains an unrecognized
non-zero id. -/
theorem checkUnknownFields_err (r : FunctionResultSpec) (w : WVal) :
    ∀ (fs : List (Int × Int × WVal)) (e : Int × Int × WVal), e ∈ fs →
      e.1 ≠ 0 → r.exceptionIds.contains e.1 = false →
      FunctionResultSpec.checkUnknownFields r w fs =
        .error (.unknownException (some w)) := by
  intro fs
  induction fs with
  | nil => intro e he _ _; cases he
  | cons f fs ih =>
    intro e he hid hcont
    by_cases hf : f.1 ≠ 0 ∧ ¬ r.exceptionIds.contains f.1
    · simp only [FunctionResultSpec.checkUnknownFields]
      rw [if_pos hf]
    · have hef : e ∈ fs := by
        rcases List.mem_cons.mp he with rfl | h2
        · exact absurd ⟨hid, by simpa using hcont⟩ hf
        · exact h2
      simp only [FunctionResultSpec.checkUnknownFields]
      rw [if_neg hf]
      exact ih e hef hid hcont

open BinaryProtocolReader in
/-- C3 (amended): while deserializing a function result, a field whose
`(id, ttype)` is not in the result's index raises the unknown-exception
error when its id is non-zero — in the streaming `read_from` path with a
message only (no wire struct exists there) — and is skipped (the loop
continuing past its bytes) when its id is 0; `from_wire`, in contrast,
raises the error carrying the whole wire struct for any field whose id is
neither 0 nor a declared exception id. -/
theorem function_result_unknown_exception :
    (∀ (fields : List FieldS) (kwargs : List (String × HVal)) (fuel : Nat)
      (rb : ReadBuffer) (t fid : Int) (tl : List Nat),
      rb.rest = u8 t :: (beI 2 fid ++ tl) →
      0 ≤ t → t < 128 → t ≠ 0 →
      -(2 ^ 15) ≤ fid → fid < 2 ^ 15 →
      fields.find? (fun f => f.fid == fid && f.fspec.ttypeCode == t) = none →
      fid ≠ 0 →
      readResultLoop (fuel + 1) fields kwargs rb =
        .error (.unknownException none)) ∧
    (∀ (fields : List FieldS) (kwargs : List (String × HVal)) (fuel : Nat)
      (rb : ReadBuffer) (w : WVal) (tl : List Nat),
      rb.rest = u8 w.ttypeCode :: (beI 2 0 ++ (wvalBytes w ++ tl)) →
      wfW w = true → wcost w + 1 ≤ fuel →
      fields.find? (fun f => f.fid == (0 : Int) &&
        f.fspec.ttypeCode == w.ttypeCode) = none →
      readResultLoop (fuel + 1) fields kwargs rb =
        readResultLoop fuel fields kwargs
          (rb.advance (3 + (wvalBytes w).length))) ∧
    (∀ (r : FunctionResultSpec) (wfs : List (Int × Int × WVal))
      (e : Int × Int × WVal), e ∈ wfs → e.1 ≠ 0 →
      r.exceptionIds.contains e.1 = false →
      FunctionResultSpec.from_wire r (.wstruct wfs) =
        .error (.unknownException (some (.wstruct wfs)))) := by
  refine ⟨?_, ?_, ?_⟩
  · intro fields kwargs fuel rb t fid tl hrest h0 h1 hne hlo hhi hfind hid
    have hfb := read_field_begin_entry rb t fid tl hrest h0 h1 hne hlo hhi
    have htne : t ≠ -1 := by omega
    simp only [readResultLoop, hfb.1, ok_bind, hfind]
    rw [if_neg htne, if_pos hid]
  · intro fields kwargs fuel rb w tl hrest hwf hfc hfind
    have htb := ttypeCode_bounds w
    have hfb := read_field_begin_entry rb w.ttypeCode 0 _ hrest htb.1 htb.2.1
      htb.2.2 (by norm_num) (by norm_num)
    have htne : w.ttypeCode ≠ -1 := by
      have := htb.1
      omega
    have hsv := skipVal_bytes fuel w (rb.advance 3) tl hwf hfc hfb.2
    simp only [readResultLoop, hfb.1, ok_bind, hfind]
    rw [if_neg htne, if_neg (by simp : ¬((0 : Int) ≠ 0)), hsv]
    simp only [ok_bind, ReadBuffer.advance_advance]
  · intro r wfs e he hid hcont
    have htc : typeCodeMatches (.tunion r.name r.resultSpecs r.allowEmpty)
        (.wstruct wfs) = .ok () := by
      simp [typeCodeMatches, TS.ttypeCode, WVal.ttypeCode]
    have hchk := checkUnknownFields_err r (.wstruct wfs) wfs e he hid hcont
    simp only [FunctionResultSpec.from_wire, htc, ok_bind, hchk, error_bind]

open BinaryProtocolReader in
/-- C3 witness: with no declared exceptions, an i32 field with id 5
raises the message-only error in the loop, an i32 field with id 0 is
skipped, and `from_wire` on a wire struct holding the id-5 field raises
the error carrying that struct. -/
theorem function_result_unknown_exception_witness :
    readResultLoop 2 [] [] ⟨u8 8 :: (beI 2 5 ++ [0, 0, 0, 7, 0]), 0⟩ =
      .error (.unknownException none) ∧
    readResultLoop 3 [] []
      ⟨u8 (WVal.wi32 7).ttypeCode :: (beI 2 0 ++ (wvalBytes (.wi32 7) ++ [0])), 0⟩ =
      readResultLoop 2 [] []
        (ReadBuffer.advance
          ⟨u8 (WVal.wi32 7).ttypeCode ::
            (beI 2 0 ++ (wvalBytes (.wi32 7) ++ [0])), 0⟩
          (3 + (wvalBytes (.wi32 7)).length)) ∧
    FunctionResultSpec.from_wire ⟨"f", none, []⟩
      (.wstruct [((5 : Int), ttype.I32, .wi32 7)]) =
      .error (.unknownException (some (.wstruct [((5 : Int), ttype.I32, .wi32 7)]))) := by
  refine ⟨?_, ?_, ?_⟩
  · exact function_result_unknown_exception.1 [] [] 1
      ⟨u8 8 :: (beI 2 5 ++ [0, 0, 0, 7, 0]), 0⟩ 8 5 [0, 0, 0, 7, 0] rfl
      (by norm_num) (by norm_num) (by norm_num) (by norm_num) (by norm_num)
      rfl (by norm_num)
  · exact function_result_unknown_exception.2.1 [] [] 2
      ⟨u8 (WVal.wi32 7).ttypeCode :: (beI 2 0 ++ (wvalBytes (.wi32 7) ++ [0])), 0⟩
      (.wi32 7) [0] rfl (by simp [wfW]) (by simp [wcost]) rfl
  · exact function_result_unknown_exception.2.2
      ⟨"f", none, []⟩ [((5 : Int), ttype.I32, .wi32 7)]
      ((5 : Int), ttype.I32, .wi32 7) (by simp) (by norm_num) rfl

/-! ### C2, byte level: the old reader parses back what the writer emits -/

namespace BinaryProtocolReader

/-- `i8` on the byte of a signed value in range. -/
theorem i8_ok_byte (rb : ReadBuffer) (i : Int) (tl : List Nat)
    (h : rb.rest = u8 i :: tl) (hlo : -(2 ^ 7) ≤ i) (hhi : i < 2 ^ 7) :
    i8 rb = .ok (i, rb.advance 1) ∧ (rb.advance 1).rest = tl := by
  have h2 := i8_ok rb (u8 i) tl h
  have hts : toSigned 8 (u8 i) = i := by
    have he : u8 i = (i % 256).toNat := rfl
    rw [he]
    unfold toSigned
    split <;> omega
  rw [hts] at h2
  exact h2

end BinaryProtocolReader

namespace OldReader

open BinaryProtocolReader

/-- The element loop of the old reader parses back the elements. -/
theorem readElems_bytes (fuel : Nat)
    (hA : ∀ (w : WVal) (rb : ReadBuffer) tail, wfW w = true → wcost w ≤ fuel →
      rb.rest = wvalBytes w ++ tail →
      readVal fuel w.ttypeCode rb = .ok (w, rb.advance (wvalBytes w).length))
    (vt : Int) :
    ∀ vs (rb : ReadBuffer) tail, wfElems vt vs = true →
      wcostElems vs ≤ fuel → rb.rest = wvalsBytes vs ++ tail →
      readElems fuel vt vs.length rb =
        .ok (vs, rb.advance (wvalsBytes vs).length) := by
  intro vs
  induction vs with
  | nil =>
    intro rb tail _ _ _
    simp [readElems, wvalsBytes, ReadBuffer.advance_zero]
  | cons v vs ih =>
    intro rb tail hwf hfc hrest
    have hwf2 : v.ttypeCode = vt ∧ wfW v = true ∧ wfElems vt vs = true := by
      simpa [wfElems, Bool.and_eq_true, and_assoc] using hwf
    have hrest2 : rb.rest = wvalBytes v ++ (wvalsBytes vs ++ tail) := by
      rw [hrest]
      simp [wvalsBytes]
    have hcb : wcostElems (v :: vs) = wcost v + wcostElems vs := by
      simp [wcostElems]
    have hcp := wcost_pos v
    have hrv := hA v rb (wvalsBytes vs ++ tail) hwf2.2.1 (by omega) hrest2
    rw [hwf2.1] at hrv
    have hrest3 := rb.rest_after _ _ hrest2
    have hrec := ih (rb.advance (wvalBytes v).length) tail hwf2.2.2 (by omega) hrest3
    simp only [ReadBuffer.advance_advance] at hrec
    simp only [List.length_cons, readElems, hrv, ok_bind, hrec]
    have : (wvalsBytes (v :: vs)).length =
        (wvalBytes v).length + (wvalsBytes vs).length := by
      simp [wvalsBytes]
    rw [this]

/-- The pair loop of the old reader parses back the pairs. -/
theorem readPairs_bytes (fuel : Nat)
    (hA : ∀ (w : WVal) (rb : ReadBuffer) tail, wfW w = true → wcost w ≤ fuel →
      rb.rest = wvalBytes w ++ tail →
      readVal fuel w.ttypeCode rb = .ok (w, rb.advance (wvalBytes w).length))
    (kt vt : Int) :
    ∀ ps (rb : ReadBuffer) tail, wfPairs kt vt ps = true →
      wcostPairs ps ≤ fuel → rb.rest = wpairsBytes ps ++ tail →
      readPairs fuel kt vt ps.length rb =
        .ok (ps, rb.advance (wpairsBytes ps).length) := by
  intro ps
  induction ps with
  | nil =>
    intro rb tail _ _ _
    simp [readPairs, wpairsBytes, ReadBuffer.advance_zero]
  | cons p ps ih =>
    obtain ⟨k, v⟩ := p
    intro rb tail hwf hfc hrest
    have hwf2 : (k.ttypeCode = kt ∧ v.ttypeCode = vt ∧ wfW k = true ∧ wfW v = true) ∧
        wfPairs kt vt ps = true := by
      simpa [wfPairs, Bool.and_eq_true, and_assoc] using hwf
    have hrest2 : rb.rest = wvalBytes k ++ (wvalBytes v ++ (wpairsBytes ps ++ tail)) := by
      rw [hrest]
      simp [wpairsBytes]
    have hcb : wcostPairs ((k, v) :: ps) = wcost k + wcost v + wcostPairs ps := by
      simp [wcostPairs]
    have hck := wcost_pos k
    have hcv := wcost_pos v
    have hrk := hA k rb _ hwf2.1.2.2.1 (by omega) hrest2
    rw [hwf2.1.1] at hrk
    have hrestk := rb.rest_after _ _ hrest2
    have hrv := hA v (rb.advance (wvalBytes k).length) _ hwf2.1.2.2.2 (by omega) hrestk
    rw [hwf2.1.2.1] at hrv
    have hrestv := (rb.advance (wvalBytes k).length).rest_after _ _ hrestk
    have hrec := ih ((rb.advance (wvalBytes k).length).advance (wvalBytes v).length)
      tail hwf2.2 (by omega) hrestv
    simp only [ReadBuffer.advance_advance] at hrv hrec
    simp only [List.length_cons, readPairs, hrk, ok_bind, hrv, hrec]
    have : (wpairsBytes ((k, v) :: ps)).length =
        (wvalBytes k).length + ((wvalBytes v).length + (wpairsBytes ps).length) := by
      simp [wpairsBytes]
    rw [this, Nat.add_assoc]

/-- The struct-field loop of the old reader parses back the field list
and the closing sentinel. -/
theorem readFields_bytes (N : Nat)
    (hA : ∀ g, g < N → ∀ (w : WVal) (rb : ReadBuffer) tail, wfW w = true →
      wcost w ≤ g → rb.rest = wvalBytes w ++ tail →
      readVal g w.ttypeCode rb = .ok (w, rb.advance (wvalBytes w).length)) :
    ∀ fs : List (Int × Int × WVal), ∀ fuel, fuel < N → ∀ (rb : ReadBuffer) tail,
      wfFields fs = true → wcostFields fs ≤ fuel →
      rb.rest = wfieldsBytes fs ++ 0 :: tail →
      readFields fuel rb = .ok (fs, rb.advance ((wfieldsBytes fs).length + 1)) := by
  intro fs
  induction fs with
  | nil =>
    intro fuel hfN rb tail _ hfc hrest
    have h1 : 1 ≤ fuel := by
      have : wcostFields ([] : List (Int × Int × WVal)) = 1 := by simp [wcostFields]
      omega
    obtain ⟨g, rfl⟩ : ∃ g, fuel = g + 1 := ⟨fuel - 1, by omega⟩
    have hrest2 : rb.rest = 0 :: tail := by simpa [wfieldsBytes] using hrest
    have hi8 := i8_ok rb 0 tail hrest2
    have hts : toSigned 8 0 = 0 := by decide
    rw [hts] at hi8
    simp only [readFields, hi8.1, ok_bind]
    simp [wfieldsBytes]
  | cons e fs ih =>
    obtain ⟨fid, ft, w⟩ := e
    intro fuel hfN rb tail hwf hfc hrest
    have hwf2 := (wfFields_cons fid ft w fs).mp hwf
    obtain ⟨⟨hflo, hfhi⟩, hft, hwfw, hwffs⟩ := hwf2
    have hcb : wcostFields ((fid, ft, w) :: fs) = 1 + wcost w + wcostFields fs := by
      simp [wcostFields]
    have hwp := wcost_pos w
    have hfp := wcostFields_pos fs
    obtain ⟨g, rfl⟩ : ∃ g, fuel = g + 1 := ⟨fuel - 1, by omega⟩
    have htb := ttypeCode_bounds w
    have hrest2 : rb.rest =
        u8 ft :: (beI 2 fid ++ (wvalBytes w ++ (wfieldsBytes fs ++ 0 :: tail))) := by
      rw [hrest]
      simp [wfieldsBytes, List.append_assoc]
    have hi8 := i8_ok_small rb ft _ hrest2 (hft ▸ htb.1) (hft ▸ htb.2.1)
    have hftne : ft ≠ 0 := hft ▸ htb.2.2
    have hi16 := i16_ok (rb.advance 1) fid _ hi8.2 hflo hfhi
    simp only [ReadBuffer.advance_advance] at hi16
    have hrv : readVal g ft (rb.advance (1 + 2)) =
        .ok (w, (rb.advance (1 + 2)).advance (wvalBytes w).length) := by
      rw [hft]
      exact hA g (by omega) w (rb.advance (1 + 2)) _ hwfw (by omega) hi16.2
    have hrestw := (rb.advance (1 + 2)).rest_after _ _ hi16.2
    have hrec := ih g (by omega) ((rb.advance (1 + 2)).advance (wvalBytes w).length)
      tail hwffs (by omega) hrestw
    simp only [readFields, hi8.1, ok_bind]
    rw [if_neg hftne]
    rw [hi16.1]
    simp only [ok_bind]
    rw [hrv]
    simp only [ok_bind]
    rw [hrec]
    simp only [ReadBuffer.advance_advance]
    have hlen : (wfieldsBytes ((fid, ft, w) :: fs)).length =
        3 + ((wvalBytes w).length + (wfieldsBytes fs).length) := by
      simp [wfieldsBytes, beI_length]
      omega
    rw [hlen]
    congr 2
    simp [ReadBuffer.advance]
    omega

/-- The old reader parses back exactly the wire value whose bytes the
writer emitted. -/
theorem readVal_bytes : ∀ fuel (w : WVal) (rb : ReadBuffer) tail,
    wfW w = true → wcost w ≤ fuel → rb.rest = wvalBytes w ++ tail →
    readVal fuel w.ttypeCode rb = .ok (w, rb.advance (wvalBytes w).length) := by
  intro fuel
  induction fuel using Nat.strong_induction_on with
  | _ fuel IH =>
    intro w rb tail hwf hfc hrest
    obtain ⟨g, rfl⟩ : ∃ g, fuel = g + 1 :=
      ⟨fuel - 1, by have := wcost_pos w; omega⟩
    cases w with
    | wbool b =>
      have hb := i8_ok rb (if b then 1 else 0) tail
        (by simpa [wvalBytes] using hrest)
      simp only [WVal.ttypeCode, readVal]
      rw [if_pos trivial]
      rw [read_bool, hb.1]
      simp only [ok_bind]
      cases b <;> simp [toSigned, wvalBytes]
    | wbyte i =>
      have hwfi : -(2 ^ 7) ≤ i ∧ i < 2 ^ 7 := by
        simpa [wfW, decide_eq_true_eq] using hwf
      have hb := i8_ok_byte rb i tail (by simpa [wvalBytes] using hrest)
        hwfi.1 hwfi.2
      simp only [WVal.ttypeCode, readVal]
      norm_num [ttype.BOOL, ttype.BYTE]
      rw [hb.1]
      simp [wvalBytes]
    | wdouble bits =>
      have hwfb : bits < 2 ^ 64 := by
        simpa [wfW, decide_eq_true_eq] using hwf
      have hb := double_ok rb bits tail (by simpa [wvalBytes] using hrest) hwfb
      simp only [WVal.ttypeCode, readVal]
      norm_num [ttype.BOOL, ttype.BYTE, ttype.DOUBLE]
      rw [hb.1]
      simp [wvalBytes, beNat_length]
    | wi16 i =>
      have hwfi : -(2 ^ 15) ≤ i ∧ i < 2 ^ 15 := by
        simpa [wfW, decide_eq_true_eq] using hwf
      have hb := i16_ok rb i tail (by simpa [wvalBytes] using hrest)
        hwfi.1 hwfi.2
      simp only [WVal.ttypeCode, readVal]
      norm_num [ttype.BOOL, ttype.BYTE, ttype.DOUBLE, ttype.I16]
      rw [hb.1]
      simp [wvalBytes, beI_length]
    | wi32 i =>
      have hwfi : -(2 ^ 31) ≤ i ∧ i < 2 ^ 31 := by
        simpa [wfW, decide_eq_true_eq] using hwf
      have hb := i32_ok rb i tail (by simpa [wvalBytes] using hrest)
        hwfi.1 hwfi.2
      simp only [WVal.ttypeCode, readVal]
      norm_num [ttype.BOOL, ttype.BYTE, ttype.DOUBLE, ttype.I16, ttype.I32]
      rw [hb.1]
      simp [wvalBytes, beI_length]
    | wi64 i =>
      have hwfi : -(2 ^ 63) ≤ i ∧ i < 2 ^ 63 := by
        simpa [wfW, decide_eq_true_eq] using hwf
      have hb := i64_ok rb i tail (by simpa [wvalBytes] using hrest)
        hwfi.1 hwfi.2
      simp only [WVal.ttypeCode, readVal]
      norm_num [ttype.BOOL, ttype.BYTE, ttype.DOUBLE, ttype.I16, ttype.I32,
        ttype.I64]
      rw [hb.1]
      simp [wvalBytes, beI_length]
    | wbinary bs =>
      have hwfb : bs.length < 2 ^ 31 := by
        have := hwf
        simp [wfW, Bool.and_eq_true, decide_eq_true_eq] at this
        exact this.1
      have hrest2 : rb.rest = beI 4 (bs.length : Int) ++ (bs ++ tail) := by
        rw [hrest]
        simp [wvalBytes, List.append_assoc]
      have h32 := i32_ok rb (bs.length : Int) (bs ++ tail) hrest2
        (by omega) (by exact_mod_cast hwfb)
      have htk := (rb.advance 4).takeSigned_ok (bs.length : Int) bs tail h32.2 rfl
      simp only [WVal.ttypeCode, readVal]
      norm_num [ttype.BOOL, ttype.BYTE, ttype.DOUBLE, ttype.I16, ttype.I32,
        ttype.I64, ttype.BINARY]
      rw [read_binary, h32.1]
      simp only [ok_bind]
      rw [htk.1]
      simp only [ReadBuffer.advance_advance]
      congr 2
      simp [wvalBytes, beI_length]
    | wstruct fields =>
      have hwffs : wfFields fields = true := by simpa [wfW] using hwf
      have hcb : wcost (.wstruct fields) = 1 + wcostFields fields := by
        simp [wcost]
      have hrest2 : rb.rest = wfieldsBytes fields ++ 0 :: tail := by
        rw [hrest]
        simp [wvalBytes, List.append_assoc]
      have hrec := readFields_bytes (g + 1) (fun g2 hg2 => IH g2 hg2) fields g
        (by omega) rb tail hwffs (by omega) hrest2
      simp only [WVal.ttypeCode, readVal]
      norm_num [ttype.BOOL, ttype.BYTE, ttype.DOUBLE, ttype.I16, ttype.I32,
        ttype.I64, ttype.BINARY, ttype.STRUCT]
      rw [hrec]
      congr 2
      simp [wvalBytes]
    | wmap kt vt ps =>
      have hwf2 : ps.length < 2 ^ 31 ∧ knownTtype kt = true ∧
          knownTtype vt = true ∧ wfPairs kt vt ps = true := by
        simpa [wfW, Bool.and_eq_true, decide_eq_true_eq, and_assoc] using hwf
      have hcb : wcost (.wmap kt vt ps) = 2 + wcostPairs ps := by simp [wcost]
      have hkb := knownTtype_bounds kt hwf2.2.1
      have hvb := knownTtype_bounds vt hwf2.2.2.1
      have hrest2 : rb.rest =
          u8 kt :: u8 vt :: (beI 4 (ps.length : Int) ++ (wpairsBytes ps ++ tail)) := by
        rw [hrest]
        simp [wvalBytes, List.append_assoc]
      have hmb := read_map_begin_ok rb kt vt ps.length _ hrest2
        hkb.1 hkb.2.1 hvb.1 hvb.2.1 hwf2.1
      have hrp := readPairs_bytes g
        (fun w2 rb2 tl2 hw2 hc2 hr2 => IH g (by omega) w2 rb2 tl2 hw2 hc2 hr2)
        kt vt ps (rb.advance 6) tail hwf2.2.2.2 (by omega) hmb.2
      simp only [WVal.ttypeCode, readVal]
      norm_num [ttype.BOOL, ttype.BYTE, ttype.DOUBLE, ttype.I16, ttype.I32,
        ttype.I64, ttype.BINARY, ttype.STRUCT, ttype.MAP]
      rw [hmb.1]
      simp only [ok_bind]
      rw [if_pos (by simp [hwf2.2.1, hwf2.2.2.1])]
      rw [show ((ps.length : Int)).toNat = ps.length from rfl, hrp]
      simp only [ok_bind, ReadBuffer.advance_advance]
      congr 2
      simp [ReadBuffer.advance, wvalBytes, beI_length, List.length_append]
      omega
    | wset vt vs =>
      have hwf2 : vs.length < 2 ^ 31 ∧ knownTtype vt = true ∧
          wfElems vt vs = true := by
        simpa [wfW, Bool.and_eq_true, decide_eq_true_eq, and_assoc] using hwf
      have hcb : wcost (.wset vt vs) = 2 + wcostElems vs := by simp [wcost]
      have hvb := knownTtype_bounds vt hwf2.2.1
      have hrest2 : rb.rest =
          u8 vt :: (beI 4 (vs.length : Int) ++ (wvalsBytes vs ++ tail)) := by
        rw [hrest]
        simp [wvalBytes, List.append_assoc]
      have hsb := read_set_begin_ok rb vt vs.length _ hrest2
        hvb.1 hvb.2.1 hwf2.1
      have hre := readElems_bytes g
        (fun w2 rb2 tl2 hw2 hc2 hr2 => IH g (by omega) w2 rb2 tl2 hw2 hc2 hr2)
        vt vs (rb.advance 5) tail hwf2.2.2 (by omega) hsb.2
      simp only [WVal.ttypeCode, readVal]
      norm_num [ttype.BOOL, ttype.BYTE, ttype.DOUBLE, ttype.I16, ttype.I32,
        ttype.I64, ttype.BINARY, ttype.STRUCT, ttype.MAP, ttype.SET]
      rw [hsb.1]
      simp only [ok_bind]
      rw [if_pos (by simp [hwf2.2.1])]
      rw [show ((vs.length : Int)).toNat = vs.length from rfl, hre]
      simp only [ok_bind, ReadBuffer.advance_advance]
      congr 2
      simp [ReadBuffer.advance, wvalBytes, beI_length, List.length_append]
      omega
    | wlist vt vs =>
      have hwf2 : vs.length < 2 ^ 31 ∧ knownTtype vt = true ∧
          wfElems vt vs = true := by
        simpa [wfW, Bool.and_eq_true, decide_eq_true_eq, and_assoc] using hwf
      have hcb : wcost (.wlist vt vs) = 2 + wcostElems vs := by simp [wcost]
      have hvb := knownTtype_bounds vt hwf2.2.1
      have hrest2 : rb.rest =
          u8 vt :: (beI 4 (vs.length : Int) ++ (wvalsBytes vs ++ tail)) := by
        rw [hrest]
        simp [wvalBytes, List.append_assoc]
      have hsb := read_list_begin_ok rb vt vs.length _ hrest2
        hvb.1 hvb.2.1 hwf2.1
      have hre := readElems_bytes g
        (fun w2 rb2 tl2 hw2 hc2 hr2 => IH g (by omega) w2 rb2 tl2 hw2 hc2 hr2)
        vt vs (rb.advance 5) tail hwf2.2.2 (by omega) hsb.2
      simp only [WVal.ttypeCode, readVal]
      norm_num [ttype.BOOL, ttype.BYTE, ttype.DOUBLE, ttype.I16, ttype.I32,
        ttype.I64, ttype.BINARY, ttype.STRUCT, ttype.MAP, ttype.SET, ttype.LIST]
      rw [hsb.1]
      simp only [ok_bind]
      rw [if_pos (by simp [hwf2.2.1])]
      rw [show ((vs.length : Int)).toNat = vs.length from rfl, hre]
      simp only [ok_bind, ReadBuffer.advance_advance]
      congr 2
      simp [ReadBuffer.advance, wvalBytes, beI_length, List.length_append]
      omega

end OldReader

/-- `deserialize_value` inverts `serialize_value` on well-formed wire
values. -/
theorem deserialize_serialize (w : WVal) (fuel : Nat) (hwf : wfW w = true)
    (hfc : wcost w ≤ fuel) :
    deserialize_value fuel w.ttypeCode (serialize_value w) = .ok w := by
  have h := OldReader.readVal_bytes fuel w ⟨wvalBytes w, 0⟩ [] hwf hfc
    (by simp [ReadBuffer.rest])
  rw [deserialize_value, serialize_value, h]

/-! ### C2, text: UTF-8 encode/decode round-trip -/

set_option maxRecDepth 10000 in
/-- Strict UTF-8 decoding inverts encoding on scalar code points; the
encoded bytes are below 256 and at most four per character. -/
theorem utf8_roundtrip : ∀ (cps : List Nat), cps.all scalarCp = true →
    ∃ bs, pyEncodeUtf8 cps = .ok bs ∧ pyDecodeUtf8 bs = .ok cps ∧
      bs.all (fun b => decide (b < 256)) = true ∧ bs.length ≤ 4 * cps.length := by
  intro cps
  induction cps with
  | nil => exact fun _ => ⟨[], rfl, rfl, rfl, by omega⟩
  | cons c cs ih =>
    intro hall
    have hc : scalarCp c = true ∧ cs.all scalarCp = true := by
      simpa [List.all_cons] using hall
    have hs : c < 0x110000 ∧ (c < 0xD800 ∨ 0xE000 ≤ c) := by
      simpa [scalarCp, decide_eq_true_eq] using hc.1
    have hs2 : ¬(0xD800 ≤ c ∧ c < 0xE000) := by omega
    obtain ⟨bs, henc, hdec, hb, hlen⟩ := ih hc.2
    refine ⟨utf8EncodeChar c ++ bs, ?_, ?_, ?_, ?_⟩
    · simp only [pyEncodeUtf8]
      rw [if_neg hs2, henc]
      simp only [ok_bind]
    · by_cases h1 : c < 0x80
      · have hec : utf8EncodeChar c = [c] := by
          unfold utf8EncodeChar
          rw [if_pos h1]
        rw [hec]
        show pyDecodeUtf8 (c :: bs) = _
        rw [pyDecodeUtf8.eq_def]
        dsimp only
        rw [if_pos h1, hdec]
        simp only [ok_bind]
      · by_cases h2 : c < 0x800
        · have hec : utf8EncodeChar c = [0xC0 + c / 64, 0x80 + c % 64] := by
            unfold utf8EncodeChar
            rw [if_neg h1, if_pos h2]
          rw [hec]
          show pyDecodeUtf8 ((0xC0 + c / 64) :: (0x80 + c % 64) :: bs) = _
          rw [pyDecodeUtf8.eq_def]
          dsimp only
          have ha : ¬(0xC0 + c / 64 < 0x80) := by omega
          have hb2 : ¬(0xC0 + c / 64 < 0xC2) := by omega
          have hc2 : 0xC0 + c / 64 < 0xE0 := by omega
          have hd : 0x80 ≤ 0x80 + c % 64 ∧ 0x80 + c % 64 < 0xC0 := by omega
          rw [if_neg ha, if_neg hb2, if_pos hc2, if_pos hd, hdec]
          simp only [ok_bind]
          rw [show (0xC0 + c / 64 - 0xC0) * 64 + (0x80 + c % 64 - 0x80) = c
            from by omega]
        · by_cases h3 : c < 0x10000
          · have hec : utf8EncodeChar c =
                [0xE0 + c / 4096, 0x80 + c / 64 % 64, 0x80 + c % 64] := by
              unfold utf8EncodeChar
              rw [if_neg h1, if_neg h2, if_pos h3]
            rw [hec]
            show pyDecodeUtf8 ((0xE0 + c / 4096) ::
              (0x80 + c / 64 % 64) :: (0x80 + c % 64) :: bs) = _
            rw [pyDecodeUtf8.eq_def]
            dsimp only
            have ha : ¬(0xE0 + c / 4096 < 0x80) := by omega
            have hb2 : ¬(0xE0 + c / 4096 < 0xC2) := by omega
            have hc2 : ¬(0xE0 + c / 4096 < 0xE0) := by omega
            have hd : 0xE0 + c / 4096 < 0xF0 := by omega
            have he : 0x80 ≤ 0x80 + c / 64 % 64 ∧ 0x80 + c / 64 % 64 < 0xC0 ∧
                0x80 ≤ 0x80 + c % 64 ∧ 0x80 + c % 64 < 0xC0 := by omega
            rw [if_neg ha, if_neg hb2, if_neg hc2, if_pos hd, if_pos he]
            rw [show (0xE0 + c / 4096 - 0xE0) * 4096 +
              (0x80 + c / 64 % 64 - 0x80) * 64 + (0x80 + c % 64 - 0x80) = c
              from by omega]
            rw [if_pos ⟨by omega, hs2⟩, hdec]
            simp only [ok_bind]
          · have hec : utf8EncodeChar c =
                [0xF0 + c / 262144, 0x80 + c / 4096 % 64, 0x80 + c / 64 % 64,
                  0x80 + c % 64] := by
              unfold utf8EncodeChar
              rw [if_neg h1, if_neg h2, if_neg h3]
            rw [hec]
            show pyDecodeUtf8 ((0xF0 + c / 262144) :: (0x80 + c / 4096 % 64) ::
              (0x80 + c / 64 % 64) :: (0x80 + c % 64) :: bs) = _
            rw [pyDecodeUtf8.eq_def]
            dsimp only
            have ha : ¬(0xF0 + c / 262144 < 0x80) := by omega
            have hb2 : ¬(0xF0 + c / 262144 < 0xC2) := by omega
            have hc2 : ¬(0xF0 + c / 262144 < 0xE0) := by omega
            have hd : ¬(0xF0 + c / 262144 < 0xF0) := by omega
            have hd5 : 0xF0 + c / 262144 < 0xF5 := by
              have := hs.1
              omega
            have he : 0x80 ≤ 0x80 + c / 4096 % 64 ∧ 0x80 + c / 4096 % 64 < 0xC0 ∧
                0x80 ≤ 0x80 + c / 64 % 64 ∧ 0x80 + c / 64 % 64 < 0xC0 ∧
                0x80 ≤ 0x80 + c % 64 ∧ 0x80 + c % 64 < 0xC0 := by omega
            rw [if_neg ha, if_neg hb2, if_neg hc2, if_neg hd, if_pos hd5, if_pos he]
            rw [show (0xF0 + c / 262144 - 0xF0) * 262144 +
              (0x80 + c / 4096 % 64 - 0x80) * 4096 +
              (0x80 + c / 64 % 64 - 0x80) * 64 + (0x80 + c % 64 - 0x80) = c
              from by omega]
            rw [if_pos ⟨by omega, hs.1⟩, hdec]
            simp only [ok_bind]
    · simp only [List.all_append, hb, Bool.and_true]
      unfold utf8EncodeChar
      split
      · simp only [List.all_cons, List.all_nil, Bool.and_true, Bool.and_eq_true,
          decide_eq_true_eq]
        omega
      · split
        · simp only [List.all_cons, List.all_nil, Bool.and_true, Bool.and_eq_true,
            decide_eq_true_eq]
          omega
        · split
          · simp only [List.all_cons, List.all_nil, Bool.and_true,
              Bool.and_eq_true, decide_eq_true_eq]
            omega
          · simp only [List.all_cons, List.all_nil, Bool.and_true,
              Bool.and_eq_true, decide_eq_true_eq]
            have := hs.1
            omega
    · have hecl : (utf8EncodeChar c).length ≤ 4 := by
        unfold utf8EncodeChar
        split
        · simp
        · split
          · simp
          · split
            · simp
            · simp
      simp only [List.length_append, List.length_cons]
      omega

theorem validate_signed_ok (bits : Nat) (i : Int)
    (h : validate_signed_int bits i = .ok ()) :
    -(2 ^ (bits - 1)) ≤ i ∧ i ≤ 2 ^ (bits - 1) - 1 := by
  unfold validate_signed_int at h
  split at h
  · exact absurd h (by simp)
  · rename_i hc
    push_neg at hc
    omega

theorem pyMemB_false_all (x : HVal) :
    ∀ l : List HVal, pyMemB x l = false → ∀ y ∈ l, pyEqB x y = false := by
  intro l
  induction l with
  | nil => intro _ y hy; cases hy
  | cons z zs ih =>
    intro h y hy
    have h2 : pyEqB x z = false ∧ pyMemB x zs = false := by
      simpa [pyMemB] using h
    rcases List.mem_cons.mp hy with rfl | hy2
    · exact h2.1
    · exact ih h2.2 y hy2

theorem pySetAdd_fresh (acc : List HVal) (x : HVal)
    (h : pyMemB x acc = false) : pySetAdd acc x = acc ++ [x] := by
  simp [pySetAdd, h]

theorem pyDictIns_fresh (k v : HVal) :
    ∀ acc : List (HVal × HVal), (∀ p ∈ acc, pyEqB k p.1 = false) →
      pyDictIns acc k v = acc ++ [(k, v)] := by
  intro acc
  induction acc with
  | nil => intro _; rfl
  | cons q qs ih =>
    obtain ⟨k2, v2⟩ := q
    intro h
    have hk : pyEqB k k2 = false := h _ (List.mem_cons_self _ _)
    simp only [pyDictIns, hk, if_false]
    rw [ih (fun p hp => h p (List.mem_cons_of_mem _ hp))]
    rfl

theorem aupdate_fresh (n : String) (x : HVal) :
    ∀ kw : List (String × HVal), alookup kw n = none →
      aupdate kw n x = kw ++ [(n, x)] := by
  intro kw
  induction kw with
  | nil => intro _; rfl
  | cons q qs ih =>
    obtain ⟨n2, v2⟩ := q
    intro h
    have h2 : (n2 == n) = false ∧ alookup qs n = none := by
      by_cases hb : (n2 == n) = true
      · rw [alookup, if_pos hb] at h
        exact absurd h (by simp)
      · have hbf : (n2 == n) = false := by
          cases hx : (n2 == n)
          · rfl
          · exact absurd hx hb
        rw [alookup, if_neg (by simp [hbf])] at h
        exact ⟨hbf, h⟩
    simp only [aupdate, h2.1, if_false]
    rw [ih h2.2]
    rfl

theorem alookup_append_none {α : Type} (kw : List (String × α)) (n m : String)
    (x : α) (h : alookup kw m = none) (hne : n ≠ m) :
    alookup (kw ++ [(n, x)]) m = none := by
  induction kw with
  | nil =>
    simp only [List.nil_append, alookup]
    rw [if_neg (by simp [hne])]
  | cons q qs ih =>
    obtain ⟨n2, v2⟩ := q
    by_cases hb : (n2 == m) = true
    · rw [alookup, if_pos hb] at h
      exact absurd h (by simp)
    · have hbf : (n2 == m) = false := by
        cases hx : (n2 == m)
        · rfl
        · exact absurd hx hb
      rw [alookup, if_neg (by simp [hbf])] at h
      rw [List.cons_append, alookup, if_neg (by simp [hbf])]
      exact ih h

theorem fieldsWfAll_mem (fs : List FieldS) (h : fieldsWfAll fs = true) :
    ∀ f ∈ fs, TS.wf f.fspec = true := by
  induction fs with
  | nil => intro f hf; cases hf
  | cons g gs ih =>
    obtain ⟨i, nm, sp, rq, df⟩ := g
    have h2 : TS.wf sp = true ∧ fieldsWfAll gs = true := by
      simpa [fieldsWfAll, Bool.and_eq_true] using h
    intro f hf
    rcases List.mem_cons.mp hf with rfl | hf2
    · exact h2.1
    · exact ih h2.2 f hf2

theorem fieldsHeadWf_parts (fields : List FieldS)
    (h : fieldsHeadWf fields = true) :
    (fields.map FieldS.fid).Nodup ∧ (fields.map FieldS.fname).Nodup ∧
      ∀ f ∈ fields, -(2 ^ 15) ≤ f.fid ∧ f.fid < 2 ^ 15 := by
  have h2 : (fields.map FieldS.fid).Nodup ∧ (fields.map FieldS.fname).Nodup ∧
      fields.all (fun f => decide (-(2 ^ 15) ≤ f.fid ∧ f.fid < 2 ^ 15)) = true := by
    simpa [fieldsHeadWf, Bool.and_eq_true, decide_eq_true_eq, and_assoc] using h
  refine ⟨h2.1, h2.2.1, ?_⟩
  intro f hf
  have := List.all_eq_true.mp h2.2.2 f hf
  simpa using this

/-- Fields of a fid-`Nodup` list are determined by their ids. -/
theorem fid_inj (fs : List FieldS) (hnd : (fs.map FieldS.fid).Nodup)
    (g f : FieldS) (hg : g ∈ fs) (hf : f ∈ fs) (h : g.fid = f.fid) : g = f :=
  List.inj_on_of_nodup_map hnd hg hf h

/-- Per-field content of `canonFieldsB`. -/
theorem canonFields_mem (attrs : List (String × Option HVal)) :
    ∀ fs : List FieldS, canonFieldsB fs attrs = true → ∀ f ∈ fs,
      (alookup attrs f.fname = some none ∧ f.frequired = false ∧
        f.fdefault = none) ∨
      (∃ x, alookup attrs f.fname = some (some x) ∧ canonB f.fspec x = true ∧
        validateB f.fspec x = true ∧
        (f.fspec.ttypeCode = ttype.STRUCT → instanceofSurfaceB f.fspec x = true)) := by
  intro fs
  induction fs with
  | nil => intro _ f hf; cases hf
  | cons g gs ih =>
    obtain ⟨i, nm, sp, rq, df⟩ := g
    intro h f hf
    have h2 : (match alookup attrs nm with
        | none => false
        | some none => !rq && df.isNone
        | some (some x) =>
          canonB sp x &&
          (if sp.ttypeCode = ttype.STRUCT then instanceofSurfaceB sp x else true) &&
          validateB sp x) = true ∧ canonFieldsB gs attrs = true := by
      simpa [canonFieldsB, Bool.and_eq_true] using h
    rcases List.mem_cons.mp hf with rfl | hf2
    · cases hlk : alookup attrs nm with
      | none =>
        rw [hlk] at h2
        exact absurd h2.1 (by simp)
      | some v =>
        cases v with
        | none =>
          rw [hlk] at h2
          have h3 : rq = false ∧ df.isNone = true := by
            simpa [Bool.and_eq_true] using h2.1
          left
          refine ⟨hlk, h3.1, ?_⟩
          cases df with
          | none => rfl
          | some d => simp at h3
        | some x =>
          rw [hlk] at h2
          have h3 : canonB sp x = true ∧
              (if sp.ttypeCode = ttype.STRUCT then instanceofSurfaceB sp x
                else true) = true ∧ validateB sp x = true := by
            simpa [Bool.and_eq_true, and_assoc] using h2.1
          right
          refine ⟨x, hlk, h3.1, h3.2.2, ?_⟩
          intro hS
          have hS2 : sp.ttypeCode = ttype.STRUCT := hS
          have h4 := h3.2.1
          rw [if_pos hS2] at h4
          exact h4
    · exact ih h2.2 f hf2

theorem validateB_ok (t : TS) (v : HVal) (h : validateB t v = true) :
    TS.validate t v = .ok () := by
  unfold validateB at h
  cases hv : TS.validate t v with
  | ok u => cases u; rfl
  | error e =>
    rw [hv] at h
    exact absurd h (by simp)

/-- Per-field round-trip facts, packaged through `toWireOr`. -/
theorem fieldRT (fields : List FieldS) (attrs : List (String × Option HVal))
    (hIH : ∀ f ∈ fields, ∀ v : HVal, TS.wf f.fspec = true →
      canonB f.fspec v = true → validateB f.fspec v = true →
      ∃ w, TS.to_wire f.fspec v = .ok w ∧ w.ttypeCode = f.fspec.ttypeCode ∧
        wfW w = true ∧ TS.from_wire f.fspec w = .ok v)
    (hcf : canonFieldsB fields attrs = true)
    (hfw : fieldsWfAll fields = true) :
    ∀ f ∈ fields, ∀ x, attrVal attrs f.fname = some x →
      TS.to_wire f.fspec x = .ok (toWireOr f.fspec x) ∧
      (toWireOr f.fspec x).ttypeCode = f.fspec.ttypeCode ∧
      wfW (toWireOr f.fspec x) = true ∧
      TS.from_wire f.fspec (toWireOr f.fspec x) = .ok x := by
  intro f hf x hx
  rcases canonFields_mem attrs fields hcf f hf with ⟨h1, _, _⟩ | ⟨y, hy, hc, hv, _⟩
  · rw [attrVal, h1] at hx
    exact absurd hx (by simp)
  · have hxy : y = x := by
      rw [attrVal, hy] at hx
      simpa using hx
    subst hxy
    obtain ⟨w, hw, hcode, hwfw, hbk⟩ :=
      hIH f hf y (fieldsWfAll_mem fields hfw f hf) hc hv
    have htwo : toWireOr f.fspec y = w := by
      rw [toWireOr, hw]
    rw [htwo]
    exact ⟨hw, hcode, hwfw, hbk⟩

/-- `to_wire` over a struct's fields produces exactly the `wireImage`,
and it is well-formed. -/
theorem toWireFields_image (attrs : List (String × Option HVal)) :
    ∀ fields : List FieldS,
      (∀ f ∈ fields, ∀ x, attrVal attrs f.fname = some x →
        TS.to_wire f.fspec x = .ok (toWireOr f.fspec x) ∧
        (toWireOr f.fspec x).ttypeCode = f.fspec.ttypeCode ∧
        wfW (toWireOr f.fspec x) = true ∧
        TS.from_wire f.fspec (toWireOr f.fspec x) = .ok x) →
      (∀ f ∈ fields, -(2 ^ 15) ≤ f.fid ∧ f.fid < 2 ^ 15) →
      canonFieldsB fields attrs = true →
      toWireFields fields attrs = .ok (wireImage attrs fields) ∧
        wfFields (wireImage attrs fields) = true := by
  intro fields
  induction fields with
  | nil =>
    intro _ _ _
    exact ⟨by simp [toWireFields, wireImage], rfl⟩
  | cons g gs ih =>
    obtain ⟨i, nm, sp, rq, df⟩ := g
    intro hRT hrange hcf
    have hcf2 : canonFieldsB gs attrs = true := by
      have := by simpa [canonFieldsB, Bool.and_eq_true] using hcf
      exact this.2
    have hrec := ih (fun f hf => hRT f (List.mem_cons_of_mem _ hf))
      (fun f hf => hrange f (List.mem_cons_of_mem _ hf)) hcf2
    have hfn : FieldS.fname (.mk i nm sp rq df) = nm := rfl
    have hfi : FieldS.fid (.mk i nm sp rq df) = i := rfl
    have hfs : FieldS.fspec (.mk i nm sp rq df) = sp := rfl
    rcases canonFields_mem attrs _ hcf _ (List.mem_cons_self _ gs)
      with ⟨h1, _, _⟩ | ⟨x, hx, _, _, _⟩
    · have h1b : alookup attrs nm = some none := h1
      have hav : attrVal attrs nm = none := by rw [attrVal, h1b]
      refine ⟨?_, ?_⟩
      · simpa [toWireFields, getattrO, h1b, wireImage, hfn, hav] using hrec.1
      · simpa [wireImage, hfn, hav] using hrec.2
    · have hxb : alookup attrs nm = some (some x) := hx
      have hav : attrVal attrs nm = some x := by rw [attrVal, hxb]
      have hRTg : TS.to_wire sp x = .ok (toWireOr sp x) ∧
          (toWireOr sp x).ttypeCode = sp.ttypeCode ∧
          wfW (toWireOr sp x) = true ∧
          TS.from_wire sp (toWireOr sp x) = .ok x :=
        hRT _ (List.mem_cons_self _ _) x hav
      have hrangeg : -(2 ^ 15) ≤ i ∧ i < 2 ^ 15 :=
        hrange _ (List.mem_cons_self _ _)
      refine ⟨?_, ?_⟩
      · simp [toWireFields, getattrO, hxb, hRTg.1, hrec.1, wireImage, hfn,
          hfi, hfs, hav]
      · simp [wireImage, hfn, hfi, hfs, hav, wfFields, hRTg.2.1, hRTg.2.2.1,
          hrec.2, Bool.and_eq_true, decide_eq_true_eq]
        exact hrangeg

/-- Every entry `to_wire` emits carries the id of a declared field. -/
theorem wireImage_fids (attrs : List (String × Option HVal)) :
    ∀ fs : List FieldS, ∀ e ∈ wireImage attrs fs, e.1 ∈ fs.map FieldS.fid := by
  intro fs
  induction fs with
  | nil => intro e he; cases he
  | cons g gs ih =>
    intro e he
    cases hav : attrVal attrs g.fname with
    | some x =>
      simp only [wireImage, hav] at he
      rcases List.mem_cons.mp he with rfl | he2
      · simp
      · simp only [List.map_cons, List.mem_cons]
        exact Or.inr (ih e he2)
    | none =>
      simp only [wireImage, hav] at he
      simp only [List.map_cons, List.mem_cons]
      exact Or.inr (ih e he)

/-- Keys of the accumulated `from_wire` kwargs are declared field names. -/
theorem kwargsImage_names (attrs : List (String × Option HVal)) :
    ∀ fs : List FieldS, ∀ p ∈ kwargsImage attrs fs, p.1 ∈ fs.map FieldS.fname := by
  intro fs
  induction fs with
  | nil => intro p hp; cases hp
  | cons g gs ih =>
    intro p hp
    cases hav : attrVal attrs g.fname with
    | some x =>
      simp only [kwargsImage, hav] at hp
      rcases List.mem_cons.mp hp with rfl | hp2
      · simp
      · simp only [List.map_cons, List.mem_cons]
        exact Or.inr (ih p hp2)
    | none =>
      simp only [kwargsImage, hav] at hp
      simp only [List.map_cons, List.mem_cons]
      exact Or.inr (ih p hp)

/-- `wire_value.get(id, ttype)` on the emitted image finds exactly the
field's own entry (ids being unique in a linked spec). -/
theorem structGet_wireImage (attrs : List (String × Option HVal)) :
    ∀ fields : List FieldS, (fields.map FieldS.fid).Nodup →
      ∀ f ∈ fields, structGet (wireImage attrs fields) f.fid f.fspec.ttypeCode =
        match attrVal attrs f.fname with
        | some x => some (f.fid, f.fspec.ttypeCode, toWireOr f.fspec x)
        | none => none := by
  intro fields
  induction fields with
  | nil => intro _ f hf; cases hf
  | cons g gs ih =>
    intro hnd f hf
    have hnd2 : g.fid ∉ gs.map FieldS.fid ∧ (gs.map FieldS.fid).Nodup :=
      List.nodup_cons.mp (by simpa using hnd)
    rcases List.mem_cons.mp hf with rfl | hf2
    · have hrest : (wireImage attrs gs).filter
          (fun e => e.1 == f.fid && e.2.1 == f.fspec.ttypeCode) = [] := by
        rw [List.filter_eq_nil_iff]
        intro e he hc
        have hm : e.1 ∈ gs.map FieldS.fid := wireImage_fids attrs gs e he
        have hne : e.1 = f.fid := by
          have := hc
          simp [Bool.and_eq_true] at this
          exact this.1
        exact hnd2.1 (hne ▸ hm)
      cases hav : attrVal attrs f.fname with
      | some x =>
        have himg : wireImage attrs (f :: gs) =
            (f.fid, f.fspec.ttypeCode, toWireOr f.fspec x) :: wireImage attrs gs := by
          simp [wireImage, hav]
        simp [structGet, himg, List.filter_cons, hrest]
      | none =>
        have himg : wireImage attrs (f :: gs) = wireImage attrs gs := by
          simp [wireImage, hav]
        simp [structGet, himg, hrest]
    · have hne : g.fid ≠ f.fid := fun hc =>
        hnd2.1 (hc ▸ List.mem_map_of_mem _ hf2)
      have hb : (g.fid == f.fid) = false := by simp [hne]
      have hstep : structGet (wireImage attrs (g :: gs)) f.fid f.fspec.ttypeCode =
          structGet (wireImage attrs gs) f.fid f.fspec.ttypeCode := by
        cases hav : attrVal attrs g.fname with
        | some y =>
          have himg : wireImage attrs (g :: gs) =
              (g.fid, g.fspec.ttypeCode, toWireOr g.fspec y) :: wireImage attrs gs := by
            simp [wireImage, hav]
          simp only [structGet, himg, List.filter_cons]
          simp [hb]
        | none =>
          have himg : wireImage attrs (g :: gs) = wireImage attrs gs := by
            simp [wireImage, hav]
          rw [himg]
      rw [hstep]
      exact ih hnd2.2 f hf2

theorem alookup_none_keys {α : Type} (n : String) :
    ∀ l : List (String × α), (∀ p ∈ l, p.1 ≠ n) → alookup l n = none := by
  intro l
  induction l with
  | nil => intro _; rfl
  | cons q qs ih =>
    obtain ⟨k, v⟩ := q
    intro h
    have hk : (k == n) = false := by
      simp [h (k, v) (List.mem_cons_self _ _)]
    simp only [alookup, hk, Bool.false_eq_true, if_false]
    exact ih (fun p hp => h p (List.mem_cons_of_mem _ hp))

/-- The struct `from_wire` loop on the emitted image reproduces the
kwargs image. -/
theorem fromWireStructKwargs_image (attrs : List (String × Option HVal))
    (wfs : List (Int × Int × WVal)) :
    ∀ (fs : List FieldS) (kw : List (String × HVal)),
      (∀ f ∈ fs, structGet wfs f.fid f.fspec.ttypeCode =
        match attrVal attrs f.fname with
        | some x => some (f.fid, f.fspec.ttypeCode, toWireOr f.fspec x)
        | none => none) →
      (∀ f ∈ fs, ∀ x, attrVal attrs f.fname = some x →
        TS.from_wire f.fspec (toWireOr f.fspec x) = .ok x) →
      (∀ f ∈ fs, alookup kw f.fname = none) →
      (fs.map FieldS.fname).Nodup →
      fromWireStructKwargs fs wfs kw = .ok (kw ++ kwargsImage attrs fs) := by
  intro fs
  induction fs with
  | nil =>
    intro kw _ _ _ _
    simp [fromWireStructKwargs, kwargsImage]
  | cons g gs ih =>
    obtain ⟨i, nm, sp, rq, df⟩ := g
    intro kw hget hbk hfresh hnd
    have hfn : FieldS.fname (.mk i nm sp rq df) = nm := rfl
    have hnd2 : nm ∉ gs.map FieldS.fname ∧ (gs.map FieldS.fname).Nodup :=
      List.nodup_cons.mp (by simpa using hnd)
    have hget0 : structGet wfs i sp.ttypeCode =
        match attrVal attrs nm with
        | some x => some (i, sp.ttypeCode, toWireOr sp x)
        | none => none := hget _ (List.mem_cons_self _ _)
    cases hav : attrVal attrs nm with
    | none =>
      have hget1 : structGet wfs i sp.ttypeCode = none := by rw [hget0, hav]
      have hkimg : kwargsImage attrs (FieldS.mk i nm sp rq df :: gs) =
          kwargsImage attrs gs := by
        simp [kwargsImage, hfn, hav]
      rw [hkimg]
      rw [show fromWireStructKwargs (FieldS.mk i nm sp rq df :: gs) wfs kw =
          fromWireStructKwargs gs wfs kw from by
        simp [fromWireStructKwargs, hget1]]
      exact ih kw (fun f hf => hget f (List.mem_cons_of_mem _ hf))
        (fun f hf => hbk f (List.mem_cons_of_mem _ hf))
        (fun f hf => hfresh f (List.mem_cons_of_mem _ hf)) hnd2.2
    | some x =>
      have hget1 : structGet wfs i sp.ttypeCode =
          some (i, sp.ttypeCode, toWireOr sp x) := by rw [hget0, hav]
      have hbk0 : TS.from_wire sp (toWireOr sp x) = .ok x :=
        hbk _ (List.mem_cons_self _ _) x hav
      have hkimg : kwargsImage attrs (FieldS.mk i nm sp rq df :: gs) =
          (nm, x) :: kwargsImage attrs gs := by
        simp [kwargsImage, hfn, hav]
      have hupd : aupdate kw nm x = kw ++ [(nm, x)] :=
        aupdate_fresh nm x kw (hfresh _ (List.mem_cons_self _ _))
      have hfresh2 : ∀ f ∈ gs, alookup (kw ++ [(nm, x)]) f.fname = none := by
        intro f hf
        have hne : nm ≠ f.fname := fun hc =>
          hnd2.1 (hc ▸ List.mem_map_of_mem _ hf)
        exact alookup_append_none kw nm f.fname x
          (hfresh f (List.mem_cons_of_mem _ hf)) hne
      rw [hkimg]
      rw [show fromWireStructKwargs (FieldS.mk i nm sp rq df :: gs) wfs kw =
          fromWireStructKwargs gs wfs (kw ++ [(nm, x)]) from by
        simp [fromWireStructKwargs, hget1, hbk0, hupd]]
      rw [ih (kw ++ [(nm, x)]) (fun f hf => hget f (List.mem_cons_of_mem _ hf))
        (fun f hf => hbk f (List.mem_cons_of_mem _ hf)) hfresh2 hnd2.2]
      simp

/-- Looking a declared field's name up in the kwargs image gives its
attribute value. -/
theorem alookup_kwargsImage (attrs : List (String × Option HVal)) :
    ∀ fs : List FieldS, (fs.map FieldS.fname).Nodup →
      ∀ f ∈ fs, alookup (kwargsImage attrs fs) f.fname =
        match attrVal attrs f.fname with
        | some x => some x
        | none => none := by
  intro fs
  induction fs with
  | nil => intro _ f hf; cases hf
  | cons g gs ih =>
    intro hnd f hf
    have hnd2 : g.fname ∉ gs.map FieldS.fname ∧ (gs.map FieldS.fname).Nodup :=
      List.nodup_cons.mp (by simpa using hnd)
    rcases List.mem_cons.mp hf with rfl | hf2
    · cases hav : attrVal attrs f.fname with
      | some x =>
        have himg : kwargsImage attrs (f :: gs) =
            (f.fname, x) :: kwargsImage attrs gs := by
          simp [kwargsImage, hav]
        simp [himg, alookup]
      | none =>
        have himg : kwargsImage attrs (f :: gs) = kwargsImage attrs gs := by
          simp [kwargsImage, hav]
        rw [himg]
        exact alookup_none_keys f.fname (kwargsImage attrs gs) (by
          intro p hp hc
          exact hnd2.1 (hc ▸ kwargsImage_names attrs gs p hp))
    · have hne : g.fname ≠ f.fname := fun hc =>
        hnd2.1 (hc ▸ List.mem_map_of_mem _ hf2)
      have hb : (g.fname == f.fname) = false := by simp [hne]
      have hrec := ih hnd2.2 f hf2
      cases hav : attrVal attrs g.fname with
      | some y =>
        have himg : kwargsImage attrs (g :: gs) =
            (g.fname, y) :: kwargsImage attrs gs := by
          simp [kwargsImage, hav]
        rw [himg, alookup]
        have hcnd : ¬((g.fname == f.fname) = true) := by simp [hb]
        rw [if_neg hcnd]
        exact hrec
      | none =>
        have himg : kwargsImage attrs (g :: gs) = kwargsImage attrs gs := by
          simp [kwargsImage, hav]
        rw [himg]
        exact hrec

/-- `struct_init`'s per-field loop on the kwargs image rebuilds the
attribute of every constructor field. -/
theorem structInitFields_image (attrs : List (String × Option HVal))
    (K : List (String × HVal)) :
    ∀ cfs : List FieldS,
      (∀ f ∈ cfs, alookup K f.fname =
        match attrVal attrs f.fname with
        | some x => some x
        | none => none) →
      (∀ f ∈ cfs,
        (attrVal attrs f.fname = none ∧ f.frequired = false ∧
          f.fdefault = none) ∨
        (∃ x, attrVal attrs f.fname = some x ∧ validateB f.fspec x = true ∧
          (f.fspec.ttypeCode = ttype.STRUCT →
            instanceofSurfaceB f.fspec x = true))) →
      structInitFields cfs K =
        .ok (cfs.map (fun f => (f.fname, attrVal attrs f.fname))) := by
  intro cfs
  induction cfs with
  | nil => intro _ _; rfl
  | cons g gs ih =>
    obtain ⟨i, nm, sp, rq, df⟩ := g
    intro hlk hcn
    have hfn : FieldS.fname (.mk i nm sp rq df) = nm := rfl
    have hlk0 : alookup K nm =
        match attrVal attrs nm with
        | some x => some x
        | none => none := hlk _ (List.mem_cons_self _ _)
    have hrec := ih (fun f hf => hlk f (List.mem_cons_of_mem _ hf))
      (fun f hf => hcn f (List.mem_cons_of_mem _ hf))
    rcases hcn _ (List.mem_cons_self _ _) with ⟨hav, hrq, hdf⟩ | ⟨x, hav, hvx, hix⟩
    · have hav2 : attrVal attrs nm = none := hav
      have hrq2 : rq = false := hrq
      have hdf2 : df = none := hdf
      subst hrq2
      subst hdf2
      have hlk1 : alookup K nm = none := by rw [hlk0, hav2]
      rw [show structInitFields (FieldS.mk i nm sp false none :: gs) K =
          (do
            let as ← structInitFields gs K
            Except.ok ((nm, none) :: as)) from by
        simp [structInitFields, hlk1]]
      rw [hrec]
      simp [hfn, hav2]
    · have hav2 : attrVal attrs nm = some x := hav
      have hvx2 : validateB sp x = true := hvx
      have hix2 : sp.ttypeCode = ttype.STRUCT →
          instanceofSurfaceB sp x = true := hix
      have hlk1 : alookup K nm = some x := by rw [hlk0, hav2]
      by_cases hS : sp.ttypeCode = ttype.STRUCT
      · have hio : instanceofSurfaceB sp x = true := hix2 hS
        rw [show structInitFields (FieldS.mk i nm sp rq df :: gs) K =
            (do
              let as ← structInitFields gs K
              Except.ok ((nm, some x) :: as)) from by
          simp [structInitFields, hlk1, hS, hio]]
        rw [hrec]
        simp [hfn, hav2]
      · have hva : TS.validate sp x = .ok () := validateB_ok sp x hvx2
        rw [show structInitFields (FieldS.mk i nm sp rq df :: gs) K =
            (do
              let as ← structInitFields gs K
              Except.ok ((nm, some x) :: as)) from by
          simp [structInitFields, hlk1, hS, hva]]
        rw [hrec]
        simp [hfn, hav2]

/-- Every required field contributes a kwarg, so the image covers the
required count. -/
theorem kwargsImage_req_le (attrs : List (String × Option HVal)) :
    ∀ fs : List FieldS,
      (∀ f ∈ fs, f.frequired = true → ∃ x, attrVal attrs f.fname = some x) →
      (fs.filter (fun f => f.frequired && f.fdefault.isNone)).length ≤
        (kwargsImage attrs fs).length := by
  intro fs
  induction fs with
  | nil => intro _; simp [kwargsImage]
  | cons g gs ih =>
    intro h
    have hrec := ih (fun f hf => h f (List.mem_cons_of_mem _ hf))
    by_cases hq : (g.frequired && g.fdefault.isNone) = true
    · have hreq : g.frequired = true := by
        have h2 := hq
        simp [Bool.and_eq_true] at h2
        exact h2.1
      obtain ⟨x, hx⟩ := h g (List.mem_cons_self _ _) hreq
      have h1 : kwargsImage attrs (g :: gs) =
          (g.fname, x) :: kwargsImage attrs gs := by
        simp [kwargsImage, hx]
      rw [h1, List.filter_cons, if_pos hq]
      simpa using Nat.succ_le_succ hrec
    · rw [List.filter_cons, if_neg hq]
      cases hav : attrVal attrs g.fname with
      | some x =>
        have h1 : kwargsImage attrs (g :: gs) =
            (g.fname, x) :: kwargsImage attrs gs := by
          simp [kwargsImage, hav]
        rw [h1]
        exact Nat.le_trans hrec (by simp)
      | none =>
        have h1 : kwargsImage attrs (g :: gs) = kwargsImage attrs gs := by
          simp [kwargsImage, hav]
        rw [h1]
        exact hrec

theorem kwargsImage_le_length (attrs : List (String × Option HVal)) :
    ∀ fs : List FieldS, (kwargsImage attrs fs).length ≤ fs.length := by
  intro fs
  induction fs with
  | nil => simp [kwargsImage]
  | cons g gs ih =>
    cases hav : attrVal attrs g.fname with
    | some x =>
      have h1 : kwargsImage attrs (g :: gs) =
          (g.fname, x) :: kwargsImage attrs gs := by
        simp [kwargsImage, hav]
      rw [h1]
      simpa using Nat.succ_le_succ ih
    | none =>
      have h1 : kwargsImage attrs (g :: gs) = kwargsImage attrs gs := by
        simp [kwargsImage, hav]
      rw [h1]
      exact Nat.le_trans ih (by simp)

/-- An attribute list whose keys are exactly a `Nodup` name list is the
pointwise image of its own lookups. -/
theorem attrs_eq_image :
    ∀ (cfs : List FieldS) (attrs : List (String × Option HVal)),
      attrs.map Prod.fst = cfs.map FieldS.fname →
      (cfs.map FieldS.fname).Nodup →
      attrs = cfs.map (fun f => (f.fname, attrVal attrs f.fname)) := by
  intro cfs
  induction cfs with
  | nil =>
    intro attrs h _
    cases attrs with
    | nil => simp
    | cons a as => simp at h
  | cons g gs ih =>
    intro attrs h hnd
    cases attrs with
    | nil => simp at h
    | cons a as =>
      obtain ⟨n, v⟩ := a
      have h2 : n = g.fname ∧ as.map Prod.fst = gs.map FieldS.fname := by
        simpa using h
      obtain ⟨hn, htl⟩ := h2
      subst hn
      have hnd2 : g.fname ∉ gs.map FieldS.fname ∧ (gs.map FieldS.fname).Nodup :=
        List.nodup_cons.mp (by simpa using hnd)
      have hrec := ih as htl hnd2.2
      have hhead : attrVal ((g.fname, v) :: as) g.fname = v := by
        simp [attrVal, alookup]
      have htail : ∀ f ∈ gs,
          attrVal ((g.fname, v) :: as) f.fname = attrVal as f.fname := by
        intro f hf
        have hne : g.fname ≠ f.fname := fun hc =>
          hnd2.1 (hc ▸ List.mem_map_of_mem _ hf)
        have hb : (g.fname == f.fname) = false := by simp [hne]
        simp [attrVal, alookup, hb]
      rw [List.map_cons]
      congr 1
      · rw [hhead]
      · have hmap : gs.map (fun f => (f.fname, attrVal ((g.fname, v) :: as) f.fname)) =
            gs.map (fun f => (f.fname, attrVal as f.fname)) :=
          List.map_congr_left (fun f hf => by rw [htail f hf])
        rw [hmap]
        exact hrec

theorem ctorFields_mem (fields : List FieldS) (f : FieldS) :
    f ∈ ctorFields fields ↔ f ∈ fields := by
  simp only [ctorFields, List.mem_append, List.mem_filter]
  by_cases hp : (f.frequired && f.fdefault.isNone) = true <;> simp [hp]

theorem ctorFields_names_nodup (fields : List FieldS)
    (hnd : (fields.map FieldS.fname).Nodup) :
    ((ctorFields fields).map FieldS.fname).Nodup := by
  rw [ctorFields, List.map_append]
  refine List.Nodup.append ?_ ?_ ?_
  · exact List.Nodup.sublist
      (List.Sublist.map _ (List.filter_sublist _)) hnd
  · exact List.Nodup.sublist
      (List.Sublist.map _ (List.filter_sublist _)) hnd
  · intro a ha hb
    obtain ⟨f1, hf1, hfn1⟩ := List.mem_map.mp ha
    obtain ⟨f2, hf2, hfn2⟩ := List.mem_map.mp hb
    have hm1 := List.mem_filter.mp hf1
    have hm2 := List.mem_filter.mp hf2
    have he : f1 = f2 :=
      fname_inj fields hnd f1 f2 hm1.1 hm2.1 (hfn1.trans hfn2.symm)
    rw [he] at hm1
    have hp1 := hm1.2
    have hp2 := hm2.2
    simp [hp1] at hp2

/-- `struct_init` on the kwargs image rebuilds the canonical instance. -/
theorem structInit_image (sname : String) (fields : List FieldS)
    (attrs : List (String × Option HVal))
    (hnames : (fields.map FieldS.fname).Nodup)
    (hcf : canonFieldsB fields attrs = true)
    (horder : attrs.map Prod.fst = (ctorFields fields).map FieldS.fname) :
    structInit sname fields (kwargsImage attrs fields) =
      .ok (.hStruct sname attrs) := by
  have hav_of : ∀ f ∈ fields,
      (attrVal attrs f.fname = none ∧ f.frequired = false ∧
        f.fdefault = none) ∨
      (∃ x, attrVal attrs f.fname = some x ∧ validateB f.fspec x = true ∧
        (f.fspec.ttypeCode = ttype.STRUCT →
          instanceofSurfaceB f.fspec x = true)) := by
    intro f hf
    rcases canonFields_mem attrs fields hcf f hf with ⟨h1, h2, h3⟩ | ⟨x, hx, _, hv, hio⟩
    · exact Or.inl ⟨by rw [attrVal, h1], h2, h3⟩
    · exact Or.inr ⟨x, by rw [attrVal, hx], hv, hio⟩
  have hreqx : ∀ f ∈ fields, f.frequired = true →
      ∃ x, attrVal attrs f.fname = some x := by
    intro f hf hreq
    rcases hav_of f hf with ⟨_, h2, _⟩ | ⟨x, hx, _, _⟩
    · rw [hreq] at h2; cases h2
    · exact ⟨x, hx⟩
  have hga : (fields.filter (fun f => f.frequired && f.fdefault.isNone)).length ≤
      (kwargsImage attrs fields).length := kwargsImage_req_le attrs fields hreqx
  have hgb : (kwargsImage attrs fields).length ≤ fields.length :=
    kwargsImage_le_length attrs fields
  have hsif : structInitFields (ctorFields fields) (kwargsImage attrs fields) =
      .ok ((ctorFields fields).map (fun f => (f.fname, attrVal attrs f.fname))) := by
    refine structInitFields_image attrs (kwargsImage attrs fields)
      (ctorFields fields) ?_ ?_
    · intro f hf
      exact alookup_kwargsImage attrs fields hnames f ((ctorFields_mem fields f).mp hf)
    · intro f hf
      exact hav_of f ((ctorFields_mem fields f).mp hf)
  have hall : (kwargsImage attrs fields).all
      (fun kv => fields.any (fun f => f.fname == kv.1)) = true := by
    rw [List.all_eq_true]
    intro kv hkv
    rw [List.any_eq_true]
    obtain ⟨f, hf, hfn⟩ := List.mem_map.mp (kwargsImage_names attrs fields kv hkv)
    exact ⟨f, hf, by simp [hfn]⟩
  have hattrs : (ctorFields fields).map (fun f => (f.fname, attrVal attrs f.fname)) =
      attrs :=
    (attrs_eq_image (ctorFields fields) attrs horder
      (ctorFields_names_nodup fields hnames)).symm
  rw [structInit]
  have hc1 : ¬((kwargsImage attrs fields).length <
      (fields.filter (fun f => f.frequired && f.fdefault.isNone)).length) := by
    omega
  have hc2 : ¬((kwargsImage attrs fields).length > fields.length) := by omega
  rw [if_neg hc1, if_neg hc2, hsif]
  simp [hall, hattrs]

/-- Struct encode/decode round-trip, given round-trips for each field's
own spec. -/
theorem struct_round_trip (sname : String) (fields : List FieldS)
    (attrs : List (String × Option HVal))
    (hIH : ∀ f ∈ fields, ∀ v : HVal, TS.wf f.fspec = true →
      canonB f.fspec v = true → validateB f.fspec v = true →
      ∃ w, TS.to_wire f.fspec v = .ok w ∧ w.ttypeCode = f.fspec.ttypeCode ∧
        wfW w = true ∧ TS.from_wire f.fspec w = .ok v)
    (hhw : fieldsHeadWf fields = true)
    (hfw : fieldsWfAll fields = true)
    (horder : attrs.map Prod.fst = (ctorFields fields).map FieldS.fname)
    (hcf : canonFieldsB fields attrs = true) :
    toWireFields fields attrs = .ok (wireImage attrs fields) ∧
    wfFields (wireImage attrs fields) = true ∧
    TS.from_wire (.tstruct sname fields) (.wstruct (wireImage attrs fields)) =
      .ok (.hStruct sname attrs) := by
  obtain ⟨hndid, hndnm, hrange⟩ := fieldsHeadWf_parts fields hhw
  have hRT := fieldRT fields attrs hIH hcf hfw
  have henc := toWireFields_image attrs fields hRT hrange hcf
  refine ⟨henc.1, henc.2, ?_⟩
  have hget := structGet_wireImage attrs fields hndid
  have hbk : ∀ f ∈ fields, ∀ x, attrVal attrs f.fname = some x →
      TS.from_wire f.fspec (toWireOr f.fspec x) = .ok x :=
    fun f hf x hx => (hRT f hf x hx).2.2.2
  have hkw : fromWireStructKwargs fields (wireImage attrs fields) [] =
      .ok ([] ++ kwargsImage attrs fields) :=
    fromWireStructKwargs_image attrs (wireImage attrs fields) fields []
      hget hbk (fun f _ => rfl) hndnm
  have hsi := structInit_image sname fields attrs hndnm hcf horder
  have htc : typeCodeMatches (.tstruct sname fields)
      (.wstruct (wireImage attrs fields)) = .ok () := rfl
  simp [TS.from_wire, htc, hkw, hsi]

/-- An empty kwargs image means every attribute is `None`. -/
theorem kwargsImage_nil_attrVal (attrs : List (String × Option HVal)) :
    ∀ fs : List FieldS, kwargsImage attrs fs = [] →
      ∀ f ∈ fs, attrVal attrs f.fname = none := by
  intro fs
  induction fs with
  | nil => intro _ f hf; cases hf
  | cons g gs ih =>
    intro h f hf
    cases hav : attrVal attrs g.fname with
    | some x =>
      rw [show kwargsImage attrs (g :: gs) =
          (g.fname, x) :: kwargsImage attrs gs from by
        simp [kwargsImage, hav]] at h
      cases h
    | none =>
      rw [show kwargsImage attrs (g :: gs) = kwargsImage attrs gs from by
        simp [kwargsImage, hav]] at h
      rcases List.mem_cons.mp hf with rfl | hf2
      · exact hav
      · exact ih h f hf2

/-- A singleton kwargs image pins down the unique assigned field. -/
theorem kwargsImage_single_attrVal (attrs : List (String × Option HVal)) :
    ∀ (fs : List FieldS) (n0 : String) (x0 : HVal),
      kwargsImage attrs fs = [(n0, x0)] →
      ∃ k ∈ fs, k.fname = n0 ∧ attrVal attrs k.fname = some x0 ∧
        ∀ g ∈ fs, g.fname ≠ k.fname → attrVal attrs g.fname = none := by
  intro fs
  induction fs with
  | nil => intro n0 x0 h; cases h
  | cons g gs ih =>
    intro n0 x0 h
    cases hav : attrVal attrs g.fname with
    | some x =>
      rw [show kwargsImage attrs (g :: gs) =
          (g.fname, x) :: kwargsImage attrs gs from by
        simp [kwargsImage, hav]] at h
      have h2 : g.fname = n0 ∧ x = x0 ∧ kwargsImage attrs gs = [] := by
        injection h with ha hb
        injection ha with ha1 ha2
        exact ⟨ha1, ha2, hb⟩
      refine ⟨g, List.mem_cons_self _ _, h2.1, by rw [hav, h2.2.1], ?_⟩
      intro g2 hg2 hne
      rcases List.mem_cons.mp hg2 with rfl | hg3
      · exact absurd rfl hne
      · exact kwargsImage_nil_attrVal attrs gs h2.2.2 g2 hg3
    | none =>
      rw [show kwargsImage attrs (g :: gs) = kwargsImage attrs gs from by
        simp [kwargsImage, hav]] at h
      obtain ⟨k, hk, hkn, hkv, hrest⟩ := ih n0 x0 h
      refine ⟨k, List.mem_cons_of_mem _ hk, hkn, hkv, ?_⟩
      intro g2 hg2 hne
      rcases List.mem_cons.mp hg2 with rfl | hg3
      · exact hav
      · exact hrest g2 hg3 hne

/-- The union `validate` loop counts exactly the non-`None` attributes
covered by the kwargs image. -/
theorem validateUnionFields_image (attrs : List (String × Option HVal)) :
    ∀ fs : List FieldS,
      (∀ f ∈ fs,
        (alookup attrs f.fname = some none) ∨
        (∃ x, alookup attrs f.fname = some (some x) ∧
          validateB f.fspec x = true ∧
          (f.fspec.ttypeCode = ttype.STRUCT →
            instanceofSurfaceB f.fspec x = true))) →
      validateUnionFields fs attrs = .ok ((kwargsImage attrs fs).length) := by
  intro fs
  induction fs with
  | nil => intro _; simp [validateUnionFields, kwargsImage]
  | cons g gs ih =>
    obtain ⟨i, nm, sp, rq, df⟩ := g
    intro h
    have hfn : FieldS.fname (.mk i nm sp rq df) = nm := rfl
    have hrec := ih (fun f hf => h f (List.mem_cons_of_mem _ hf))
    rcases h _ (List.mem_cons_self _ _) with h1 | ⟨x, hx, hvx, hio⟩
    · have h1b : alookup attrs nm = some none := h1
      have hav : attrVal attrs nm = none := by rw [attrVal, h1b]
      simp [validateUnionFields, getattrO, h1b, hrec, kwargsImage, hfn, hav]
    · have hxb : alookup attrs nm = some (some x) := hx
      have hav : attrVal attrs nm = some x := by rw [attrVal, hxb]
      have hvx2 : validateB sp x = true := hvx
      have hio2 : sp.ttypeCode = ttype.STRUCT →
          instanceofSurfaceB sp x = true := hio
      by_cases hS : sp.ttypeCode = ttype.STRUCT
      · simp [validateUnionFields, getattrO, hxb, hS, hio2 hS, hrec,
          kwargsImage, hfn, hav]
      · have hva : TS.validate sp x = .ok () := validateB_ok sp x hvx2
        simp [validateUnionFields, getattrO, hxb, hS, hva, hrec,
          kwargsImage, hfn, hav]

/-- The union `from_wire` loop on the emitted image recovers the (at
most one-entry) kwargs image. -/
theorem fromWireUnionKwargs_image (attrs : List (String × Option HVal))
    (wfs : List (Int × Int × WVal)) :
    ∀ fs : List FieldS,
      (∀ f ∈ fs, structGet wfs f.fid f.fspec.ttypeCode =
        match attrVal attrs f.fname with
        | some x => some (f.fid, f.fspec.ttypeCode, toWireOr f.fspec x)
        | none => none) →
      (∀ f ∈ fs, ∀ x, attrVal attrs f.fname = some x →
        TS.from_wire f.fspec (toWireOr f.fspec x) = .ok x) →
      (kwargsImage attrs fs).length ≤ 1 →
      fromWireUnionKwargs fs wfs = .ok (kwargsImage attrs fs) := by
  intro fs
  induction fs with
  | nil => intro _ _ _; simp [fromWireUnionKwargs, kwargsImage]
  | cons g gs ih =>
    obtain ⟨i, nm, sp, rq, df⟩ := g
    intro hget hbk hlen
    have hfn : FieldS.fname (.mk i nm sp rq df) = nm := rfl
    have hget0 : structGet wfs i sp.ttypeCode =
        match attrVal attrs nm with
        | some x => some (i, sp.ttypeCode, toWireOr sp x)
        | none => none := hget _ (List.mem_cons_self _ _)
    cases hav : attrVal attrs nm with
    | none =>
      have hget1 : structGet wfs i sp.ttypeCode = none := by rw [hget0, hav]
      have hkimg : kwargsImage attrs (FieldS.mk i nm sp rq df :: gs) =
          kwargsImage attrs gs := by simp [kwargsImage, hfn, hav]
      rw [hkimg] at hlen ⊢
      rw [show fromWireUnionKwargs (FieldS.mk i nm sp rq df :: gs) wfs =
          fromWireUnionKwargs gs wfs from by
        simp [fromWireUnionKwargs, hget1]]
      exact ih (fun f hf => hget f (List.mem_cons_of_mem _ hf))
        (fun f hf => hbk f (List.mem_cons_of_mem _ hf)) hlen
    | some x =>
      have hget1 : structGet wfs i sp.ttypeCode =
          some (i, sp.ttypeCode, toWireOr sp x) := by rw [hget0, hav]
      have hbk0 : TS.from_wire sp (toWireOr sp x) = .ok x :=
        hbk _ (List.mem_cons_self _ _) x hav
      have hkimg : kwargsImage attrs (FieldS.mk i nm sp rq df :: gs) =
          (nm, x) :: kwargsImage attrs gs := by simp [kwargsImage, hfn, hav]
      rw [hkimg] at hlen ⊢
      have htl : kwargsImage attrs gs = [] := by
        cases hkt : kwargsImage attrs gs with
        | nil => rfl
        | cons p ps => rw [hkt] at hlen; simp at hlen
      rw [htl]
      simp [fromWireUnionKwargs, hget1, hbk0]

/-- `union_init` with no keyword arguments builds the all-`None`
instance (when the emptiness rule and `validate` allow it). -/
theorem unionInit_empty_ok (clsName : String) (fields : List FieldS) (ae : Bool)
    (hcond : fields.isEmpty = true ∨ ae = true)
    (hval : TS.validate (.tunion clsName fields ae)
      (.hStruct clsName (fields.map (fun g => (g.fname, (none : Option HVal))))) =
      .ok ()) :
    unionInit clsName fields ae [] =
      .ok (.hStruct clsName
        (fields.map (fun g => (g.fname, (none : Option HVal))))) := by
  have h0 := unionInitFields_none fields [] false (fun g _ => rfl)
  have hcnt : ((fields.map (fun g => (g.fname, (none : Option HVal)))).filter
      (fun a => a.2.isSome)) = [] := by
    rw [List.filter_eq_nil_iff]
    intro a ha
    obtain ⟨g, _, hg⟩ := List.mem_map.mp ha
    simp [← hg]
  rcases hcond with h | h
  · simp [unionInit, h0, hcnt, h, hval]
  · subst h
    simp [unionInit, h0, hcnt, hval]

/-- `union_init` with the unique keyword argument builds the instance
whose only non-`None` attribute is that field (when `validate` accepts
it). -/
theorem unionInit_single_ok (clsName : String) (fields : List FieldS) (ae : Bool)
    (f : FieldS) (v : HVal) (hnd : (fields.map FieldS.fname).Nodup)
    (hf : f ∈ fields)
    (hval : TS.validate (.tunion clsName fields ae)
      (.hStruct clsName (fields.map (fun g =>
        (g.fname, if g.fname == f.fname then some v else none)))) = .ok ()) :
    unionInit clsName fields ae [(f.fname, v)] =
      .ok (.hStruct clsName (fields.map (fun g =>
        (g.fname, if g.fname == f.fname then some v else none)))) := by
  have h1 := unionInitFields_single fields f v hnd hf
  have hall : fields.any (fun g => g.fname == f.fname) = true :=
    List.any_eq_true.mpr ⟨f, hf, by simp⟩
  have hcnt : ((fields.map (fun g =>
      (g.fname, if g.fname == f.fname then some v else none))).filter
      (fun a => a.2.isSome)).length = 1 := by
    rw [List.filter_map, List.length_map]
    have hpred : ∀ g ∈ fields,
        ((fun a => a.2.isSome) ∘ (fun g =>
          (g.fname, if g.fname == f.fname then some v else none))) g =
        (fun g => g.fname == f.fname) g := by
      intro g _
      by_cases hb : g.fname = f.fname
      · simp [hb]
      · simp [hb]
    rw [List.filter_congr hpred]
    exact filter_fname_count fields f hnd hf
  have hallc : ([(f.fname, v)].all
      (fun kv => fields.any (fun g => g.fname == kv.1))) = true := by
    simpa using hall
  simp only [unionInit, h1, ok_bind, hallc, Bool.not_true]
  rw [if_neg (by simp), hcnt, if_neg (by simp), hval]
  simp only [ok_bind]

/-- Union encode/decode round-trip, given round-trips for each field's
own spec. -/
theorem union_round_trip (uname : String) (fields : List FieldS) (ae : Bool)
    (attrs : List (String × Option HVal))
    (hIH : ∀ f ∈ fields, ∀ v : HVal, TS.wf f.fspec = true →
      canonB f.fspec v = true → validateB f.fspec v = true →
      ∃ w, TS.to_wire f.fspec v = .ok w ∧ w.ttypeCode = f.fspec.ttypeCode ∧
        wfW w = true ∧ TS.from_wire f.fspec w = .ok v)
    (hhw : fieldsHeadWf fields = true)
    (hfw : fieldsWfAll fields = true)
    (horder : attrs.map Prod.fst = fields.map FieldS.fname)
    (hcf : canonFieldsB fields attrs = true)
    (hv : validateB (.tunion uname fields ae) (.hStruct uname attrs) = true) :
    toWireFields fields attrs = .ok (wireImage attrs fields) ∧
    wfFields (wireImage attrs fields) = true ∧
    TS.from_wire (.tunion uname fields ae) (.wstruct (wireImage attrs fields)) =
      .ok (.hStruct uname attrs) := by
  obtain ⟨hndid, hndnm, hrange⟩ := fieldsHeadWf_parts fields hhw
  have hRT := fieldRT fields attrs hIH hcf hfw
  have henc := toWireFields_image attrs fields hRT hrange hcf
  refine ⟨henc.1, henc.2, ?_⟩
  have hUH : ∀ f ∈ fields,
      (alookup attrs f.fname = some none) ∨
      (∃ x, alookup attrs f.fname = some (some x) ∧
        validateB f.fspec x = true ∧
        (f.fspec.ttypeCode = ttype.STRUCT →
          instanceofSurfaceB f.fspec x = true)) := by
    intro f hf
    rcases canonFields_mem attrs fields hcf f hf with ⟨h1, _, _⟩ | ⟨x, hx, _, hvx, hio⟩
    · exact Or.inl h1
    · exact Or.inr ⟨x, hx, hvx, hio⟩
  have hvu := validateUnionFields_image attrs fields hUH
  have hval : TS.validate (.tunion uname fields ae) (.hStruct uname attrs) =
      .ok () := validateB_ok _ _ hv
  have h := hval
  simp only [TS.validate] at h
  rw [show (uname == uname) = true from by simp, if_pos rfl, hvu] at h
  simp only [ok_bind] at h
  split at h
  · exact absurd h (by simp)
  · rename_i hnc1
    split at h
    · exact absurd h (by simp)
    · rename_i hnc2
      have hL1 : (kwargsImage attrs fields).length ≤ 1 := by omega
      have hget := structGet_wireImage attrs fields hndid
      have hbk : ∀ f ∈ fields, ∀ x, attrVal attrs f.fname = some x →
          TS.from_wire f.fspec (toWireOr f.fspec x) = .ok x :=
        fun f hf x hx => (hRT f hf x hx).2.2.2
      have hkw := fromWireUnionKwargs_image attrs (wireImage attrs fields)
        fields hget hbk hL1
      have hattrs := attrs_eq_image fields attrs horder hndnm
      have htc : typeCodeMatches (.tunion uname fields ae)
          (.wstruct (wireImage attrs fields)) = .ok () := rfl
      cases hK : kwargsImage attrs fields with
      | nil =>
        have hnone := kwargsImage_nil_attrVal attrs fields hK
        have hmap : fields.map (fun f => (f.fname, attrVal attrs f.fname)) =
            fields.map (fun f => (f.fname, (none : Option HVal))) :=
          List.map_congr_left (fun f hf => by rw [hnone f hf])
        have hattrs2 : attrs =
            fields.map (fun f => (f.fname, (none : Option HVal))) := by
          rw [hattrs, hmap]
        have hval3 : TS.validate (.tunion uname fields ae)
            (.hStruct uname (fields.map (fun g =>
              (g.fname, (none : Option HVal))))) = .ok () := by
          rw [← hattrs2]
          exact hval
        have hcond2 : fields.isEmpty = true ∨ ae = true := by
          by_cases hE : fields.isEmpty = true
          · exact Or.inl hE
          · by_cases hA : ae = true
            · exact Or.inr hA
            · exfalso
              apply hnc1
              have hE2 : fields.isEmpty = false := Bool.eq_false_iff.mpr hE
              have hA2 : ae = false := Bool.eq_false_iff.mpr hA
              refine ⟨by simp [hE2], by rw [hK]; rfl, by simp [hA2]⟩
        have hui := unionInit_empty_ok uname fields ae hcond2 hval3
        have hui2 : unionInit uname fields ae [] = .ok (.hStruct uname attrs) := by
          rw [hattrs2]
          exact hui
        rw [hK] at hkw
        simp [TS.from_wire, htc, hkw, hui2]
      | cons p ps =>
        have hlen2 : (p :: ps).length ≤ 1 := by rw [← hK]; exact hL1
        have hps : ps = [] := by
          have h3 : ps.length = 0 := by simpa using hlen2
          exact List.length_eq_zero.mp h3
        subst hps
        obtain ⟨n0, x0⟩ := p
        obtain ⟨k, hk, hkn, hkx, hrest⟩ :=
          kwargsImage_single_attrVal attrs fields n0 x0 hK
        have hmap : fields.map (fun f => (f.fname, attrVal attrs f.fname)) =
            fields.map (fun g =>
              (g.fname, if g.fname == k.fname then some x0 else none)) := by
          refine List.map_congr_left ?_
          intro g hg
          by_cases hb : g.fname = k.fname
          · have hgk : g = k := fname_inj fields hndnm g k hg hk hb
            subst hgk
            simp [hkx]
          · have hbf : (g.fname == k.fname) = false := by simp [hb]
            rw [hrest g hg hb]
            simp [hbf]
        have hattrs2 : attrs = fields.map (fun g =>
            (g.fname, if g.fname == k.fname then some x0 else none)) := by
          rw [hattrs, hmap]
        have hval3 : TS.validate (.tunion uname fields ae)
            (.hStruct uname (fields.map (fun g =>
              (g.fname, if g.fname == k.fname then some x0 else none)))) =
            .ok () := by
          rw [← hattrs2]
          exact hval
        have hui := unionInit_single_ok uname fields ae k x0 hndnm hk hval3
        have hK2 : kwargsImage attrs fields = [(k.fname, x0)] := by
          rw [hK, hkn]
        rw [hK2] at hkw
        have hui2 : unionInit uname fields ae [(k.fname, x0)] =
            .ok (.hStruct uname attrs) := by
          rw [hattrs2]
          exact hui
        simp [TS.from_wire, htc, hkw, hui2]

theorem fieldS_fspec_sizeOf (f : FieldS) : sizeOf f.fspec < sizeOf f := by
  obtain ⟨i, nm, sp, rq, df⟩ := f
  show sizeOf sp < sizeOf (FieldS.mk i nm sp rq df)
  simp only [FieldS.mk.sizeOf_spec]
  omega

theorem knownTtype_spec (t : TS) : knownTtype t.ttypeCode = true := by
  cases t <;> rfl

/-- List-element encode/decode round-trip, given one for the element
spec. -/
theorem elems_round_trip (vspec : TS)
    (hIH : ∀ x : HVal, canonB vspec x = true → validateB vspec x = true →
      ∃ w, TS.to_wire vspec x = .ok w ∧ w.ttypeCode = vspec.ttypeCode ∧
        wfW w = true ∧ TS.from_wire vspec w = .ok x) :
    ∀ xs : List HVal, canonElems vspec xs = true →
      ∃ ws, toWireElems vspec xs = .ok ws ∧ ws.length = xs.length ∧
        wfElems vspec.ttypeCode ws = true ∧ fromWireElems vspec ws = .ok xs := by
  intro xs
  induction xs with
  | nil =>
    intro _
    exact ⟨[], by simp [toWireElems], rfl, rfl, by simp [fromWireElems]⟩
  | cons x xs ih =>
    intro hc
    have hc2 : canonB vspec x = true ∧ validateB vspec x = true ∧
        canonElems vspec xs = true := by
      simpa [canonElems, Bool.and_eq_true, and_assoc] using hc
    obtain ⟨w, hw, hcode, hwfw, hbk⟩ := hIH x hc2.1 hc2.2.1
    obtain ⟨ws, hws, hlen, hwfe, hdec⟩ := ih hc2.2.2
    refine ⟨w :: ws, ?_, by simp [hlen], ?_, ?_⟩
    · simp [toWireElems, hw, hws]
    · simp [wfElems, Bool.and_eq_true, hcode, hwfw, hwfe]
    · simp [fromWireElems, hbk, hdec]

/-- Set-element round-trip: re-adding decoded elements to the (distinct)
accumulator appends them in order. -/
theorem set_elems_round_trip (vspec : TS)
    (hIH : ∀ x : HVal, canonB vspec x = true → validateB vspec x = true →
      ∃ w, TS.to_wire vspec x = .ok w ∧ w.ttypeCode = vspec.ttypeCode ∧
        wfW w = true ∧ TS.from_wire vspec w = .ok x) :
    ∀ (xs acc : List HVal), canonElems vspec xs = true →
      pyDistinctFromB acc xs = true →
      ∃ ws, toWireElems vspec xs = .ok ws ∧ ws.length = xs.length ∧
        wfElems vspec.ttypeCode ws = true ∧
        fromWireSetElems vspec ws acc = .ok (acc ++ xs) := by
  intro xs
  induction xs with
  | nil =>
    intro acc _ _
    exact ⟨[], by simp [toWireElems], rfl, rfl, by simp [fromWireSetElems]⟩
  | cons x xs ih =>
    intro acc hc hd
    have hc2 : canonB vspec x = true ∧ validateB vspec x = true ∧
        canonElems vspec xs = true := by
      simpa [canonElems, Bool.and_eq_true, and_assoc] using hc
    have hd2 : pyMemB x acc = false ∧ pyDistinctFromB (acc ++ [x]) xs = true := by
      have h2 : (!pyMemB x acc) = true ∧ pyDistinctFromB (acc ++ [x]) xs = true := by
        simpa [pyDistinctFromB, Bool.and_eq_true] using hd
      exact ⟨by simpa using h2.1, h2.2⟩
    obtain ⟨w, hw, hcode, hwfw, hbk⟩ := hIH x hc2.1 hc2.2.1
    obtain ⟨ws, hws, hlen, hwfe, hdec⟩ := ih (acc ++ [x]) hc2.2.2 hd2.2
    refine ⟨w :: ws, ?_, by simp [hlen], ?_, ?_⟩
    · simp [toWireElems, hw, hws]
    · simp [wfElems, Bool.and_eq_true, hcode, hwfw, hwfe]
    · have hadd : pySetAdd acc x = acc ++ [x] := pySetAdd_fresh acc x hd2.1
      rw [show fromWireSetElems vspec (w :: ws) acc =
          fromWireSetElems vspec ws (acc ++ [x]) from by
        simp [fromWireSetElems, hbk, hadd]]
      rw [hdec]
      simp

/-- Map-pair round-trip: rebuilding the dict pair by pair (with distinct
keys) appends them in order. -/
theorem map_pairs_round_trip (kspec vspec : TS)
    (hIHk : ∀ x : HVal, canonB kspec x = true → validateB kspec x = true →
      ∃ w, TS.to_wire kspec x = .ok w ∧ w.ttypeCode = kspec.ttypeCode ∧
        wfW w = true ∧ TS.from_wire kspec w = .ok x)
    (hIHv : ∀ x : HVal, canonB vspec x = true → validateB vspec x = true →
      ∃ w, TS.to_wire vspec x = .ok w ∧ w.ttypeCode = vspec.ttypeCode ∧
        wfW w = true ∧ TS.from_wire vspec w = .ok x) :
    ∀ (ps acc : List (HVal × HVal)), canonPairsB kspec vspec ps = true →
      pyDistinctFromB (acc.map Prod.fst) (ps.map Prod.fst) = true →
      ∃ wps, toWirePairs kspec vspec ps = .ok wps ∧ wps.length = ps.length ∧
        wfPairs kspec.ttypeCode vspec.ttypeCode wps = true ∧
        fromWirePairs kspec vspec wps acc = .ok (acc ++ ps) := by
  intro ps
  induction ps with
  | nil =>
    intro acc _ _
    exact ⟨[], by simp [toWirePairs], rfl, rfl, by simp [fromWirePairs]⟩
  | cons p ps ih =>
    obtain ⟨k, v⟩ := p
    intro acc hc hd
    have hc2 : canonB kspec k = true ∧ validateB kspec k = true ∧
        canonB vspec v = true ∧ validateB vspec v = true ∧
        canonPairsB kspec vspec ps = true := by
      simpa [canonPairsB, Bool.and_eq_true, and_assoc] using hc
    have hd2 : pyMemB k (acc.map Prod.fst) = false ∧
        pyDistinctFromB (acc.map Prod.fst ++ [k]) (ps.map Prod.fst) = true := by
      have h2 : (!pyMemB k (acc.map Prod.fst)) = true ∧
          pyDistinctFromB (acc.map Prod.fst ++ [k]) (ps.map Prod.fst) = true := by
        simpa [pyDistinctFromB, Bool.and_eq_true] using hd
      exact ⟨by simpa using h2.1, h2.2⟩
    obtain ⟨wk, hwk, hcodek, hwfk, hbkk⟩ := hIHk k hc2.1 hc2.2.1
    obtain ⟨wv, hwv, hcodev, hwfv, hbkv⟩ := hIHv v hc2.2.2.1 hc2.2.2.2.1
    have hd3 : pyDistinctFromB ((acc ++ [(k, v)]).map Prod.fst)
        (ps.map Prod.fst) = true := by
      simpa [List.map_append] using hd2.2
    obtain ⟨wps, hwps, hlen, hwfp, hdec⟩ := ih (acc ++ [(k, v)]) hc2.2.2.2.2 hd3
    refine ⟨(wk, wv) :: wps, ?_, by simp [hlen], ?_, ?_⟩
    · simp [toWirePairs, hwk, hwv, hwps]
    · simp [wfPairs, Bool.and_eq_true, hcodek, hcodev, hwfk, hwfv, hwfp]
    · have hins : pyDictIns acc k v = acc ++ [(k, v)] := by
        refine pyDictIns_fresh k v acc ?_
        intro q hq
        exact pyMemB_false_all k (acc.map Prod.fst) hd2.1 q.1
          (List.mem_map_of_mem _ hq)
      rw [show fromWirePairs kspec vspec ((wk, wv) :: wps) acc =
          fromWirePairs kspec vspec wps (acc ++ [(k, v)]) from by
        simp [fromWirePairs, hbkk, hbkv, hins]]
      rw [hdec]
      simp

set_option maxRecDepth 8192 in
/-- The bridge round-trip: on a well-formed spec, a canonical validated
host value encodes to a well-formed wire value of the spec's ttype and
decodes back to itself. -/
theorem bridge_round_trip :
    ∀ (n : Nat) (t : TS), sizeOf t ≤ n → ∀ v : HVal, TS.wf t = true →
      canonB t v = true → validateB t v = true →
      ∃ w, TS.to_wire t v = .ok w ∧ w.ttypeCode = t.ttypeCode ∧
        wfW w = true ∧ TS.from_wire t w = .ok v := by
  intro n
  induction n using Nat.strong_induction_on with
  | _ n IH =>
    intro t hsz v hwf hc hv
    cases t with
    | tbool =>
      cases v
      case hBool b =>
        exact ⟨.wbool b, by simp [TS.to_wire, pyTruthy], rfl, rfl,
          by simp [TS.from_wire, typeCodeMatches, TS.ttypeCode, WVal.ttypeCode]⟩
      all_goals simp [canonB] at hc
    | tbyte =>
      cases v
      case hInt i =>
        have hva : validate_signed_int 8 i = .ok () := by
          have h := validateB_ok _ _ hv
          simpa [TS.validate, isIntegral, pyIntValue] using h
        have hr := validate_signed_ok 8 i hva
        refine ⟨.wbyte i, by simp [TS.to_wire, pyIntCast], rfl, ?_, ?_⟩
        · simp only [wfW, decide_eq_true_eq]
          constructor <;> omega
        · simp [TS.from_wire, typeCodeMatches, TS.ttypeCode, WVal.ttypeCode]
      all_goals simp [canonB] at hc
    | ti16 =>
      cases v
      case hInt i =>
        have hva : validate_signed_int 16 i = .ok () := by
          have h := validateB_ok _ _ hv
          simpa [TS.validate, isIntegral, pyIntValue] using h
        have hr := validate_signed_ok 16 i hva
        refine ⟨.wi16 i, by simp [TS.to_wire, pyIntCast], rfl, ?_, ?_⟩
        · simp only [wfW, decide_eq_true_eq]
          constructor <;> omega
        · simp [TS.from_wire, typeCodeMatches, TS.ttypeCode, WVal.ttypeCode]
      all_goals simp [canonB] at hc
    | ti32 =>
      cases v
      case hInt i =>
        have hva : validate_signed_int 32 i = .ok () := by
          have h := validateB_ok _ _ hv
          simpa [TS.validate, isIntegral, pyIntValue] using h
        have hr := validate_signed_ok 32 i hva
        refine ⟨.wi32 i, by simp [TS.to_wire, pyIntCast], rfl, ?_, ?_⟩
        · simp only [wfW, decide_eq_true_eq]
          constructor <;> omega
        · simp [TS.from_wire, typeCodeMatches, TS.ttypeCode, WVal.ttypeCode]
      all_goals simp [canonB] at hc
    | ti64 =>
      cases v
      case hInt i =>
        have hva : validate_signed_int 64 i = .ok () := by
          have h := validateB_ok _ _ hv
          simpa [TS.validate, isIntegral, pyIntValue] using h
        have hr := validate_signed_ok 64 i hva
        refine ⟨.wi64 i, by simp [TS.to_wire, pyIntCast], rfl, ?_, ?_⟩
        · simp only [wfW, decide_eq_true_eq]
          constructor <;> omega
        · simp [TS.from_wire, typeCodeMatches, TS.ttypeCode, WVal.ttypeCode]
      all_goals simp [canonB] at hc
    | tdouble =>
      cases v
      case hFloat bits =>
        have hb : bits < 2 ^ 64 := by simpa [canonB] using hc
        refine ⟨.wdouble bits, by simp [TS.to_wire, pyFloatCast], rfl, ?_, ?_⟩
        · simp only [wfW, decide_eq_true_eq]
          omega
        · simp [TS.from_wire, typeCodeMatches, TS.ttypeCode, WVal.ttypeCode]
      all_goals simp [canonB] at hc
    | tbinary =>
      cases v
      case hBytes bs =>
        have hcb : bs.length < 2 ^ 31 ∧
            bs.all (fun b => decide (b < 256)) = true := by
          simpa [canonB, Bool.and_eq_true] using hc
        refine ⟨.wbinary bs, by simp [TS.to_wire], rfl, ?_, ?_⟩
        · simp [wfW, Bool.and_eq_true, hcb.2]
          have := hcb.1
          omega
        · simp [TS.from_wire, typeCodeMatches, TS.ttypeCode, WVal.ttypeCode]
      all_goals simp [canonB] at hc
    | tstring =>
      cases v
      case hStr cps =>
        have hcb : cps.length < 2 ^ 29 ∧ cps.all scalarCp = true := by
          simpa [canonB, Bool.and_eq_true] using hc
        obtain ⟨bs, henc, hdec, hall, hlen⟩ := utf8_roundtrip cps hcb.2
        refine ⟨.wbinary bs, ?_, rfl, ?_, ?_⟩
        · simp [TS.to_wire, henc]
        · simp [wfW, Bool.and_eq_true, hall]
          have := hcb.1
          omega
        · simp [TS.from_wire, typeCodeMatches, TS.ttypeCode, WVal.ttypeCode, hdec]
      all_goals simp [canonB] at hc
    | tenum en items =>
      cases v
      case hInt i =>
        have hva : TS.validate (.tenum en items) (.hInt i) = .ok () :=
          validateB_ok _ _ hv
        have hr : -(2 ^ 31) ≤ i ∧ i ≤ 2 ^ 31 - 1 := by
          have h2 := hva
          rw [show TS.validate (.tenum en items) (.hInt i) =
              (if i < -(2 ^ 31) ∨ i > 2 ^ 31 - 1 then .error .valueError
               else .ok ())
            from by simp [TS.validate, isIntegral, pyIntValue]] at h2
          split at h2
          · simp at h2
          · rename_i hcnd
            push_neg at hcnd
            omega
        refine ⟨.wi32 i, by simp [TS.to_wire, isIntegral, pyIntValue], rfl, ?_, ?_⟩
        · simp only [wfW, decide_eq_true_eq]
          constructor <;> omega
        · simp [TS.from_wire, typeCodeMatches, TS.ttypeCode, WVal.ttypeCode]
      all_goals simp [canonB] at hc
    | tlist vspec =>
      have hwf2 : TS.wf vspec = true := by simpa [TS.wf] using hwf
      have hIHe : ∀ x : HVal, canonB vspec x = true → validateB vspec x = true →
          ∃ w, TS.to_wire vspec x = .ok w ∧ w.ttypeCode = vspec.ttypeCode ∧
            wfW w = true ∧ TS.from_wire vspec w = .ok x := by
        intro x hcx hvx
        have h1 : sizeOf vspec < sizeOf (TS.tlist vspec) := by
          simp only [TS.tlist.sizeOf_spec]
          omega
        exact IH (sizeOf vspec) (by omega) vspec (Nat.le_refl _) x hwf2 hcx hvx
      cases v
      case hList xs =>
        have hcb : xs.length < 2 ^ 31 ∧ canonElems vspec xs = true := by
          simpa [canonB, Bool.and_eq_true] using hc
        obtain ⟨ws, hws, hlen, hwfe, hdecs⟩ := elems_round_trip vspec hIHe xs hcb.2
        refine ⟨.wlist vspec.ttypeCode ws, ?_, rfl, ?_, ?_⟩
        · simp [TS.to_wire, pyIter, hws]
        · simp [wfW, Bool.and_eq_true, hwfe, knownTtype_spec]
          have := hcb.1
          omega
        · simp [TS.from_wire, typeCodeMatches, TS.ttypeCode, WVal.ttypeCode, hdecs]
      all_goals simp [canonB] at hc
    | tset vspec =>
      have hwf2 : TS.wf vspec = true := by simpa [TS.wf] using hwf
      have hIHe : ∀ x : HVal, canonB vspec x = true → validateB vspec x = true →
          ∃ w, TS.to_wire vspec x = .ok w ∧ w.ttypeCode = vspec.ttypeCode ∧
            wfW w = true ∧ TS.from_wire vspec w = .ok x := by
        intro x hcx hvx
        have h1 : sizeOf vspec < sizeOf (TS.tset vspec) := by
          simp only [TS.tset.sizeOf_spec]
          omega
        exact IH (sizeOf vspec) (by omega) vspec (Nat.le_refl _) x hwf2 hcx hvx
      cases v
      case hSet xs =>
        have hcb : xs.length < 2 ^ 31 ∧ canonElems vspec xs = true ∧
            pyDistinctB xs = true := by
          simpa [canonB, Bool.and_eq_true, and_assoc] using hc
        obtain ⟨ws, hws, hlen, hwfe, hdecs⟩ :=
          set_elems_round_trip vspec hIHe xs [] hcb.2.1 hcb.2.2
        refine ⟨.wset vspec.ttypeCode ws, ?_, rfl, ?_, ?_⟩
        · simp [TS.to_wire, pyIter, hws]
        · simp [wfW, Bool.and_eq_true, hwfe, knownTtype_spec]
          have := hcb.1
          omega
        · simp [TS.from_wire, typeCodeMatches, TS.ttypeCode, WVal.ttypeCode, hdecs]
      all_goals simp [canonB] at hc
    | tmap kspec vspec =>
      have hwf2 : TS.wf kspec = true ∧ TS.wf vspec = true := by
        simpa [TS.wf, Bool.and_eq_true] using hwf
      have hszk : sizeOf kspec < sizeOf (TS.tmap kspec vspec) := by
        simp only [TS.tmap.sizeOf_spec]
        omega
      have hszv : sizeOf vspec < sizeOf (TS.tmap kspec vspec) := by
        simp only [TS.tmap.sizeOf_spec]
        omega
      have hIHk : ∀ x : HVal, canonB kspec x = true → validateB kspec x = true →
          ∃ w, TS.to_wire kspec x = .ok w ∧ w.ttypeCode = kspec.ttypeCode ∧
            wfW w = true ∧ TS.from_wire kspec w = .ok x := by
        intro x hcx hvx
        exact IH (sizeOf kspec) (by omega) kspec (Nat.le_refl _) x hwf2.1 hcx hvx
      have hIHv : ∀ x : HVal, canonB vspec x = true → validateB vspec x = true →
          ∃ w, TS.to_wire vspec x = .ok w ∧ w.ttypeCode = vspec.ttypeCode ∧
            wfW w = true ∧ TS.from_wire vspec w = .ok x := by
        intro x hcx hvx
        exact IH (sizeOf vspec) (by omega) vspec (Nat.le_refl _) x hwf2.2 hcx hvx
      cases v
      case hDict ps =>
        have hcb : ps.length < 2 ^ 31 ∧ canonPairsB kspec vspec ps = true ∧
            pyDistinctB (ps.map Prod.fst) = true := by
          simpa [canonB, Bool.and_eq_true, and_assoc] using hc
        obtain ⟨wps, hwps, hlen, hwfp, hdecs⟩ :=
          map_pairs_round_trip kspec vspec hIHk hIHv ps [] hcb.2.1
            (by simpa [pyDistinctB] using hcb.2.2)
        refine ⟨.wmap kspec.ttypeCode vspec.ttypeCode wps, ?_, rfl, ?_, ?_⟩
        · simp [TS.to_wire, hwps]
        · simp [wfW, Bool.and_eq_true, hwfp, knownTtype_spec]
          have := hcb.1
          omega
        · simp [TS.from_wire, typeCodeMatches, TS.ttypeCode, WVal.ttypeCode, hdecs]
      all_goals simp [canonB] at hc
    | tstruct sname fields =>
      cases v
      case hStruct name2 attrs =>
        have hcb : (sname == name2) = true ∧
            (attrs.map Prod.fst == (ctorFields fields).map FieldS.fname) = true ∧
            canonFieldsB fields attrs = true := by
          simpa [canonB, Bool.and_eq_true, and_assoc] using hc
        have hname : sname = name2 := by simpa using hcb.1
        subst hname
        have horder : attrs.map Prod.fst =
            (ctorFields fields).map FieldS.fname := by
          simpa using hcb.2.1
        have hwf2 : fieldsHeadWf fields = true ∧ fieldsWfAll fields = true := by
          simpa [TS.wf, Bool.and_eq_true] using hwf
        have hIHf : ∀ f ∈ fields, ∀ x : HVal, TS.wf f.fspec = true →
            canonB f.fspec x = true → validateB f.fspec x = true →
            ∃ w, TS.to_wire f.fspec x = .ok w ∧
              w.ttypeCode = f.fspec.ttypeCode ∧
              wfW w = true ∧ TS.from_wire f.fspec w = .ok x := by
          intro f hf x hwfx hcx hvx
          have h1 : sizeOf f < sizeOf fields := List.sizeOf_lt_of_mem hf
          have h2 : sizeOf f.fspec < sizeOf f := fieldS_fspec_sizeOf f
          have h3 : sizeOf fields < sizeOf (TS.tstruct sname fields) := by
            simp only [TS.tstruct.sizeOf_spec]
            omega
          exact IH (sizeOf f.fspec) (by omega) f.fspec (Nat.le_refl _) x
            hwfx hcx hvx
        obtain ⟨henc, hwfs, hdec⟩ := struct_round_trip sname fields attrs hIHf
          hwf2.1 hwf2.2 horder hcb.2.2
        refine ⟨.wstruct (wireImage attrs fields), ?_, rfl, ?_, hdec⟩
        · simp [TS.to_wire, henc]
        · simp [wfW, hwfs]
      all_goals simp [canonB] at hc
    | tunion uname fields ae =>
      cases v
      case hStruct name2 attrs =>
        have hcb : (uname == name2) = true ∧
            (attrs.map Prod.fst == fields.map FieldS.fname) = true ∧
            canonFieldsB fields attrs = true := by
          simpa [canonB, Bool.and_eq_true, and_assoc] using hc
        have hname : uname = name2 := by simpa using hcb.1
        subst hname
        have horder : attrs.map Prod.fst = fields.map FieldS.fname := by
          simpa using hcb.2.1
        have hwf2 : fieldsHeadWf fields = true ∧ fieldsWfAll fields = true := by
          simpa [TS.wf, Bool.and_eq_true] using hwf
        have hIHf : ∀ f ∈ fields, ∀ x : HVal, TS.wf f.fspec = true →
            canonB f.fspec x = true → validateB f.fspec x = true →
            ∃ w, TS.to_wire f.fspec x = .ok w ∧
              w.ttypeCode = f.fspec.ttypeCode ∧
              wfW w = true ∧ TS.from_wire f.fspec w = .ok x := by
          intro f hf x hwfx hcx hvx
          have h1 : sizeOf f < sizeOf fields := List.sizeOf_lt_of_mem hf
          have h2 : sizeOf f.fspec < sizeOf f := fieldS_fspec_sizeOf f
          have h3 : sizeOf fields < sizeOf (TS.tunion uname fields ae) := by
            simp only [TS.tunion.sizeOf_spec]
            omega
          exact IH (sizeOf f.fspec) (by omega) f.fspec (Nat.le_refl _) x
            hwfx hcx hvx
        obtain ⟨henc, hwfs, hdec⟩ := union_round_trip uname fields ae attrs hIHf
          hwf2.1 hwf2.2 horder hcb.2.2 hv
        refine ⟨.wstruct (wireImage attrs fields), ?_, rfl, ?_, hdec⟩
        · simp [TS.to_wire, henc]
        · simp [wfW, hwfs]
      all_goals simp [canonB] at hc

/-- C2 counterexample: the bool spec's `validate` accepts the plain
integer 5 (any integral value is accepted), but the wire round-trip turns
it into `True`: `from_wire(to_wire(5))` is `True`, which is a different
value from 5 and not even Python-equal to it. -/
theorem bool_round_trip_not_identity :
    TS.validate .tbool (.hInt 5) = .ok () ∧
    TS.to_wire .tbool (.hInt 5) = .ok (.wbool true) ∧
    TS.from_wire .tbool (.wbool true) = .ok (.hBool true) ∧
    HVal.hBool true ≠ HVal.hInt 5 ∧
    pyEqB (.hBool true) (.hInt 5) = false := by
  refine ⟨?_, ?_, ?_, by simp, by simp [pyEqB]⟩
  · simp [TS.validate, isIntegral]
  · simp [TS.to_wire, pyTruthy]
  · simp [TS.from_wire, typeCodeMatches, TS.ttypeCode, WVal.ttypeCode]

/-- C2 (as amended): the wire round-trip is the identity on canonical
validated values: for every well-formed spec `t` and value `v` in the
spec's canonical surface form that `t.validate` accepts,
`t.to_wire v` succeeds with a well-formed wire value of `t`'s ttype and
`t.from_wire` maps it back to `v`; and the binary codec round-trips every
well-formed wire value: deserializing the serialized bytes at the value's
ttype yields the value back (given enough fuel for the embedding's
reader). `validate` alone is not enough: it accepts looser surface forms
(e.g. any integral for bool) that do not come back unchanged. -/
theorem round_trip_identity :
    (∀ (t : TS) (v : HVal), TS.wf t = true → canonB t v = true →
      validateB t v = true →
      ∃ w, TS.to_wire t v = .ok w ∧ w.ttypeCode = t.ttypeCode ∧
        wfW w = true ∧ TS.from_wire t w = .ok v) ∧
    (∀ (w : WVal) (fuel : Nat), wfW w = true → wcost w ≤ fuel →
      deserialize_value fuel w.ttypeCode (serialize_value w) = .ok w) :=
  ⟨fun t v hwf hc hv =>
    bridge_round_trip (sizeOf t) t (Nat.le_refl _) v hwf hc hv,
   fun w fuel hwf hfc => deserialize_serialize w fuel hwf hfc⟩

/-- C2 witness: the i32 spec round-trips the canonical integer 5, and
the codec round-trips the wire value `wi32 7`. -/
theorem round_trip_identity_witness :
    (∃ w, TS.to_wire .ti32 (.hInt 5) = .ok w ∧
      w.ttypeCode = TS.ttypeCode .ti32 ∧
      wfW w = true ∧ TS.from_wire .ti32 w = .ok (.hInt 5)) ∧
    deserialize_value 1 (WVal.wi32 7).ttypeCode (serialize_value (.wi32 7)) =
      .ok (.wi32 7) :=
  ⟨round_trip_identity.1 .ti32 (.hInt 5) (by simp [TS.wf]) (by simp [canonB])
    (by simp [validateB, TS.validate, isIntegral, pyIntValue,
      validate_signed_int]),
   round_trip_identity.2 (.wi32 7) 1 (by simp [wfW]) (by simp [wcost])⟩

end Thriftrw
